import Mathlib

/-!
# git-cursor-log: the cursor walker

A shallow embedding of `git-cursor-log.cc` and a verification of its
specification.

Modelling decisions, all read off the source:

* `git_oid` is an opaque identifier; the program only compares identifiers for
  equality (through `std::set`), so natural numbers stand for them.
* `git_commit` is what the program reads of a commit through libgit2: its id,
  its committer time and its ordered parent ids.
* `git_repository` is a finite list of commits; `git_commit_lookup` returns the
  first commit stored under the identifier asked for, so a commit found under an
  identifier carries that identifier.
* `std::priority_queue<revwalk_queue_entry>` is library code.  The C++ standard
  fixes its contract, not its tie-break, so the walker is written over an
  arbitrary implementation `priority_queue` satisfying that contract with respect
  to the program's own `operator<`.  `list_queue` is a concrete implementation.
* `size_t cursor_offset` is a natural number: it starts at 0 and grows by at most
  one for each commit popped, so it cannot wrap before `SIZE_MAX` commits have
  been walked.
* `exit(EXIT_FAILURE)` inside `next_oid` is the error result `fault.lookup_failed`;
  `top()` of an empty queue (undefined behaviour in C++) is `fault.empty_top`.
* `main` runs over an `environment` that supplies `getenv("GIT_DIR")`, `atoi`,
  `git_repository_open` and `git_revparse_single`; its result is the lines
  printed, the text on the error stream and the exit status.
-/

namespace GitCursorLog

/-! ## Data model -/

/-- Object identifier (`git_oid`). -/
abbrev git_oid := Nat

/-- Commit as the program reads it: `git_commit_id`, the committer time
`git_commit_committer(c)->when.time`, and the parent ids
`git_commit_parent_id(c, 0..parentcount-1)`. -/
structure git_commit where
  id : git_oid
  time : Int
  parents : List git_oid
deriving DecidableEq, Repr

/-- Object database: a finite list of commits. -/
abbrev git_repository := List git_commit

/-- Lookup of a commit by id (`git_commit_lookup`); `none` is the nonzero error
return. -/
def git_commit_lookup (repo : git_repository) (oid : git_oid) : Option git_commit :=
  repo.find? (fun c => decide (c.id = oid))

/-- Number of parents (`git_commit_parentcount`). -/
def git_commit_parentcount (c : git_commit) : Nat := c.parents.length

/-- Entry of the priority queue: `struct revwalk_queue_entry`. -/
structure revwalk_queue_entry where
  commit : git_commit
deriving DecidableEq, Repr

/-- Committer time of the entry's commit: `revwalk_queue_entry::committed_at`. -/
def revwalk_queue_entry.committed_at (e : revwalk_queue_entry) : Int :=
  e.commit.time

/-- Ordering of entries: `revwalk_queue_entry::operator<`. -/
def revwalk_queue_entry.lt (a b : revwalk_queue_entry) : Bool :=
  decide (a.committed_at < b.committed_at)

/-- Implementation of `std::priority_queue<revwalk_queue_entry>` together with
the contract the C++ standard gives it: `entries` is the content of the
underlying container; `top` is an entry that is not `operator<` any other entry;
`pop` removes that entry; `push` adds one entry; a queue without entries is the
default-constructed queue. -/
structure priority_queue where
  /-- States of the queue. -/
  Q : Type
  /-- Default-constructed queue. -/
  empty_queue : Q
  /-- Member `push`. -/
  push : Q → revwalk_queue_entry → Q
  /-- Member `top`; `none` on an empty queue. -/
  top : Q → Option revwalk_queue_entry
  /-- Member `pop`. -/
  pop : Q → Q
  /-- Member `empty`. -/
  empty : Q → Bool
  /-- Content of the underlying container. -/
  entries : Q → List revwalk_queue_entry
  entries_empty_queue : entries empty_queue = []
  entries_push : ∀ q e, (entries (push q e)).Perm (e :: entries q)
  empty_iff : ∀ q, empty q = true ↔ entries q = []
  top_eq_none : ∀ q, top q = none ↔ entries q = []
  top_mem : ∀ q e, top q = some e → e ∈ entries q
  top_max : ∀ q e, top q = some e → ∀ x ∈ entries q, revwalk_queue_entry.lt e x = false
  entries_pop : ∀ q e, top q = some e → (entries (pop q)).Perm ((entries q).erase e)
  eq_empty_queue : ∀ q, entries q = [] → q = empty_queue

/-- Top of the list queue: the earliest pushed entry among those that no entry
exceeds under `operator<`. -/
def list_queue_top (q : List revwalk_queue_entry) : Option revwalk_queue_entry :=
  q.find? (fun e => q.all (fun x => !revwalk_queue_entry.lt e x))

/-- Pop of the list queue: erase the top entry. -/
def list_queue_pop (q : List revwalk_queue_entry) : List revwalk_queue_entry :=
  match list_queue_top q with
  | none => q
  | some e => q.erase e

/-- A concrete priority queue: the entries in push order, the top found by a
scan. -/
def list_queue : priority_queue where
  Q := List revwalk_queue_entry
  empty_queue := []
  push := fun q e => q ++ [e]
  top := list_queue_top
  pop := list_queue_pop
  empty := fun q => q.isEmpty
  entries := fun q => q
  entries_empty_queue := rfl
  entries_push := fun q e => List.perm_append_singleton e q
  empty_iff := fun q => List.isEmpty_iff
  top_eq_none := by
    intro q
    constructor
    · intro h
      by_contra hne
      have hne2 : q.toFinset.Nonempty := by
        obtain ⟨x, hx⟩ := List.exists_mem_of_ne_nil q hne
        exact ⟨x, List.mem_toFinset.mpr hx⟩
      obtain ⟨m, hm, hmax⟩ :=
        Finset.exists_max_image q.toFinset revwalk_queue_entry.committed_at hne2
      have hall := List.find?_eq_none.mp h m (List.mem_toFinset.mp hm)
      apply hall
      simp only [List.all_eq_true, Bool.not_eq_eq_eq_not, Bool.not_true]
      intro x hx
      have := hmax x (List.mem_toFinset.mpr hx)
      simp only [revwalk_queue_entry.lt, decide_eq_false_iff_not, not_lt]
      exact this
    · intro h
      subst h
      rfl
  top_mem := fun q e h => List.mem_of_find?_eq_some h
  top_max := by
    intro q e h x hx
    have hp := List.find?_some h
    simp only [List.all_eq_true, Bool.not_eq_eq_eq_not, Bool.not_true] at hp
    exact hp x hx
  entries_pop := by
    intro q e h
    show (list_queue_pop q).Perm (q.erase e)
    unfold list_queue_pop
    rw [show list_queue_top q = some e from h]
  eq_empty_queue := fun q h => h

/-- Failure of `next_oid`. -/
inductive fault where
  /-- `pq.top()` on an empty queue. -/
  | empty_top
  /-- `git_commit_lookup` failed: `giterr_fatal`, hence `exit(EXIT_FAILURE)`. -/
  | lookup_failed
deriving DecidableEq, Repr

/-- The walker: `struct revwalk` over a queue implementation `P`. -/
structure revwalk (P : priority_queue) where
  repo : git_repository
  pq : P.Q
  seen : List git_oid
  cursor_root : git_oid
  cursor_offset : Nat

/-- Constructor `revwalk::revwalk(repo, start_commit)`. -/
def revwalk.init (P : priority_queue) (repo : git_repository) (start_commit : git_commit) :
    revwalk P :=
  { repo := repo
    pq := P.push P.empty_queue ⟨start_commit⟩
    seen := []
    cursor_root := start_commit.id
    cursor_offset := 0 }

/-- Member `revwalk::has_next`. -/
def revwalk.has_next {P : priority_queue} (rw : revwalk P) : Bool :=
  !P.empty rw.pq

/-- The `for` loop of `next_oid` over the parent ids still to scan: a parent in
`seen` is skipped; any other is looked up (a failed lookup is fatal), pushed, and
its id inserted into `seen`. -/
def push_parents (P : priority_queue) (repo : git_repository) :
    List git_oid → P.Q → List git_oid → Except fault (P.Q × List git_oid)
  | [], pq, seen => .ok (pq, seen)
  | parent_oid :: rest, pq, seen =>
    if parent_oid ∈ seen then
      push_parents P repo rest pq seen
    else
      match git_commit_lookup repo parent_oid with
      | none => .error fault.lookup_failed
      | some parent => push_parents P repo rest (P.push pq ⟨parent⟩) (seen.insert parent_oid)

/-- Member `revwalk::next_oid`. -/
def revwalk.next_oid {P : priority_queue} (rw : revwalk P) :
    Except fault (git_oid × revwalk P) :=
  match P.top rw.pq with
  | none => .error fault.empty_top
  | some ent =>
    let pq1 := P.pop rw.pq
    let cursor : git_oid × Nat :=
      if h : git_commit_parentcount ent.commit = 1 ∧ P.empty pq1 = true then
        (ent.commit.parents.get ⟨0, by unfold git_commit_parentcount at h; omega⟩, 0)
      else
        (rw.cursor_root, rw.cursor_offset + 1)
    match push_parents P rw.repo ent.commit.parents pq1 rw.seen with
    | .error e => .error e
    | .ok (pq2, seen2) =>
      .ok (ent.commit.id,
        { repo := rw.repo, pq := pq2, seen := seen2,
          cursor_root := cursor.1, cursor_offset := cursor.2 })

/-- One printed line: `printf("%s+%zu  %s\n", cursor_root_str, cursor_offset, oid_str)`. -/
structure output_line where
  cursor_root : git_oid
  cursor_offset : Nat
  oid : git_oid
deriving DecidableEq, Repr

/-- The skip loop of `main`: `for (i = 0; i < skip && rw.has_next(); i++) rw.next_oid();`.
An error is the process exit inside `next_oid`. -/
def skip_loop {P : priority_queue} : Nat → revwalk P → Except fault (revwalk P)
  | 0, rw => .ok rw
  | skip + 1, rw =>
    if rw.has_next then
      match rw.next_oid with
      | .error e => .error e
      | .ok (_, rw1) => skip_loop skip rw1
    else .ok rw

/-- The printing loop of `main`, `while (rw.has_next()) { ... }`, run for at most
`fuel` tests of the loop condition.  The result is the lines printed and the exit
status (0 from `return 0`, 1 from `exit(EXIT_FAILURE)`); `none` when the fuel
runs out. -/
def print_loop {P : priority_queue} : Nat → revwalk P → Option (List output_line × Nat)
  | 0, _ => none
  | fuel + 1, rw =>
    if rw.has_next then
      match rw.next_oid with
      | .error _ => some ([], 1)
      | .ok (oid, rw1) =>
        match print_loop fuel rw1 with
        | none => none
        | some (lines, status) => some (⟨rw.cursor_root, rw.cursor_offset, oid⟩ :: lines, status)
    else some ([], 0)

/-- The walk of `main` from the resolved start commit on: construct the walker,
skip, print. -/
def walk (P : priority_queue) (repo : git_repository) (fuel : Nat)
    (start_commit : git_commit) (skip : Nat) : Option (List output_line × Nat) :=
  match skip_loop skip (revwalk.init P repo start_commit) with
  | .error _ => some ([], 1)
  | .ok rw => print_loop fuel rw

/-! ## The host program -/

/-- What the process writes to the error stream before `exit(EXIT_FAILURE)`: the
usage text, the `must set GIT_DIR` text, or the message of `giterr_fatal(msg)`
(the libgit2 error text that follows `msg` is left out). -/
inductive diagnostic where
  | usage
  | must_set_GIT_DIR
  | giterr (msg : String)
deriving DecidableEq, Repr

/-- What `main` reads of the world outside the walker: the `GIT_DIR` variable
(`getenv`), the C library's `atoi`, and the libgit2 calls `git_repository_open`
and `git_revparse_single` (which yields the id of the object found). `none` is
a null pointer or a nonzero error return. -/
structure environment where
  getenv_GIT_DIR : Option String
  atoi : String → Int
  git_repository_open : String → Option git_repository
  git_revparse_single : git_repository → String → Option git_oid

/-- Result of a run of the program: the lines on the output stream, the text on
the error stream, the exit status. -/
structure process_result where
  lines : List output_line
  stderr : Option diagnostic
  status : Nat
deriving DecidableEq, Repr

/-- Conversion of the `int` returned by `atoi` to `size_t` (64 bits wide). -/
def size_t_of_int (v : Int) : Nat := (v % 2 ^ 64).toNat

/-- Function `revparse_commit`: resolve the reference, then look the commit up;
an error is the message handed to `giterr_fatal`. -/
def revparse_commit (E : environment) (repo : git_repository) (ref : String) :
    Except diagnostic git_commit :=
  match E.git_revparse_single repo ref with
  | none => .error (diagnostic.giterr "git_revparse_single")
  | some object_id =>
    match git_commit_lookup repo object_id with
    | none => .error (diagnostic.giterr "git_commit_lookup")
    | some commit => .ok commit

/-- Function `main`, with `argv` the argument vector (`argc` its length) and
`fuel` bounding the printing loop as in `print_loop`. -/
def main (P : priority_queue) (E : environment) (fuel : Nat) (argv : List String) :
    Option process_result :=
  if argv.length < 2 then
    some ⟨[], some diagnostic.usage, 1⟩
  else
    let ref := argv.getD 1 ""
    let skip := if 2 < argv.length then size_t_of_int (E.atoi (argv.getD 2 "")) else 0
    match E.getenv_GIT_DIR with
    | none => some ⟨[], some diagnostic.must_set_GIT_DIR, 1⟩
    | some git_dir =>
      match E.git_repository_open git_dir with
      | none => some ⟨[], some (diagnostic.giterr "git_repository_open"), 1⟩
      | some repo =>
        match revparse_commit E repo ref with
        | .error d => some ⟨[], some d, 1⟩
        | .ok start_commit =>
          match walk P repo fuel start_commit skip with
          | none => none
          | some (lines, status) =>
            some ⟨lines,
              if status = 0 then none else some (diagnostic.giterr "git_commit_lookup"),
              status⟩

/-! ## Specification predicates -/

/-- The cursor update rule of `next_oid`, relating the cursor before the call
(`root`, `offset`), the popped commit `c`, the entries left in the queue after the
pop, and the cursor after the call (`root1`, `offset1`). -/
def cursor_rule (c : git_commit) (after_pop : List revwalk_queue_entry)
    (root : git_oid) (offset : Nat) (root1 : git_oid) (offset1 : Nat) : Prop :=
  (c.parents.length = 1 ∧ after_pop = [] → c.parents.head? = some root1 ∧ offset1 = 0) ∧
  (¬ (c.parents.length = 1 ∧ after_pop = []) → root1 = root ∧ offset1 = offset + 1)

/-- In the repository, `p` is a parent id of the commit stored under `o`. -/
def is_parent (repo : git_repository) (o p : git_oid) : Prop :=
  ∃ c, git_commit_lookup repo o = some c ∧ p ∈ c.parents

/-- The id `x` is reachable from `o` through parent links, `o` itself included. -/
def reachable (repo : git_repository) (o x : git_oid) : Prop :=
  Relation.ReflTransGen (is_parent repo) o x

/-- No id reaches itself through one or more parent links. -/
def acyclic (repo : git_repository) : Prop :=
  ∀ o, ¬ Relation.TransGen (is_parent repo) o o

/-- Every parent lookup succeeds: each parent id of a stored commit is stored. -/
def parents_stored (repo : git_repository) : Prop :=
  ∀ o c, git_commit_lookup repo o = some c → ∀ p ∈ c.parents, git_commit_lookup repo p ≠ none

/-- Every stored parent of a stored commit has a committer time less than or
equal to the commit's. -/
def time_monotone (repo : git_repository) : Prop :=
  ∀ o c, git_commit_lookup repo o = some c →
    ∀ p ∈ c.parents, ∀ cp, git_commit_lookup repo p = some cp → cp.time ≤ c.time

/-- Every stored parent of a stored commit has a committer time strictly less
than the commit's. -/
def time_strict (repo : git_repository) : Prop :=
  ∀ o c, git_commit_lookup repo o = some c →
    ∀ p ∈ c.parents, ∀ cp, git_commit_lookup repo p = some cp → cp.time < c.time

/-- Walker states reachable from construction on `start_commit` by successful
advances. -/
inductive walk_state (P : priority_queue) (repo : git_repository)
    (start_commit : git_commit) : revwalk P → Prop where
  | init : walk_state P repo start_commit (revwalk.init P repo start_commit)
  | step {rw rw1 : revwalk P} {oid : git_oid} :
      walk_state P repo start_commit rw → rw.next_oid = .ok (oid, rw1) →
      walk_state P repo start_commit rw1

/-- Reachable walker states together with their history: `emitted` lists the ids
returned by the advances so far, in order, and `pushed` the entries those advances
added to the queue (for each advance, the entries of the queue afterwards that
are not entries left over from before once the popped entry is removed). -/
inductive walk_trace (P : priority_queue) (repo : git_repository)
    (start_commit : git_commit) :
    List git_oid → List revwalk_queue_entry → revwalk P → Prop where
  | init : walk_trace P repo start_commit [] [] (revwalk.init P repo start_commit)
  | step {emitted : List git_oid} {pushed recs : List revwalk_queue_entry}
      {rw rw1 : revwalk P} {oid : git_oid} {ent : revwalk_queue_entry} :
      walk_trace P repo start_commit emitted pushed rw →
      rw.next_oid = .ok (oid, rw1) → P.top rw.pq = some ent →
      (P.entries rw1.pq).Perm ((P.entries rw.pq).erase ent ++ recs) →
      walk_trace P repo start_commit (emitted ++ [oid]) (pushed ++ recs) rw1

/-! ## Invariants and measures -/

/-- Termination measure of the walk: the number of queued entries plus the number
of ids stored in the repository that are not yet in `seen`. -/
def walk_measure {P : priority_queue} (rw : revwalk P) : Nat :=
  (P.entries rw.pq).length +
    ((rw.repo.map git_commit.id).toFinset \ rw.seen.toFinset).card

/-- Ids of the queued commits. -/
def frontier_ids {P : priority_queue} (rw : revwalk P) : List git_oid :=
  (P.entries rw.pq).map (fun e => e.commit.id)

/-- The walker runs over `repo` and every queued commit is the commit the
repository stores under its id. -/
def frontier_stored {P : priority_queue} (repo : git_repository) (rw : revwalk P) : Prop :=
  rw.repo = repo ∧
    ∀ e ∈ P.entries rw.pq, git_commit_lookup repo e.commit.id = some e.commit

/-- Invariant of the walk from the commit stored under `s`, with `emitted` the ids
returned so far: emitted and queued ids are pairwise different; they are `s` and
the ids in `seen`; every id in `seen` is reached from `s` through at least one
parent link; every parent of an emitted commit is in `seen`. -/
structure walk_inv {P : priority_queue} (repo : git_repository) (s : git_oid)
    (emitted : List git_oid) (rw : revwalk P) : Prop where
  stored : frontier_stored repo rw
  nodup : (emitted ++ frontier_ids rw).Nodup
  mem_iff : ∀ x, (x ∈ emitted ∨ x ∈ frontier_ids rw) ↔ (x = s ∨ x ∈ rw.seen)
  seen_reach : ∀ x ∈ rw.seen, Relation.TransGen (is_parent repo) s x
  expanded : ∀ x ∈ emitted, ∀ c, git_commit_lookup repo x = some c →
    ∀ p ∈ c.parents, p ∈ rw.seen

/-- Simulation between a state `rw` of a walk and the state `rw2` of the walk
resumed from the cursor of `rw`: same queue, repository and cursor; `rw2` has
seen no more than `rw`; every id only `rw` has seen is stored with a committer
time no earlier than that of any queued commit. -/
structure resume_sim {P : priority_queue} (repo : git_repository) (rw rw2 : revwalk P) :
    Prop where
  pq_eq : rw2.pq = rw.pq
  repo_eq : rw2.repo = rw.repo
  root_eq : rw2.cursor_root = rw.cursor_root
  offset_eq : rw2.cursor_offset = rw.cursor_offset
  seen_sub : ∀ x ∈ rw2.seen, x ∈ rw.seen
  seen_old : ∀ d ∈ rw.seen, d ∉ rw2.seen →
    ∃ cd, git_commit_lookup repo d = some cd ∧
      ∀ e ∈ P.entries rw.pq, e.committed_at ≤ cd.time

/-- Every seen id is stored, and its commit is queued or has a committer time no
earlier than that of any queued commit. -/
def seen_bound {P : priority_queue} (repo : git_repository) (rw : revwalk P) : Prop :=
  ∀ d ∈ rw.seen, ∃ cd, git_commit_lookup repo d = some cd ∧
    ((⟨cd⟩ : revwalk_queue_entry) ∈ P.entries rw.pq ∨
      ∀ e ∈ P.entries rw.pq, e.committed_at ≤ cd.time)

/-- Invariant of a walk that makes its cursor resumable: while the queue is not
empty, the commit stored under the cursor root exists and the walk restarted
from it reaches, after `cursor_offset` advances, a state that simulates the
current one. -/
structure resume_inv {P : priority_queue} (repo : git_repository) (rw : revwalk P) :
    Prop where
  stored : frontier_stored repo rw
  bound : seen_bound repo rw
  resume : rw.has_next = true →
    ∃ (root_commit : git_commit) (rw2 : revwalk P),
      git_commit_lookup repo rw.cursor_root = some root_commit ∧
      skip_loop rw.cursor_offset (revwalk.init P repo root_commit) = .ok rw2 ∧
      rw2.has_next = true ∧ resume_sim repo rw rw2

/-- Counting invariant of the walk from the commit stored under `s`, cycles
allowed: `seen` has no duplicates; the emitted and queued ids are, with
multiplicity, `s` and the ids in `seen`; every id in `seen` is reachable from
`s`. -/
structure count_inv {P : priority_queue} (repo : git_repository) (s : git_oid)
    (emitted : List git_oid) (rw : revwalk P) : Prop where
  stored : frontier_stored repo rw
  seen_nodup : rw.seen.Nodup
  perm : (emitted ++ frontier_ids rw).Perm (s :: rw.seen)
  seen_reach : ∀ x ∈ rw.seen, reachable repo s x

/-! ## Example repositories -/

/-- Linear history `4 → 3 → 2 → 1` with strictly decreasing committer times. -/
def chain_repo : git_repository :=
  [⟨4, 40, [3]⟩, ⟨3, 30, [2]⟩, ⟨2, 20, [1]⟩, ⟨1, 10, []⟩]

/-- Tip of `chain_repo`. -/
def chain_tip : git_commit := ⟨4, 40, [3]⟩

/-- Start state of the walk over `chain_repo` with the list queue. -/
def chain_start : revwalk list_queue := revwalk.init list_queue chain_repo chain_tip

/-- Linear history of four commits: `d → c → b → a`, ids and committer times as
parameters. -/
def chain4_repo (a b c d : git_oid) (tA tB tC tD : Int) : git_repository :=
  [⟨d, tD, [c]⟩, ⟨c, tC, [b]⟩, ⟨b, tB, [a]⟩, ⟨a, tA, []⟩]

/-- Diamond history: 4 has the parents 2 and 3, both of which have the single
parent 1; the committer times are parameters. -/
def diamond_repo (tD tB tC tA : Int) : git_repository :=
  [⟨4, tD, [2, 3]⟩, ⟨2, tB, [1]⟩, ⟨3, tC, [1]⟩, ⟨1, tA, []⟩]

/-- Tip of `diamond_repo`. -/
def diamond_tip (tD : Int) : git_commit := ⟨4, tD, [2, 3]⟩

/-- Start state of the walk over the diamond with times 40, 30, 20, 10. -/
def diamond_start : revwalk list_queue :=
  revwalk.init list_queue (diamond_repo 40 30 20 10) (diamond_tip 40)

/-- History `3 → 2 → 1` in which commit 1 is missing from the repository. -/
def broken_repo : git_repository :=
  [⟨3, 30, [2]⟩, ⟨2, 20, [1]⟩]

/-- Tip of `broken_repo`. -/
def broken_tip : git_commit := ⟨3, 30, [2]⟩

/-- Start state of the walk over `broken_repo` with the list queue. -/
def broken_start : revwalk list_queue := revwalk.init list_queue broken_repo broken_tip

/-- Repository in which commit 5 lists parent 2 twice and parent 1, which the
repository does not hold. -/
def dup_repo : git_repository :=
  [⟨5, 50, [2, 3, 2, 1]⟩, ⟨2, 20, []⟩, ⟨3, 30, []⟩]

/-- Walker state over `dup_repo` with commit 5 queued and id 1 already seen. -/
def dup_state : revwalk list_queue :=
  { repo := dup_repo, pq := [⟨⟨5, 50, [2, 3, 2, 1]⟩⟩], seen := [1],
    cursor_root := 5, cursor_offset := 0 }

/-- History `2 → 1` in which the parent carries the later committer time. -/
def skewed_repo : git_repository :=
  [⟨2, 10, [1]⟩, ⟨1, 20, []⟩]

/-- Tip of `skewed_repo`. -/
def skewed_tip : git_commit := ⟨2, 10, [1]⟩

/-- History in which commit 2 has the parent 4 of later committer time: 5 has the
parents 4 and 3, 3 has the parent 2, 2 has the parents 4 and 1. -/
def inverted_repo : git_repository :=
  [⟨5, 10, [4, 3]⟩, ⟨4, 9, []⟩, ⟨3, 8, [2]⟩, ⟨2, 7, [4, 1]⟩, ⟨1, 6, []⟩]

/-- Tip of `inverted_repo`. -/
def inverted_tip : git_commit := ⟨5, 10, [4, 3]⟩

/-- The history of `inverted_repo` with all committer times equal. -/
def flat_repo : git_repository :=
  [⟨5, 0, [4, 3]⟩, ⟨4, 0, []⟩, ⟨3, 0, [2]⟩, ⟨2, 0, [4, 1]⟩, ⟨1, 0, []⟩]

/-- Tip of `flat_repo`. -/
def flat_tip : git_commit := ⟨5, 0, [4, 3]⟩

/-- Environment in which `GIT_DIR` names `chain_repo` and the reference `"tip"`
resolves to commit 4; `atoi` reads `"2"` as 2 and anything else as 0. -/
def chain_env : environment :=
  { getenv_GIT_DIR := some "chain.git"
    atoi := fun s => if s = "2" then 2 else 0
    git_repository_open := fun dir => if dir = "chain.git" then some chain_repo else none
    git_revparse_single := fun _ ref => if ref = "tip" then some 4 else none }

/-- Two commits that are each other's parent. -/
def cycle_repo : git_repository :=
  [⟨1, 10, [2]⟩, ⟨2, 5, [1]⟩]

/-- Start commit of the walk over `cycle_repo`. -/
def cycle_tip : git_commit := ⟨1, 10, [2]⟩

/-- The diamond with times 40, 30, 20, 10 extended by commits that are not
reachable from commit 4: commit 9 with a missing parent, and a second, shadowed
record under id 1. -/
def diamond_extended_repo : git_repository :=
  [⟨9, 90, [8]⟩, ⟨4, 40, [2, 3]⟩, ⟨2, 30, [1]⟩, ⟨3, 20, [1]⟩, ⟨1, 10, []⟩, ⟨1, 99, [9]⟩]

/-- Walker state over the diamond with times 40, 30, 20, 10 in which the queue
holds commit 3, of time 20, before commit 2, of time 30. -/
def merge_state : revwalk list_queue :=
  { repo := diamond_repo 40 30 20 10
    pq := [⟨⟨3, 20, [1]⟩⟩, ⟨⟨2, 30, [1]⟩⟩]
    seen := [3, 2]
    cursor_root := 4
    cursor_offset := 1 }

/-! ## Basic facts -/

theorem git_commit_lookup_id {repo : git_repository} {oid : git_oid} {c : git_commit}
    (h : git_commit_lookup repo oid = some c) : c.id = oid := by
  have := List.find?_some h
  simpa using this

theorem git_commit_lookup_mem {repo : git_repository} {oid : git_oid} {c : git_commit}
    (h : git_commit_lookup repo oid = some c) : c ∈ repo :=
  List.mem_of_find?_eq_some h

theorem has_next_iff {P : priority_queue} (rw : revwalk P) :
    rw.has_next = true ↔ P.entries rw.pq ≠ [] := by
  unfold revwalk.has_next
  rw [← not_iff_not]
  simp [P.empty_iff]

theorem has_next_false_iff {P : priority_queue} (rw : revwalk P) :
    rw.has_next = false ↔ P.entries rw.pq = [] := by
  rw [← Bool.not_eq_true, has_next_iff]
  simp

theorem top_isSome_of_has_next {P : priority_queue} {rw : revwalk P}
    (h : rw.has_next = true) : ∃ ent, P.top rw.pq = some ent := by
  rcases hq : P.top rw.pq with _ | ent
  · exact absurd ((P.top_eq_none _).mp hq) ((has_next_iff rw).mp h)
  · exact ⟨ent, rfl⟩

/-- Inversion of a successful `next_oid`. -/
theorem next_oid_ok {P : priority_queue} {rw rw1 : revwalk P} {oid : git_oid}
    (h : rw.next_oid = .ok (oid, rw1)) :
    ∃ ent pq2 seen2, P.top rw.pq = some ent ∧
      push_parents P rw.repo ent.commit.parents (P.pop rw.pq) rw.seen = .ok (pq2, seen2) ∧
      oid = ent.commit.id ∧ rw1.repo = rw.repo ∧ rw1.pq = pq2 ∧ rw1.seen = seen2 ∧
      ((git_commit_parentcount ent.commit = 1 ∧ P.empty (P.pop rw.pq) = true →
          ent.commit.parents.head? = some rw1.cursor_root ∧ rw1.cursor_offset = 0) ∧
       (¬ (git_commit_parentcount ent.commit = 1 ∧ P.empty (P.pop rw.pq) = true) →
          rw1.cursor_root = rw.cursor_root ∧ rw1.cursor_offset = rw.cursor_offset + 1)) := by
  unfold revwalk.next_oid at h
  rcases ht : P.top rw.pq with _ | ent
  · rw [ht] at h; cases h
  · rw [ht] at h
    simp only at h
    rcases hp : push_parents P rw.repo ent.commit.parents (P.pop rw.pq) rw.seen with e | ⟨pq2, seen2⟩
    · rw [hp] at h; cases h
    · rw [hp] at h
      simp only [Except.ok.injEq, Prod.mk.injEq] at h
      obtain ⟨h1, h2⟩ := h
      subst h2
      refine ⟨ent, pq2, seen2, rfl, hp, h1.symm, rfl, rfl, rfl, ?_, ?_⟩
      · intro hc
        simp only [dif_pos hc, and_true]
        rw [List.head?_eq_getElem?, List.get_eq_getElem]
        exact List.getElem?_eq_getElem _
      · intro hc
        simp only [dif_neg hc, and_self]

/-- Inversion of a printing loop that printed at least one line. -/
theorem print_loop_cons {P : priority_queue} {fuel : Nat} {rw : revwalk P}
    {l : output_line} {ls : List output_line} {status : Nat}
    (h : print_loop fuel rw = some (l :: ls, status)) :
    ∃ f rw1, fuel = f + 1 ∧ rw.has_next = true ∧ rw.next_oid = .ok (l.oid, rw1) ∧
      l.cursor_root = rw.cursor_root ∧ l.cursor_offset = rw.cursor_offset ∧
      print_loop f rw1 = some (ls, status) := by
  cases fuel with
  | zero => simp [print_loop] at h
  | succ f =>
    unfold print_loop at h
    cases hn : rw.has_next with
    | false => simp [hn] at h
    | true =>
      simp only [hn, if_true] at h
      rcases ho : rw.next_oid with e | ⟨oid, rw1⟩
      · simp [ho] at h
      · simp only [ho] at h
        rcases hr : print_loop f rw1 with _ | ⟨ls1, st1⟩
        · simp [hr] at h
        · simp only [hr, Option.some.injEq, Prod.mk.injEq, List.cons.injEq] at h
          obtain ⟨⟨h1, h2⟩, h3⟩ := h
          subst h1 h2 h3
          exact ⟨f, rw1, rfl, rfl, rfl, rfl, rfl, hr⟩

/-- Unfolding of one successful round of the printing loop. -/
theorem print_loop_step {P : priority_queue} {fuel : Nat} {rw rw1 : revwalk P} {oid : git_oid}
    (hn : rw.has_next = true) (ho : rw.next_oid = .ok (oid, rw1)) :
    print_loop (fuel + 1) rw =
      (print_loop fuel rw1).map
        (fun r => (⟨rw.cursor_root, rw.cursor_offset, oid⟩ :: r.1, r.2)) := by
  rw [print_loop]
  simp only [hn, if_true, ho]
  rcases print_loop fuel rw1 with _ | ⟨ls, st⟩ <;> rfl

theorem print_loop_done {P : priority_queue} {fuel : Nat} {rw : revwalk P}
    (hn : rw.has_next = false) : print_loop (fuel + 1) rw = some ([], 0) := by
  rw [print_loop]
  simp [hn]

theorem print_loop_fail {P : priority_queue} {fuel : Nat} {rw : revwalk P} {e : fault}
    (hn : rw.has_next = true) (ho : rw.next_oid = .error e) :
    print_loop (fuel + 1) rw = some ([], 1) := by
  rw [print_loop]
  simp [hn, ho]

/-- Unfolding of one successful round of the skip loop. -/
theorem skip_loop_step {P : priority_queue} {skip : Nat} {rw rw1 : revwalk P} {oid : git_oid}
    (hn : rw.has_next = true) (ho : rw.next_oid = .ok (oid, rw1)) :
    skip_loop (skip + 1) rw = skip_loop skip rw1 := by
  rw [skip_loop]
  simp [hn, ho]

theorem skip_loop_done {P : priority_queue} {skip : Nat} {rw : revwalk P}
    (hn : rw.has_next = false) : skip_loop skip rw = .ok rw := by
  cases skip with
  | zero => rfl
  | succ k => rw [skip_loop]; simp [hn]

theorem skip_loop_fail {P : priority_queue} {skip : Nat} {rw : revwalk P} {e : fault}
    (hn : rw.has_next = true) (ho : rw.next_oid = .error e) :
    skip_loop (skip + 1) rw = .error e := by
  rw [skip_loop]
  simp [hn, ho]

theorem next_oid_cursor_rule {P : priority_queue} {rw rw1 : revwalk P} {oid : git_oid}
    (h : rw.next_oid = .ok (oid, rw1)) :
    ∃ c, P.top rw.pq = some ⟨c⟩ ∧ oid = c.id ∧
      cursor_rule c (P.entries (P.pop rw.pq)) rw.cursor_root rw.cursor_offset
        rw1.cursor_root rw1.cursor_offset := by
  obtain ⟨ent, pq2, seen2, ht, -, ho, -, -, -, hc1, hc2⟩ := next_oid_ok h
  refine ⟨ent.commit, ht, ho, ?_, ?_⟩
  · rintro ⟨h1, h2⟩
    exact hc1 ⟨h1, (P.empty_iff _).mpr h2⟩
  · intro hn
    apply hc2
    rintro ⟨h1, h2⟩
    exact hn ⟨h1, (P.empty_iff _).mp h2⟩

theorem print_loop_consecutive {P : priority_queue} (fuel : Nat) :
    ∀ (rw : revwalk P) (lines : List output_line) (status : Nat),
      print_loop fuel rw = some (lines, status) →
      ∀ (i : Nat) (l1 l2 : output_line), lines[i]? = some l1 → lines[i + 1]? = some l2 →
      ∃ (rwi rwj : revwalk P) (c : git_commit),
        skip_loop i rw = .ok rwi ∧ P.top rwi.pq = some ⟨c⟩ ∧
        rwi.next_oid = .ok (c.id, rwj) ∧
        l1 = ⟨rwi.cursor_root, rwi.cursor_offset, c.id⟩ ∧
        l2.cursor_root = rwj.cursor_root ∧ l2.cursor_offset = rwj.cursor_offset ∧
        cursor_rule c (P.entries (P.pop rwi.pq)) l1.cursor_root l1.cursor_offset
          l2.cursor_root l2.cursor_offset := by
  induction fuel with
  | zero => intro rw lines status h; simp [print_loop] at h
  | succ f ih =>
    intro rw lines status h i l1 l2 h1 h2
    rcases lines with _ | ⟨a, ls⟩
    · simp at h1
    obtain ⟨f1, rw1, hf, hn, ho, hr, hoff, hrest⟩ := print_loop_cons h
    obtain rfl : f1 = f := by omega
    cases i with
    | zero =>
      simp only [List.getElem?_cons_zero, Option.some.injEq] at h1
      subst h1
      rcases ls with _ | ⟨b, ls2⟩
      · simp at h2
      simp only [zero_add, List.getElem?_cons_succ, List.getElem?_cons_zero,
        Option.some.injEq] at h2
      subst h2
      obtain ⟨f2, rw2, -, -, -, hr2, hoff2, -⟩ := print_loop_cons hrest
      obtain ⟨c, ht, hid, hrule⟩ := next_oid_cursor_rule ho
      refine ⟨rw, rw1, c, rfl, ht, hid ▸ ho, ?_, hr2, hoff2, ?_⟩
      · cases a; simp_all
      · rw [hr, hoff, hr2, hoff2]; exact hrule
    | succ j =>
      simp only [List.getElem?_cons_succ] at h1 h2
      obtain ⟨rwi, rwj, c, hs, rest⟩ := ih rw1 ls status hrest j l1 l2 h1 h2
      exact ⟨rwi, rwj, c, (skip_loop_step hn ho).trans hs, rest⟩
/-! ## The parent loop -/

theorem push_parents_nil {P : priority_queue} (repo : git_repository) (pq : P.Q)
    (seen : List git_oid) : push_parents P repo [] pq seen = .ok (pq, seen) := rfl

theorem push_parents_cons_seen {P : priority_queue} (repo : git_repository) {p : git_oid}
    (ps : List git_oid) (pq : P.Q) {seen : List git_oid} (h : p ∈ seen) :
    push_parents P repo (p :: ps) pq seen = push_parents P repo ps pq seen := by
  rw [push_parents]; simp [h]

theorem push_parents_cons_missing {P : priority_queue} {repo : git_repository} {p : git_oid}
    (ps : List git_oid) (pq : P.Q) {seen : List git_oid} (h : p ∉ seen)
    (hl : git_commit_lookup repo p = none) :
    push_parents P repo (p :: ps) pq seen = .error fault.lookup_failed := by
  rw [push_parents]; simp [h, hl]

theorem push_parents_cons_found {P : priority_queue} {repo : git_repository} {p : git_oid}
    {c : git_commit} (ps : List git_oid) (pq : P.Q) {seen : List git_oid} (h : p ∉ seen)
    (hl : git_commit_lookup repo p = some c) :
    push_parents P repo (p :: ps) pq seen =
      push_parents P repo ps (P.push pq ⟨c⟩) (seen.insert p) := by
  rw [push_parents]; simp [h, hl]

/-- Effect of a parent loop that ran to its end: the commits pushed are found in
the repository, their ids are pairwise different and are exactly the parents not
seen before; `seen` gains exactly the parents. -/
theorem push_parents_ok {P : priority_queue} (repo : git_repository) (ps : List git_oid) :
    ∀ (pq pq2 : P.Q) (seen seen2 : List git_oid),
      push_parents P repo ps pq seen = .ok (pq2, seen2) →
      (∀ x, x ∈ seen2 ↔ x ∈ seen ∨ x ∈ ps) ∧
      ∃ recs : List git_commit,
        (P.entries pq2).Perm (P.entries pq ++ recs.map revwalk_queue_entry.mk) ∧
        (recs.map git_commit.id).Nodup ∧
        (∀ x, x ∈ recs.map git_commit.id ↔ x ∈ ps ∧ x ∉ seen) ∧
        ∀ r ∈ recs, git_commit_lookup repo r.id = some r := by
  induction ps with
  | nil =>
    intro pq pq2 seen seen2 h
    simp only [push_parents_nil, Except.ok.injEq, Prod.mk.injEq] at h
    obtain ⟨rfl, rfl⟩ := h
    exact ⟨by simp, [], by simp, by simp, by simp, by simp⟩
  | cons p ps ih =>
    intro pq pq2 seen seen2 h
    by_cases hp : p ∈ seen
    · rw [push_parents_cons_seen repo ps pq hp] at h
      obtain ⟨hs, recs, hperm, hnd, hmem, hlk⟩ := ih pq pq2 seen seen2 h
      refine ⟨?_, recs, hperm, hnd, ?_, hlk⟩
      · intro x
        rw [hs x, List.mem_cons]
        constructor
        · rintro (h1 | h1)
          · exact Or.inl h1
          · exact Or.inr (Or.inr h1)
        · rintro (h1 | h1 | h1)
          · exact Or.inl h1
          · exact Or.inl (h1 ▸ hp)
          · exact Or.inr h1
      · intro x
        rw [hmem x, List.mem_cons]
        constructor
        · rintro ⟨h1, h2⟩
          exact ⟨Or.inr h1, h2⟩
        · rintro ⟨h1 | h1, h2⟩
          · exact absurd (h1 ▸ hp) h2
          · exact ⟨h1, h2⟩
    · rcases hl : git_commit_lookup repo p with _ | c
      · rw [push_parents_cons_missing ps pq hp hl] at h
        cases h
      · rw [push_parents_cons_found ps pq hp hl] at h
        obtain ⟨hs, recs, hperm, hnd, hmem, hlk⟩ := ih _ pq2 _ seen2 h
        have hid : c.id = p := git_commit_lookup_id hl
        refine ⟨?_, c :: recs, ?_, ?_, ?_, ?_⟩
        · intro x
          rw [hs x, List.mem_insert_iff, List.mem_cons]
          tauto
        · refine hperm.trans ?_
          refine ((P.entries_push pq ⟨c⟩).append_right _).trans ?_
          simp only [List.map_cons, List.cons_append]
          exact List.perm_middle.symm
        · simp only [List.map_cons, List.nodup_cons]
          refine ⟨?_, hnd⟩
          rw [hmem, hid]
          intro hx
          exact hx.2 (List.mem_insert_self p seen)
        · intro x
          simp only [List.map_cons, List.mem_cons]
          rw [hmem x, hid, List.mem_insert_iff]
          constructor
          · rintro (h1 | ⟨h1, h2⟩)
            · exact ⟨Or.inl h1, h1 ▸ hp⟩
            · exact ⟨Or.inr h1, fun h3 => h2 (Or.inr h3)⟩
          · rintro ⟨h1 | h1, h2⟩
            · exact Or.inl h1
            · by_cases hxp : x = p
              · exact Or.inl hxp
              · refine Or.inr ⟨h1, ?_⟩
                rintro (h3 | h3)
                · exact hxp h3
                · exact h2 h3
        · intro r hr
          rcases List.mem_cons.mp hr with h1 | h1
          · rw [h1, hid]; exact hl
          · exact hlk r h1

/-- The parent loop fails exactly when a parent not seen before has no commit in
the repository, and then it fails with a lookup failure. -/
theorem push_parents_error {P : priority_queue} (repo : git_repository) (ps : List git_oid) :
    ∀ (pq : P.Q) (seen : List git_oid) (e : fault),
      push_parents P repo ps pq seen = .error e ↔
        e = fault.lookup_failed ∧ ∃ p ∈ ps, p ∉ seen ∧ git_commit_lookup repo p = none := by
  induction ps with
  | nil => intro pq seen e; simp [push_parents_nil]
  | cons p ps ih =>
    intro pq seen e
    by_cases hp : p ∈ seen
    · rw [push_parents_cons_seen repo ps pq hp, ih]
      constructor
      · rintro ⟨h1, q, hq, hq2, hq3⟩
        exact ⟨h1, q, List.mem_cons_of_mem _ hq, hq2, hq3⟩
      · rintro ⟨h1, q, hq, hq2, hq3⟩
        rcases List.mem_cons.mp hq with h | h
        · exact absurd (h ▸ hp) hq2
        · exact ⟨h1, q, h, hq2, hq3⟩
    · rcases hl : git_commit_lookup repo p with _ | c
      · rw [push_parents_cons_missing ps pq hp hl]
        constructor
        · intro h
          cases h
          exact ⟨rfl, p, List.mem_cons_self _ _, hp, hl⟩
        · rintro ⟨h1, -⟩
          rw [h1]
      · rw [push_parents_cons_found ps pq hp hl, ih]
        constructor
        · rintro ⟨h1, q, hq, hq2, hq3⟩
          exact ⟨h1, q, List.mem_cons_of_mem _ hq,
            fun h => hq2 (List.mem_insert_of_mem h), hq3⟩
        · rintro ⟨h1, q, hq, hq2, hq3⟩
          rcases List.mem_cons.mp hq with h | h
          · rw [h, hl] at hq3; cases hq3
          · refine ⟨h1, q, h, ?_, hq3⟩
            intro h2
            rcases List.mem_insert_iff.mp h2 with h3 | h3
            · rw [h3, hl] at hq3; cases hq3
            · exact hq2 h3

/-- The parent loop over a concatenation: scan the first part, then the second
from the state the first left. -/
theorem push_parents_append {P : priority_queue} (repo : git_repository)
    (ps qs : List git_oid) :
    ∀ (pq : P.Q) (seen : List git_oid),
      push_parents P repo (ps ++ qs) pq seen =
        match push_parents P repo ps pq seen with
        | .error e => .error e
        | .ok (pq1, seen1) => push_parents P repo qs pq1 seen1 := by
  induction ps with
  | nil => intro pq seen; simp [push_parents_nil]
  | cons p ps ih =>
    intro pq seen
    by_cases hp : p ∈ seen
    · rw [List.cons_append, push_parents_cons_seen repo _ pq hp,
        push_parents_cons_seen repo _ pq hp, ih]
    · rcases hl : git_commit_lookup repo p with _ | c
      · rw [List.cons_append, push_parents_cons_missing _ pq hp hl,
          push_parents_cons_missing _ pq hp hl]
      · rw [List.cons_append, push_parents_cons_found _ pq hp hl,
          push_parents_cons_found _ pq hp hl, ih]

/-- The parent loop reads the repository only at the parents not seen before. -/
theorem push_parents_congr {P : priority_queue} (repo repo2 : git_repository)
    (ps : List git_oid) :
    ∀ (pq : P.Q) (seen : List git_oid),
      (∀ p ∈ ps, p ∉ seen → git_commit_lookup repo2 p = git_commit_lookup repo p) →
      push_parents P repo2 ps pq seen = push_parents P repo ps pq seen := by
  induction ps with
  | nil => intro pq seen _; rfl
  | cons p ps ih =>
    intro pq seen h
    by_cases hp : p ∈ seen
    · rw [push_parents_cons_seen repo _ pq hp, push_parents_cons_seen repo2 _ pq hp]
      exact ih pq seen (fun q hq hq2 => h q (List.mem_cons_of_mem _ hq) hq2)
    · have h2 := h p (List.mem_cons_self _ _) hp
      rcases hl : git_commit_lookup repo p with _ | c
      · rw [push_parents_cons_missing _ pq hp hl,
          push_parents_cons_missing _ pq hp (h2.trans hl)]
      · rw [push_parents_cons_found _ pq hp hl,
          push_parents_cons_found _ pq hp (h2.trans hl)]
        exact ih _ _ (fun q hq hq2 => h q (List.mem_cons_of_mem _ hq)
          (fun h3 => hq2 (List.mem_insert_of_mem h3)))
/-! ## One advance -/

/-- What `next_oid` computes once the top entry is known. -/
theorem next_oid_of_top {P : priority_queue} {rw : revwalk P} {ent : revwalk_queue_entry}
    (ht : P.top rw.pq = some ent) :
    rw.next_oid =
      match push_parents P rw.repo ent.commit.parents (P.pop rw.pq) rw.seen with
      | .error e => .error e
      | .ok (pq2, seen2) =>
        .ok (ent.commit.id,
          { repo := rw.repo, pq := pq2, seen := seen2,
            cursor_root :=
              (if h : git_commit_parentcount ent.commit = 1 ∧ P.empty (P.pop rw.pq) = true then
                (ent.commit.parents.get ⟨0, by unfold git_commit_parentcount at h; omega⟩, 0)
              else (rw.cursor_root, rw.cursor_offset + 1)).1,
            cursor_offset :=
              (if h : git_commit_parentcount ent.commit = 1 ∧ P.empty (P.pop rw.pq) = true then
                (ent.commit.parents.get ⟨0, by unfold git_commit_parentcount at h; omega⟩, 0)
              else (rw.cursor_root, rw.cursor_offset + 1)).2 }) := by
  unfold revwalk.next_oid
  rw [ht]

/-- With a non-empty queue `next_oid` fails exactly when a parent of the popped
commit that is not in `seen` has no commit in the repository. -/
theorem next_oid_error_iff {P : priority_queue} {rw : revwalk P} {ent : revwalk_queue_entry}
    (ht : P.top rw.pq = some ent) (e : fault) :
    rw.next_oid = .error e ↔
      e = fault.lookup_failed ∧
        ∃ p ∈ ent.commit.parents, p ∉ rw.seen ∧ git_commit_lookup rw.repo p = none := by
  rw [← push_parents_error (P := P) rw.repo ent.commit.parents (P.pop rw.pq) rw.seen e,
    next_oid_of_top ht]
  rcases push_parents P rw.repo ent.commit.parents (P.pop rw.pq) rw.seen with e2 | ⟨pq2, seen2⟩
  · simp
  · simp

/-- With a non-empty queue and every unseen parent of the top commit present in
the repository, `next_oid` returns the id of the top commit. -/
theorem next_oid_succeeds {P : priority_queue} {rw : revwalk P} {ent : revwalk_queue_entry}
    (ht : P.top rw.pq = some ent)
    (hl : ∀ p ∈ ent.commit.parents, p ∉ rw.seen → git_commit_lookup rw.repo p ≠ none) :
    ∃ rw1, rw.next_oid = .ok (ent.commit.id, rw1) := by
  rcases h : rw.next_oid with e | ⟨oid, rw1⟩
  · obtain ⟨-, p, hp, hps, hpl⟩ := (next_oid_error_iff ht e).mp h
    exact absurd hpl (hl p hp hps)
  · obtain ⟨ent2, -, -, ht2, -, ho, -⟩ := next_oid_ok h
    rw [ht] at ht2
    cases ht2
    exact ⟨rw1, by rw [ho]⟩

/-- Effect of a successful `next_oid` on the queue and on `seen`. -/
theorem next_oid_effect {P : priority_queue} {rw rw1 : revwalk P} {oid : git_oid}
    (h : rw.next_oid = .ok (oid, rw1)) :
    ∃ (c : git_commit) (recs : List git_commit),
      P.top rw.pq = some ⟨c⟩ ∧ oid = c.id ∧ rw1.repo = rw.repo ∧
      (P.entries rw1.pq).Perm
        ((P.entries rw.pq).erase ⟨c⟩ ++ recs.map revwalk_queue_entry.mk) ∧
      (recs.map git_commit.id).Nodup ∧
      (∀ x, x ∈ recs.map git_commit.id ↔ x ∈ c.parents ∧ x ∉ rw.seen) ∧
      (∀ r ∈ recs, git_commit_lookup rw.repo r.id = some r) ∧
      (∀ x, x ∈ rw1.seen ↔ x ∈ rw.seen ∨ x ∈ c.parents) := by
  obtain ⟨ent, pq2, seen2, ht, hp, ho, hrepo, hpq, hseen, -⟩ := next_oid_ok h
  obtain ⟨hs, recs, hperm, hnd, hmem, hlk⟩ := push_parents_ok rw.repo _ _ _ _ _ hp
  refine ⟨ent.commit, recs, ht, ho, hrepo, ?_, hnd, hmem, hlk, ?_⟩
  · rw [hpq]
    exact hperm.trans ((P.entries_pop _ _ ht).append_right _)
  · rw [hseen]; exact hs

/-- A successful `next_oid` does not depend on what the repository holds for the
parents already seen. -/
theorem next_oid_congr {P : priority_queue} {rw : revwalk P} {ent : revwalk_queue_entry}
    (ht : P.top rw.pq = some ent) (repo2 : git_repository)
    (hagree : ∀ p ∈ ent.commit.parents, p ∉ rw.seen →
      git_commit_lookup repo2 p = git_commit_lookup rw.repo p) :
    ∀ oid rw1, rw.next_oid = .ok (oid, rw1) →
      revwalk.next_oid { rw with repo := repo2 } = .ok (oid, { rw1 with repo := repo2 }) := by
  intro oid rw1 h
  have ht2 : P.top (revwalk.pq { rw with repo := repo2 }) = some ent := ht
  rw [next_oid_of_top ht] at h
  rw [next_oid_of_top ht2]
  have hc := push_parents_congr (P := P) rw.repo repo2 ent.commit.parents (P.pop rw.pq) rw.seen
    hagree
  simp only
  rw [hc]
  rcases hp : push_parents P rw.repo ent.commit.parents (P.pop rw.pq) rw.seen
    with e | ⟨pq2, seen2⟩
  · rw [hp] at h; cases h
  · rw [hp] at h
    simp only [Except.ok.injEq, Prod.mk.injEq] at h ⊢
    obtain ⟨h1, h2⟩ := h
    subst h2
    exact ⟨h1, rfl⟩
/-! ## The loops of `main` -/

/-- What a finished printing loop printed: line `i` is the cursor before, and the
result of, advance number `i`; after the last line either the queue is empty
(status 0) or the next advance fails (status 1). -/
theorem print_loop_spec {P : priority_queue} (fuel : Nat) :
    ∀ (rw : revwalk P) (lines : List output_line) (status : Nat),
      print_loop fuel rw = some (lines, status) →
      (∀ (i : Nat) (l : output_line), lines[i]? = some l →
        ∃ rwi rwj : revwalk P, skip_loop i rw = .ok rwi ∧ rwi.has_next = true ∧
          rwi.next_oid = .ok (l.oid, rwj) ∧
          l.cursor_root = rwi.cursor_root ∧ l.cursor_offset = rwi.cursor_offset) ∧
      ∃ rwn : revwalk P, skip_loop lines.length rw = .ok rwn ∧
        ((status = 0 ∧ rwn.has_next = false) ∨
         (status = 1 ∧ rwn.has_next = true ∧ rwn.next_oid = .error fault.lookup_failed)) := by
  induction fuel with
  | zero => intro rw lines status h; simp [print_loop] at h
  | succ f ih =>
    intro rw lines status h
    rcases lines with _ | ⟨a, ls⟩
    · refine ⟨by simp, rw, rfl, ?_⟩
      cases hn : rw.has_next with
      | false =>
        rw [print_loop_done hn] at h
        simp only [Option.some.injEq, Prod.mk.injEq, true_and] at h
        exact Or.inl ⟨h.symm, rfl⟩
      | true =>
        rcases ho : rw.next_oid with e | ⟨oid, rw1⟩
        · rw [print_loop_fail hn ho] at h
          simp only [Option.some.injEq, Prod.mk.injEq, true_and] at h
          obtain ⟨ent, ht⟩ := top_isSome_of_has_next hn
          have he := ((next_oid_error_iff ht e).mp ho).1
          exact Or.inr ⟨h.symm, rfl, he ▸ rfl⟩
        · rw [print_loop_step hn ho] at h
          rcases hr : print_loop f rw1 with _ | ⟨ls1, st1⟩
          · simp [hr] at h
          · simp [hr] at h
    · obtain ⟨f1, rw1, hf, hn, ho, hr, hoff, hrest⟩ := print_loop_cons h
      obtain rfl : f1 = f := by omega
      obtain ⟨ih1, rwn, hsn, hfin⟩ := ih rw1 ls status hrest
      refine ⟨?_, rwn, ?_, hfin⟩
      · intro i l hl
        cases i with
        | zero =>
          simp only [List.getElem?_cons_zero, Option.some.injEq] at hl
          subst hl
          exact ⟨rw, rw1, rfl, hn, ho, hr, hoff⟩
        | succ j =>
          simp only [List.getElem?_cons_succ] at hl
          obtain ⟨rwi, rwj, hs, rest⟩ := ih1 j l hl
          exact ⟨rwi, rwj, (skip_loop_step hn ho).trans hs, rest⟩
      · rw [List.length_cons, skip_loop_step hn ho]
        exact hsn

/-- A printing loop that meets a failing advance after `n` successful ones prints
`n` lines and ends with status 1. -/
theorem print_loop_of_fail {P : priority_queue} (n : Nat) :
    ∀ (rw rwn : revwalk P) (e : fault) (fuel : Nat),
      skip_loop n rw = .ok rwn → rwn.has_next = true → rwn.next_oid = .error e → n < fuel →
      ∃ lines, print_loop fuel rw = some (lines, 1) ∧ lines.length = n := by
  induction n with
  | zero =>
    intro rw rwn e fuel hs hn ho hf
    simp only [skip_loop, Except.ok.injEq] at hs
    subst hs
    obtain ⟨f, rfl⟩ : ∃ f, fuel = f + 1 := ⟨fuel - 1, by omega⟩
    exact ⟨[], print_loop_fail hn ho, rfl⟩
  | succ k ih =>
    intro rw rwn e fuel hs hn ho hf
    obtain ⟨f, rfl⟩ : ∃ f, fuel = f + 1 := ⟨fuel - 1, by omega⟩
    cases hn0 : rw.has_next with
    | false =>
      rw [skip_loop_done hn0] at hs
      cases hs
      rw [hn0] at hn
      cases hn
    | true =>
      rcases ho0 : rw.next_oid with e0 | ⟨oid, rw1⟩
      · rw [skip_loop_fail hn0 ho0] at hs
        cases hs
      · rw [skip_loop_step hn0 ho0] at hs
        obtain ⟨lines, hl, hlen⟩ := ih rw1 rwn e f hs hn ho (by omega)
        refine ⟨⟨rw.cursor_root, rw.cursor_offset, oid⟩ :: lines, ?_, by simp [hlen]⟩
        rw [print_loop_step hn0 ho0, hl]
        rfl
/-- The parent loop fails exactly when the scan reaches a parent that is not in
`seen` at that moment and has no commit in the repository. -/
theorem push_parents_error_scan {P : priority_queue} (repo : git_repository)
    (ps : List git_oid) :
    ∀ (pq : P.Q) (seen : List git_oid),
      (∃ e, push_parents P repo ps pq seen = .error e) ↔
        ∃ (pre : List git_oid) (p : git_oid) (post : List git_oid) (pq1 : P.Q)
          (seen1 : List git_oid),
          ps = pre ++ p :: post ∧ push_parents P repo pre pq seen = .ok (pq1, seen1) ∧
          p ∉ seen1 ∧ git_commit_lookup repo p = none := by
  intro pq seen
  constructor
  · induction ps generalizing pq seen with
    | nil => rintro ⟨e, h⟩; simp [push_parents_nil] at h
    | cons p ps ih =>
      rintro ⟨e, h⟩
      by_cases hp : p ∈ seen
      · rw [push_parents_cons_seen repo ps pq hp] at h
        obtain ⟨pre, q, post, pq1, seen1, h1, h2, h3, h4⟩ := ih pq seen ⟨e, h⟩
        refine ⟨p :: pre, q, post, pq1, seen1, by rw [h1]; rfl, ?_, h3, h4⟩
        rw [push_parents_cons_seen repo pre pq hp]
        exact h2
      · rcases hl : git_commit_lookup repo p with _ | c
        · exact ⟨[], p, ps, pq, seen, rfl, rfl, hp, hl⟩
        · rw [push_parents_cons_found ps pq hp hl] at h
          obtain ⟨pre, q, post, pq1, seen1, h1, h2, h3, h4⟩ := ih _ _ ⟨e, h⟩
          refine ⟨p :: pre, q, post, pq1, seen1, by rw [h1]; rfl, ?_, h3, h4⟩
          rw [push_parents_cons_found pre pq hp hl]
          exact h2
  · rintro ⟨pre, p, post, pq1, seen1, h1, h2, h3, h4⟩
    refine ⟨fault.lookup_failed, ?_⟩
    rw [h1, push_parents_append, h2]
    exact push_parents_cons_missing post pq1 h3 h4

theorem next_oid_error_iff_push {P : priority_queue} {rw : revwalk P}
    {ent : revwalk_queue_entry} (ht : P.top rw.pq = some ent) :
    (∃ e, rw.next_oid = .error e) ↔
      ∃ e, push_parents P rw.repo ent.commit.parents (P.pop rw.pq) rw.seen = .error e := by
  rw [next_oid_of_top ht]
  rcases push_parents P rw.repo ent.commit.parents (P.pop rw.pq) rw.seen with e2 | ⟨pq2, seen2⟩
  · simp
  · simp

theorem walk_of_skip_error {P : priority_queue} {repo : git_repository} {fuel : Nat}
    {start_commit : git_commit} {skip : Nat} {e : fault}
    (h : skip_loop skip (revwalk.init P repo start_commit) = .error e) :
    walk P repo fuel start_commit skip = some ([], 1) := by
  unfold walk
  rw [h]

theorem walk_of_skip_ok {P : priority_queue} {repo : git_repository} {fuel : Nat}
    {start_commit : git_commit} {skip : Nat} {rw : revwalk P}
    (h : skip_loop skip (revwalk.init P repo start_commit) = .ok rw) :
    walk P repo fuel start_commit skip = print_loop fuel rw := by
  unfold walk
  rw [h]
/-! ## Termination -/

/-- Every successful advance lowers the measure by exactly one. -/
theorem walk_measure_next_oid {P : priority_queue} {rw rw1 : revwalk P} {oid : git_oid}
    (h : rw.next_oid = .ok (oid, rw1)) : walk_measure rw1 + 1 = walk_measure rw := by
  obtain ⟨c, recs, ht, -, hrepo, hperm, hnd, hmem, hlk, hseen⟩ := next_oid_effect h
  have hc : (⟨c⟩ : revwalk_queue_entry) ∈ P.entries rw.pq := P.top_mem _ _ ht
  have hlen : (P.entries rw1.pq).length + 1 = (P.entries rw.pq).length + recs.length := by
    rw [hperm.length_eq, List.length_append, List.length_erase_of_mem hc, List.length_map]
    have : 0 < (P.entries rw.pq).length := List.length_pos_of_mem hc
    omega
  have hS : rw1.seen.toFinset = rw.seen.toFinset ∪ (recs.map git_commit.id).toFinset := by
    ext x
    simp only [List.mem_toFinset, Finset.mem_union]
    rw [hseen x, hmem x]
    by_cases hx : x ∈ rw.seen <;> simp [hx]
  have hsub : (recs.map git_commit.id).toFinset ⊆
      (rw.repo.map git_commit.id).toFinset \ rw.seen.toFinset := by
    intro x hx
    rw [List.mem_toFinset] at hx
    have hx2 := (hmem x).mp hx
    obtain ⟨r, hr, rfl⟩ := List.mem_map.mp hx
    rw [Finset.mem_sdiff, List.mem_toFinset, List.mem_toFinset]
    exact ⟨List.mem_map_of_mem _ (git_commit_lookup_mem (hlk r hr)), hx2.2⟩
  have hcard : ((rw.repo.map git_commit.id).toFinset \ rw1.seen.toFinset).card + recs.length =
      ((rw.repo.map git_commit.id).toFinset \ rw.seen.toFinset).card := by
    have hE : (rw.repo.map git_commit.id).toFinset \
        (rw.seen.toFinset ∪ (recs.map git_commit.id).toFinset) =
        ((rw.repo.map git_commit.id).toFinset \ rw.seen.toFinset) \
          (recs.map git_commit.id).toFinset := by
      ext x
      simp only [Finset.mem_sdiff, Finset.mem_union]
      tauto
    rw [hS, hE, Finset.card_sdiff hsub,
      List.toFinset_card_of_nodup hnd, List.length_map]
    have := Finset.card_le_card hsub
    rw [List.toFinset_card_of_nodup hnd, List.length_map] at this
    omega
  unfold walk_measure
  rw [hrepo]
  omega

/-- More fuel does not change the result of a printing loop that finished. -/
theorem print_loop_mono {P : priority_queue} (fuel : Nat) :
    ∀ (rw : revwalk P) (r : List output_line × Nat) (fuel2 : Nat),
      print_loop fuel rw = some r → fuel ≤ fuel2 → print_loop fuel2 rw = some r := by
  induction fuel with
  | zero => intro rw r fuel2 h; simp [print_loop] at h
  | succ f ih =>
    intro rw r fuel2 h hle
    obtain ⟨g, rfl⟩ : ∃ g, fuel2 = g + 1 := ⟨fuel2 - 1, by omega⟩
    cases hn : rw.has_next with
    | false =>
      rw [print_loop_done hn] at h ⊢
      exact h
    | true =>
      rcases ho : rw.next_oid with e | ⟨oid, rw1⟩
      · rw [print_loop_fail hn ho] at h ⊢
        exact h
      · rw [print_loop_step hn ho] at h ⊢
        rcases hr : print_loop f rw1 with _ | r1
        · rw [hr] at h; cases h
        · rw [hr] at h
          rw [ih rw1 r1 g hr (by omega)]
          exact h

/-- The printing loop finishes within `walk_measure rw + 1` tests of its
condition, and prints at most `walk_measure rw` lines. -/
theorem print_loop_terminates {P : priority_queue} (fuel : Nat) :
    ∀ rw : revwalk P, walk_measure rw < fuel →
      ∃ lines status, print_loop fuel rw = some (lines, status) ∧
        lines.length ≤ walk_measure rw := by
  induction fuel with
  | zero => intro rw h; omega
  | succ f ih =>
    intro rw h
    cases hn : rw.has_next with
    | false => exact ⟨[], 0, print_loop_done hn, by simp⟩
    | true =>
      rcases ho : rw.next_oid with e | ⟨oid, rw1⟩
      · exact ⟨[], 1, print_loop_fail hn ho, by simp⟩
      · have hm := walk_measure_next_oid ho
        obtain ⟨lines, status, hl, hlen⟩ := ih rw1 (by omega)
        refine ⟨⟨rw.cursor_root, rw.cursor_offset, oid⟩ :: lines, status, ?_, ?_⟩
        · rw [print_loop_step hn ho, hl]
          rfl
        · simp only [List.length_cons]
          omega

theorem walk_measure_init (P : priority_queue) (repo : git_repository)
    (start_commit : git_commit) :
    walk_measure (revwalk.init P repo start_commit) ≤ repo.length + 1 := by
  unfold walk_measure revwalk.init
  simp only
  have h1 : (P.entries (P.push P.empty_queue ⟨start_commit⟩)).length = 1 := by
    rw [(P.entries_push _ _).length_eq, P.entries_empty_queue]
    rfl
  have h2 : ((repo.map git_commit.id).toFinset \ ([] : List git_oid).toFinset).card
      ≤ repo.length := by
    refine (Finset.card_le_card Finset.sdiff_subset).trans ?_
    exact (List.toFinset_card_le _).trans (by simp)
  omega

/-- The unskipped walk finishes with fuel `repo.length + 2`. -/
theorem walk_terminates (P : priority_queue) (repo : git_repository)
    (start_commit : git_commit) (fuel : Nat) (hf : repo.length + 2 ≤ fuel) :
    ∃ lines status, walk P repo fuel start_commit 0 = some (lines, status) ∧
      lines.length ≤ repo.length + 1 := by
  have hm := walk_measure_init P repo start_commit
  obtain ⟨lines, status, h, hlen⟩ :=
    print_loop_terminates fuel (revwalk.init P repo start_commit) (by omega)
  exact ⟨lines, status, h, by omega⟩

/-- Skipping `k` emissions drops the first `k` lines of the output and keeps the
exit status. -/
theorem print_loop_skip {P : priority_queue} (k : Nat) :
    ∀ (fuel : Nat) (rw : revwalk P) (lines : List output_line) (status : Nat),
      print_loop fuel rw = some (lines, status) →
      (match skip_loop k rw with
        | .error _ => some ([], 1)
        | .ok rw1 => print_loop fuel rw1) = some (lines.drop k, status) := by
  induction k with
  | zero => intro fuel rw lines status h; simpa [skip_loop] using h
  | succ k ih =>
    intro fuel rw lines status h
    obtain ⟨f, rfl⟩ : ∃ f, fuel = f + 1 := by
      cases fuel with
      | zero => simp [print_loop] at h
      | succ f => exact ⟨f, rfl⟩
    cases hn : rw.has_next with
    | false =>
      rw [skip_loop_done hn]
      rw [print_loop_done hn] at h
      simp only [Option.some.injEq, Prod.mk.injEq] at h
      obtain ⟨rfl, rfl⟩ := h
      simp only [List.drop_nil]
      exact print_loop_done hn
    | true =>
      rcases ho : rw.next_oid with e | ⟨oid, rw1⟩
      · rw [skip_loop_fail hn ho]
        rw [print_loop_fail hn ho] at h
        simp only [Option.some.injEq, Prod.mk.injEq] at h
        obtain ⟨rfl, rfl⟩ := h
        rfl
      · rw [skip_loop_step hn ho]
        rw [print_loop_step hn ho] at h
        rcases hr : print_loop f rw1 with _ | ⟨ls, st⟩
        · rw [hr] at h; cases h
        · rw [hr] at h
          simp only [Option.map_some', Option.some.injEq, Prod.mk.injEq] at h
          obtain ⟨rfl, rfl⟩ := h
          have := ih f rw1 ls st hr
          simp only [List.drop_succ_cons]
          rcases hs : skip_loop k rw1 with e | rw2
          · rw [hs] at this; exact this
          · rw [hs] at this
            simp only at this ⊢
            exact print_loop_mono f rw2 _ (f + 1) this (by omega)
/-! ## A queue holding a single entry -/

theorem entries_push_empty (P : priority_queue) (e : revwalk_queue_entry) :
    P.entries (P.push P.empty_queue e) = [e] := by
  have h := P.entries_push P.empty_queue e
  rw [P.entries_empty_queue] at h
  exact List.perm_singleton.mp h

theorem top_of_entries_singleton {P : priority_queue} {q : P.Q} {e : revwalk_queue_entry}
    (h : P.entries q = [e]) : P.top q = some e := by
  rcases ht : P.top q with _ | e2
  · have := (P.top_eq_none q).mp ht
    rw [h] at this
    cases this
  · have := P.top_mem q e2 ht
    rw [h, List.mem_singleton] at this
    rw [this]

theorem pop_of_entries_singleton {P : priority_queue} {q : P.Q} {e : revwalk_queue_entry}
    (h : P.entries q = [e]) : P.pop q = P.empty_queue := by
  apply P.eq_empty_queue
  have := P.entries_pop q e (top_of_entries_singleton h)
  rw [h, List.erase_cons_head] at this
  exact List.perm_nil.mp this

theorem empty_empty_queue (P : priority_queue) : P.empty P.empty_queue = true :=
  (P.empty_iff _).mpr P.entries_empty_queue

/-- Advance from a queue holding only a commit with a single, unseen parent: the
cursor is reset to the parent and the queue holds only the parent. -/
theorem next_oid_linear {P : priority_queue} {rw : revwalk P} {c cp : git_commit}
    {p : git_oid} (hq : P.entries rw.pq = [⟨c⟩]) (hp : c.parents = [p]) (hs : p ∉ rw.seen)
    (hl : git_commit_lookup rw.repo p = some cp) :
    rw.next_oid = .ok (c.id,
      { repo := rw.repo, pq := P.push P.empty_queue ⟨cp⟩, seen := rw.seen.insert p,
        cursor_root := p, cursor_offset := 0 }) := by
  obtain ⟨cid, ct, cps⟩ := c
  simp only at hp
  subst hp
  rw [next_oid_of_top (top_of_entries_singleton hq), pop_of_entries_singleton hq]
  simp only
  rw [push_parents_cons_found [] _ hs hl, push_parents_nil]
  have hc : git_commit_parentcount ⟨cid, ct, [p]⟩ = 1 ∧ P.empty P.empty_queue = true :=
    ⟨rfl, empty_empty_queue P⟩
  simp only [dif_pos hc]
  rfl

/-- Advance from a queue holding only a commit with a single parent that is
already seen: the cursor is reset to the parent and the queue is left empty. -/
theorem next_oid_linear_seen {P : priority_queue} {rw : revwalk P} {c : git_commit}
    {p : git_oid} (hq : P.entries rw.pq = [⟨c⟩]) (hp : c.parents = [p]) (hs : p ∈ rw.seen) :
    rw.next_oid = .ok (c.id,
      { repo := rw.repo, pq := P.empty_queue, seen := rw.seen,
        cursor_root := p, cursor_offset := 0 }) := by
  obtain ⟨cid, ct, cps⟩ := c
  simp only at hp
  subst hp
  rw [next_oid_of_top (top_of_entries_singleton hq), pop_of_entries_singleton hq]
  simp only
  rw [push_parents_cons_seen _ [] _ hs, push_parents_nil]
  have hc : git_commit_parentcount ⟨cid, ct, [p]⟩ = 1 ∧ P.empty P.empty_queue = true :=
    ⟨rfl, empty_empty_queue P⟩
  simp only [dif_pos hc]
  rfl

/-- Advance from a queue holding only a commit without parents: the queue is left
empty and the offset grows by one. -/
theorem next_oid_root {P : priority_queue} {rw : revwalk P} {c : git_commit}
    (hq : P.entries rw.pq = [⟨c⟩]) (hp : c.parents = []) :
    rw.next_oid = .ok (c.id,
      { repo := rw.repo, pq := P.empty_queue, seen := rw.seen,
        cursor_root := rw.cursor_root, cursor_offset := rw.cursor_offset + 1 }) := by
  obtain ⟨cid, ct, cps⟩ := c
  simp only at hp
  subst hp
  rw [next_oid_of_top (top_of_entries_singleton hq), pop_of_entries_singleton hq]
  simp only
  rw [push_parents_nil]
  have hc : ¬ (git_commit_parentcount ⟨cid, ct, []⟩ = 1 ∧ P.empty P.empty_queue = true) := by
    rintro ⟨h, -⟩
    cases h
  simp only [dif_neg hc]

theorem walk_mono {P : priority_queue} {repo : git_repository} {fuel fuel2 : Nat}
    {start_commit : git_commit} {skip : Nat} {r : List output_line × Nat}
    (h : walk P repo fuel start_commit skip = some r) (hle : fuel ≤ fuel2) :
    walk P repo fuel2 start_commit skip = some r := by
  unfold walk at h ⊢
  rcases hs : skip_loop skip (revwalk.init P repo start_commit) with e | rw
  · rw [hs] at h; exact h
  · rw [hs] at h
    exact print_loop_mono fuel rw r fuel2 h hle

/-- The result of a finished walk does not depend on the fuel. -/
theorem walk_fuel_unique {P : priority_queue} {repo : git_repository} {fuel fuel2 : Nat}
    {start_commit : git_commit} {skip : Nat} {r r2 : List output_line × Nat}
    (h : walk P repo fuel start_commit skip = some r)
    (h2 : walk P repo fuel2 start_commit skip = some r2) : r = r2 := by
  have a := walk_mono h (Nat.le_max_left fuel fuel2)
  have b := walk_mono h2 (Nat.le_max_right fuel fuel2)
  rw [a] at b
  exact Option.some.inj b
/-! ## Invariants of the walk -/

theorem frontier_stored_init (P : priority_queue) {repo : git_repository}
    {start_commit : git_commit}
    (hs : git_commit_lookup repo start_commit.id = some start_commit) :
    frontier_stored repo (revwalk.init P repo start_commit) := by
  refine ⟨rfl, ?_⟩
  intro e he
  have : e = ⟨start_commit⟩ := by
    have h := entries_push_empty P ⟨start_commit⟩
    change e ∈ P.entries (P.push P.empty_queue ⟨start_commit⟩) at he
    rw [h] at he
    exact List.mem_singleton.mp he
  rw [this]
  exact hs

theorem frontier_stored_next_oid {P : priority_queue} {repo : git_repository}
    {rw rw1 : revwalk P} {oid : git_oid} (hst : frontier_stored repo rw)
    (h : rw.next_oid = .ok (oid, rw1)) : frontier_stored repo rw1 := by
  obtain ⟨c, recs, -, -, hrepo, hperm, -, -, hlk, -⟩ := next_oid_effect h
  refine ⟨hrepo.trans hst.1, ?_⟩
  intro e he
  rcases List.mem_append.mp (hperm.mem_iff.mp he) with h1 | h1
  · exact hst.2 e (List.mem_of_mem_erase h1)
  · obtain ⟨r, hr, rfl⟩ := List.mem_map.mp h1
    rw [← hst.1]
    exact hlk r hr

/-- In a state whose queued commits are stored, a successful advance pops the
commit stored under the id it returns. -/
theorem next_oid_stored {P : priority_queue} {repo : git_repository}
    {rw rw1 : revwalk P} {oid : git_oid} (hst : frontier_stored repo rw)
    (h : rw.next_oid = .ok (oid, rw1)) :
    ∃ (c : git_commit) (recs : List git_commit),
      P.top rw.pq = some ⟨c⟩ ∧ c.id = oid ∧ git_commit_lookup repo oid = some c ∧
      (P.entries rw1.pq).Perm
        ((P.entries rw.pq).erase ⟨c⟩ ++ recs.map revwalk_queue_entry.mk) ∧
      (recs.map git_commit.id).Nodup ∧
      (∀ x, x ∈ recs.map git_commit.id ↔ x ∈ c.parents ∧ x ∉ rw.seen) ∧
      (∀ r ∈ recs, git_commit_lookup repo r.id = some r) ∧
      (∀ x, x ∈ rw1.seen ↔ x ∈ rw.seen ∨ x ∈ c.parents) := by
  obtain ⟨c, recs, ht, hid, -, hperm, hnd, hmem, hlk, hseen⟩ := next_oid_effect h
  refine ⟨c, recs, ht, hid.symm, ?_, hperm, hnd, hmem, ?_, hseen⟩
  · rw [hid]
    exact hst.2 ⟨c⟩ (P.top_mem _ _ ht)
  · rw [← hst.1]
    exact hlk

/-- With every parent stored, an advance from a non-empty queue of stored commits
succeeds. -/
theorem next_oid_ok_of_parents_stored {P : priority_queue} {repo : git_repository}
    {rw : revwalk P} (hst : frontier_stored repo rw) (hps : parents_stored repo)
    (hn : rw.has_next = true) : ∃ oid rw1, rw.next_oid = .ok (oid, rw1) := by
  obtain ⟨ent, ht⟩ := top_isSome_of_has_next hn
  have hl := hst.2 ent (P.top_mem _ _ ht)
  obtain ⟨rw1, h⟩ := next_oid_succeeds ht (fun p hp _ => by
    rw [hst.1]
    exact hps _ _ hl p hp)
  exact ⟨_, rw1, h⟩

theorem frontier_ids_perm {P : priority_queue} {rw rw1 : revwalk P} {c : git_commit}
    {recs : List git_commit} (hc : (⟨c⟩ : revwalk_queue_entry) ∈ P.entries rw.pq)
    (hperm : (P.entries rw1.pq).Perm
      ((P.entries rw.pq).erase ⟨c⟩ ++ recs.map revwalk_queue_entry.mk)) :
    (c.id :: frontier_ids rw1).Perm (frontier_ids rw ++ recs.map git_commit.id) := by
  unfold frontier_ids
  have h1 : (P.entries rw.pq).Perm (⟨c⟩ :: (P.entries rw.pq).erase ⟨c⟩) :=
    List.perm_cons_erase hc
  have h2 := (hperm.map (fun e : revwalk_queue_entry => e.commit.id))
  have h3 := (h1.map (fun e : revwalk_queue_entry => e.commit.id))
  simp only [List.map_append, List.map_map, List.map_cons] at h2 h3
  have h4 : (fun e : revwalk_queue_entry => e.commit.id) ∘ revwalk_queue_entry.mk =
      git_commit.id := rfl
  rw [h4] at h2
  refine (List.Perm.cons _ h2).trans ?_
  rw [← List.cons_append]
  exact List.Perm.append_right _ h3.symm

theorem walk_inv_init (P : priority_queue) {repo : git_repository}
    {start_commit : git_commit}
    (hs : git_commit_lookup repo start_commit.id = some start_commit) :
    walk_inv repo start_commit.id [] (revwalk.init P repo start_commit) := by
  have hf : frontier_ids (revwalk.init P repo start_commit) = [start_commit.id] := by
    unfold frontier_ids revwalk.init
    simp only [entries_push_empty, List.map_cons, List.map_nil]
  refine ⟨frontier_stored_init P hs, ?_, ?_, ?_, ?_⟩
  · rw [hf]; simp
  · intro x
    rw [hf]
    simp [revwalk.init]
  · intro x hx
    simp [revwalk.init] at hx
  · intro x hx
    simp at hx

theorem walk_inv_next_oid {P : priority_queue} {repo : git_repository} {s : git_oid}
    {emitted : List git_oid} {rw rw1 : revwalk P} {oid : git_oid} (hac : acyclic repo)
    (hinv : walk_inv repo s emitted rw) (h : rw.next_oid = .ok (oid, rw1)) :
    walk_inv repo s (emitted ++ [oid]) rw1 := by
  obtain ⟨c, recs, ht, hid, hlc, hperm, hnd, hmem, hlk, hseen⟩ := next_oid_stored hinv.stored h
  have hc : (⟨c⟩ : revwalk_queue_entry) ∈ P.entries rw.pq := P.top_mem _ _ ht
  have hfp := frontier_ids_perm hc hperm
  rw [hid] at hfp
  have hoidf : oid ∈ frontier_ids rw := by
    rw [← hid]
    exact List.mem_map_of_mem (fun e : revwalk_queue_entry => e.commit.id) hc
  -- the popped commit is the start or reached from it
  have hreach : oid = s ∨ Relation.TransGen (is_parent repo) s oid := by
    rcases (hinv.mem_iff oid).mp (Or.inr hoidf) with h1 | h1
    · exact Or.inl h1
    · exact Or.inr (hinv.seen_reach oid h1)
  have hpar : ∀ p ∈ c.parents, Relation.TransGen (is_parent repo) s p := by
    intro p hp
    have hip : is_parent repo oid p := ⟨c, hlc, hp⟩
    rcases hreach with h1 | h1
    · rw [h1] at hip
      exact Relation.TransGen.single hip
    · exact Relation.TransGen.tail h1 hip
  have hnew : ∀ x ∈ recs.map git_commit.id, x ∉ emitted ∧ x ∉ frontier_ids rw := by
    intro x hx
    have hx2 := (hmem x).mp hx
    have hxs : ¬ (x = s ∨ x ∈ rw.seen) := by
      rintro (h1 | h1)
      · exact hac s (h1 ▸ hpar x hx2.1)
      · exact hx2.2 h1
    rw [← hinv.mem_iff x] at hxs
    exact ⟨fun h1 => hxs (Or.inl h1), fun h1 => hxs (Or.inr h1)⟩
  refine ⟨frontier_stored_next_oid hinv.stored h, ?_, ?_, ?_, ?_⟩
  · have hp2 : ((emitted ++ [oid]) ++ frontier_ids rw1).Perm
        ((emitted ++ frontier_ids rw) ++ recs.map git_commit.id) := by
      rw [List.append_assoc, List.append_assoc]
      exact List.Perm.append_left _ hfp
    rw [hp2.nodup_iff]
    refine List.Nodup.append hinv.nodup hnd ?_
    intro x hx1 hx2
    have := hnew x hx2
    rcases List.mem_append.mp hx1 with h1 | h1
    · exact this.1 h1
    · exact this.2 h1
  · intro x
    have hx1 : (x ∈ emitted ++ [oid] ∨ x ∈ frontier_ids rw1) ↔
        ((x ∈ emitted ∨ x ∈ frontier_ids rw) ∨ x ∈ recs.map git_commit.id) := by
      have := hfp.mem_iff (a := x)
      rw [List.mem_cons, List.mem_append] at this
      rw [List.mem_append, List.mem_singleton]
      tauto
    rw [hx1, hinv.mem_iff x, hseen x, hmem x]
    tauto
  · intro x hx
    rcases (hseen x).mp hx with h1 | h1
    · exact hinv.seen_reach x h1
    · exact hpar x h1
  · intro x hx c2 hc2 p hp
    rw [hseen p]
    rcases List.mem_append.mp hx with h1 | h1
    · exact Or.inl (hinv.expanded x h1 c2 hc2 p hp)
    · rw [List.mem_singleton] at h1
      rw [h1, hlc] at hc2
      cases hc2
      exact Or.inr hp
/-- The invariant holds, for the ids emitted before and by the loop, in the state
in which a finished printing loop stopped; with status 0 the queue is then empty. -/
theorem print_loop_walk_inv {P : priority_queue} {repo : git_repository} {s : git_oid}
    (hac : acyclic repo) (fuel : Nat) :
    ∀ (rw : revwalk P) (emitted : List git_oid) (lines : List output_line) (status : Nat),
      walk_inv repo s emitted rw → print_loop fuel rw = some (lines, status) →
      ∃ rwn : revwalk P, walk_inv repo s (emitted ++ lines.map output_line.oid) rwn ∧
        (status = 0 → P.entries rwn.pq = []) := by
  induction fuel with
  | zero => intro rw emitted lines status _ h; simp [print_loop] at h
  | succ f ih =>
    intro rw emitted lines status hinv h
    cases hn : rw.has_next with
    | false =>
      rw [print_loop_done hn] at h
      simp only [Option.some.injEq, Prod.mk.injEq] at h
      obtain ⟨rfl, rfl⟩ := h
      exact ⟨rw, by simpa using hinv, fun _ => (has_next_false_iff rw).mp hn⟩
    | true =>
      rcases ho : rw.next_oid with e | ⟨oid, rw1⟩
      · rw [print_loop_fail hn ho] at h
        simp only [Option.some.injEq, Prod.mk.injEq] at h
        obtain ⟨rfl, rfl⟩ := h
        exact ⟨rw, by simpa using hinv, fun h0 => by cases h0⟩
      · rw [print_loop_step hn ho] at h
        rcases hr : print_loop f rw1 with _ | ⟨ls, st⟩
        · rw [hr] at h; cases h
        · rw [hr] at h
          simp only [Option.map_some', Option.some.injEq, Prod.mk.injEq] at h
          obtain ⟨rfl, rfl⟩ := h
          obtain ⟨rwn, hn1, hn2⟩ := ih rw1 _ ls st (walk_inv_next_oid hac hinv ho) hr
          refine ⟨rwn, ?_, hn2⟩
          simpa using hn1

/-- With every parent stored, a finished printing loop over stored commits ends
with status 0. -/
theorem print_loop_status {P : priority_queue} {repo : git_repository}
    (hps : parents_stored repo) (fuel : Nat) :
    ∀ (rw : revwalk P) (lines : List output_line) (status : Nat),
      frontier_stored repo rw → print_loop fuel rw = some (lines, status) → status = 0 := by
  induction fuel with
  | zero => intro rw lines status _ h; simp [print_loop] at h
  | succ f ih =>
    intro rw lines status hst h
    cases hn : rw.has_next with
    | false =>
      rw [print_loop_done hn] at h
      simp only [Option.some.injEq, Prod.mk.injEq] at h
      exact h.2.symm
    | true =>
      obtain ⟨oid, rw1, ho⟩ := next_oid_ok_of_parents_stored hst hps hn
      rw [print_loop_step hn ho] at h
      rcases hr : print_loop f rw1 with _ | ⟨ls, st⟩
      · rw [hr] at h; cases h
      · rw [hr] at h
        simp only [Option.map_some', Option.some.injEq, Prod.mk.injEq] at h
        obtain ⟨-, rfl⟩ := h
        exact ih rw1 ls st (frontier_stored_next_oid hst ho) hr

/-- When the queue is empty, the emitted ids are exactly the ids reachable from
the start. -/
theorem walk_inv_reachable {P : priority_queue} {repo : git_repository} {s : git_oid}
    {emitted : List git_oid} {rw : revwalk P} (hinv : walk_inv repo s emitted rw)
    (hempty : P.entries rw.pq = []) (x : git_oid) :
    x ∈ emitted ↔ reachable repo s x := by
  have hf : frontier_ids rw = [] := by
    unfold frontier_ids
    rw [hempty]
    rfl
  have hm : ∀ y, y ∈ emitted ↔ (y = s ∨ y ∈ rw.seen) := by
    intro y
    rw [← hinv.mem_iff y, hf]
    simp
  constructor
  · intro hx
    rcases (hm x).mp hx with h1 | h1
    · rw [h1]
      exact Relation.ReflTransGen.refl
    · exact (hinv.seen_reach x h1).to_reflTransGen
  · intro hx
    induction hx with
    | refl => exact (hm s).mpr (Or.inl rfl)
    | tail _ hyz ih =>
      obtain ⟨c, hc, hp⟩ := hyz
      exact (hm _).mpr (Or.inr (hinv.expanded _ ih c hc _ hp))

/-- The walk over an acyclic repository in which every parent is stored: with
fuel `repo.length + 2` or more it finishes with status 0, its lines carry
pairwise different ids, and these are exactly the ids reachable from the start. -/
theorem walk_complete (P : priority_queue) {repo : git_repository}
    {start_commit : git_commit}
    (hs : git_commit_lookup repo start_commit.id = some start_commit)
    (hac : acyclic repo) (hps : parents_stored repo) (fuel : Nat)
    (hf : repo.length + 2 ≤ fuel) :
    ∃ lines, walk P repo fuel start_commit 0 = some (lines, 0) ∧
      (lines.map output_line.oid).Nodup ∧
      ∀ x, x ∈ lines.map output_line.oid ↔ reachable repo start_commit.id x := by
  obtain ⟨lines, status, h, -⟩ := walk_terminates P repo start_commit fuel hf
  have h0 : walk P repo fuel start_commit 0 =
      print_loop fuel (revwalk.init P repo start_commit) := rfl
  have hp := h
  rw [h0] at hp
  have hst := print_loop_status hps fuel _ lines status (frontier_stored_init P hs) hp
  subst hst
  obtain ⟨rwn, hinv, hempty⟩ := print_loop_walk_inv hac fuel _ [] lines 0 (walk_inv_init P hs) hp
  rw [List.nil_append] at hinv
  refine ⟨lines, h, ?_, walk_inv_reachable hinv (hempty rfl)⟩
  exact (List.nodup_append.mp hinv.nodup).1

/-- The ids emitted by any finished walk over an acyclic repository are pairwise
different, whether or not it met a failed lookup. -/
theorem walk_nodup (P : priority_queue) {repo : git_repository}
    {start_commit : git_commit}
    (hs : git_commit_lookup repo start_commit.id = some start_commit)
    (hac : acyclic repo) {fuel : Nat} {lines : List output_line} {status : Nat}
    (h : walk P repo fuel start_commit 0 = some (lines, status)) :
    (lines.map output_line.oid).Nodup := by
  have h0 : walk P repo fuel start_commit 0 =
      print_loop fuel (revwalk.init P repo start_commit) := rfl
  rw [h0] at h
  obtain ⟨rwn, hinv, -⟩ :=
    print_loop_walk_inv hac fuel _ [] lines status (walk_inv_init P hs) h
  rw [List.nil_append] at hinv
  exact (List.nodup_append.mp hinv.nodup).1

/-- A repository whose parent links strictly lower a rank has no cycle. -/
theorem acyclic_of_rank {repo : git_repository} (rank : git_oid → Nat)
    (h : ∀ c ∈ repo, ∀ p ∈ c.parents, rank p < rank c.id) : acyclic repo := by
  have hstep : ∀ o p, is_parent repo o p → rank p < rank o := by
    rintro o p ⟨c, hc, hp⟩
    have := h c (git_commit_lookup_mem hc) p hp
    rwa [git_commit_lookup_id hc] at this
  have htrans : ∀ o p, Relation.TransGen (is_parent repo) o p → rank p < rank o := by
    intro o p hop
    induction hop with
    | single h1 => exact hstep _ _ h1
    | tail _ h2 ih => exact lt_trans (hstep _ _ h2) ih
  intro o ho
  exact lt_irrefl _ (htrans o o ho)
/-! ## The example repositories -/

theorem parents_stored_of_mem {repo : git_repository}
    (h : ∀ c ∈ repo, ∀ p ∈ c.parents, git_commit_lookup repo p ≠ none) :
    parents_stored repo :=
  fun _ c hc p hp => h c (git_commit_lookup_mem hc) p hp

theorem diamond_acyclic (tD tB tC tA : Int) : acyclic (diamond_repo tD tB tC tA) := by
  apply acyclic_of_rank id
  intro c hc p hp
  simp only [diamond_repo, List.mem_cons, List.mem_singleton, List.not_mem_nil,
    or_false] at hc
  rcases hc with rfl | rfl | rfl | rfl <;> simp at hp <;> rcases hp with rfl | rfl <;> simp

theorem diamond_parents_stored (tD tB tC tA : Int) :
    parents_stored (diamond_repo tD tB tC tA) := by
  apply parents_stored_of_mem
  intro c hc p hp
  simp only [diamond_repo, List.mem_cons, List.mem_singleton, List.not_mem_nil,
    or_false] at hc
  rcases hc with rfl | rfl | rfl | rfl <;> simp at hp
  · rcases hp with rfl | rfl <;> simp [diamond_repo, git_commit_lookup, List.find?]
  · subst hp; simp [diamond_repo, git_commit_lookup, List.find?]
  · subst hp; simp [diamond_repo, git_commit_lookup, List.find?]

theorem diamond_lookup_tip (tD tB tC tA : Int) :
    git_commit_lookup (diamond_repo tD tB tC tA) (diamond_tip tD).id = some (diamond_tip tD) := by
  simp [diamond_repo, diamond_tip, git_commit_lookup, List.find?]

theorem diamond_reachable (tD tB tC tA : Int) :
    reachable (diamond_repo tD tB tC tA) (diamond_tip tD).id 1 := by
  have h1 : is_parent (diamond_repo tD tB tC tA) 4 2 :=
    ⟨⟨4, tD, [2, 3]⟩, by simp [diamond_repo, git_commit_lookup, List.find?], by simp⟩
  have h2 : is_parent (diamond_repo tD tB tC tA) 2 1 :=
    ⟨⟨2, tB, [1]⟩, by simp [diamond_repo, git_commit_lookup, List.find?], by simp⟩
  exact (Relation.ReflTransGen.single h1).tail h2

theorem chain_acyclic : acyclic chain_repo :=
  acyclic_of_rank id (by decide)

theorem chain_parents_stored : parents_stored chain_repo :=
  parents_stored_of_mem (by decide)
/-! ## Emission order -/

/-- Over a repository with monotone times, a finished printing loop over stored
commits emits stored commits in non-increasing order of committer time, none
later than a bound on the queued commits. -/
theorem print_loop_sorted {P : priority_queue} {repo : git_repository}
    (hmono : time_monotone repo) (fuel : Nat) :
    ∀ (rw : revwalk P) (lines : List output_line) (status : Nat),
      frontier_stored repo rw → print_loop fuel rw = some (lines, status) →
      ∃ recs : List git_commit,
        recs.map git_commit.id = lines.map output_line.oid ∧
        (∀ r ∈ recs, git_commit_lookup repo r.id = some r) ∧
        (recs.map git_commit.time).Sorted (· ≥ ·) ∧
        ∀ T : Int, (∀ e ∈ P.entries rw.pq, e.committed_at ≤ T) → ∀ r ∈ recs, r.time ≤ T := by
  induction fuel with
  | zero => intro rw lines status _ h; simp [print_loop] at h
  | succ f ih =>
    intro rw lines status hst h
    cases hn : rw.has_next with
    | false =>
      rw [print_loop_done hn] at h
      simp only [Option.some.injEq, Prod.mk.injEq] at h
      obtain ⟨rfl, rfl⟩ := h
      exact ⟨[], rfl, by simp, by simp, by simp⟩
    | true =>
      rcases ho : rw.next_oid with e | ⟨oid, rw1⟩
      · rw [print_loop_fail hn ho] at h
        simp only [Option.some.injEq, Prod.mk.injEq] at h
        obtain ⟨rfl, rfl⟩ := h
        exact ⟨[], rfl, by simp, by simp, by simp⟩
      · rw [print_loop_step hn ho] at h
        rcases hr : print_loop f rw1 with _ | ⟨ls, st⟩
        · rw [hr] at h; cases h
        · rw [hr] at h
          simp only [Option.map_some', Option.some.injEq, Prod.mk.injEq] at h
          obtain ⟨rfl, rfl⟩ := h
          obtain ⟨recs, hids, hlk, hsorted, hbound⟩ :=
            ih rw1 ls st (frontier_stored_next_oid hst ho) hr
          obtain ⟨c, pushed, ht, hid, hlc, hperm, -, hmem, hplk, -⟩ := next_oid_stored hst ho
          have hmax : ∀ x ∈ P.entries rw.pq, x.committed_at ≤ c.time := by
            intro x hx
            have := P.top_max _ _ ht x hx
            simpa [revwalk_queue_entry.lt, revwalk_queue_entry.committed_at] using this
          have hb1 : ∀ e ∈ P.entries rw1.pq, e.committed_at ≤ c.time := by
            intro e he
            rcases List.mem_append.mp (hperm.mem_iff.mp he) with h1 | h1
            · exact hmax e (List.mem_of_mem_erase h1)
            · obtain ⟨r, hr1, rfl⟩ := List.mem_map.mp h1
              have hp := ((hmem r.id).mp (List.mem_map_of_mem _ hr1)).1
              exact hmono oid c hlc r.id hp r (hplk r hr1)
          have hle := hbound c.time hb1
          refine ⟨c :: recs, ?_, ?_, ?_, ?_⟩
          · simp [hid, hids]
          · intro r hr1
            rcases List.mem_cons.mp hr1 with h1 | h1
            · rw [h1, hid]; exact hlc
            · exact hlk r h1
          · simp only [List.map_cons, List.sorted_cons]
            refine ⟨?_, hsorted⟩
            intro t ht1
            obtain ⟨r, hr1, rfl⟩ := List.mem_map.mp ht1
            exact hle r hr1
          · intro T hT r hr1
            have hcT : c.time ≤ T := hT ⟨c⟩ (P.top_mem _ _ ht)
            rcases List.mem_cons.mp hr1 with h1 | h1
            · rw [h1]; exact hcT
            · exact le_trans (hle r h1) hcT

theorem time_monotone_of_mem {repo : git_repository}
    (h : ∀ c ∈ repo, ∀ p ∈ c.parents, ∀ cp ∈ repo, cp.id = p → cp.time ≤ c.time) :
    time_monotone repo :=
  fun _ c hc p hp cp hcp =>
    h c (git_commit_lookup_mem hc) p hp cp (git_commit_lookup_mem hcp) (git_commit_lookup_id hcp)

theorem time_strict_of_mem {repo : git_repository}
    (h : ∀ c ∈ repo, ∀ p ∈ c.parents, ∀ cp ∈ repo, cp.id = p → cp.time < c.time) :
    time_strict repo :=
  fun _ c hc p hp cp hcp =>
    h c (git_commit_lookup_mem hc) p hp cp (git_commit_lookup_mem hcp) (git_commit_lookup_id hcp)

theorem diamond_time_monotone : time_monotone (diamond_repo 40 30 20 10) :=
  time_monotone_of_mem (by decide)
/-! ## Resuming a walk from its cursor -/

/-- The parent loop takes the same course from two `seen` lists that agree on the
parents scanned. -/
theorem push_parents_seen_congr {P : priority_queue} (repo : git_repository)
    (ps : List git_oid) :
    ∀ (pq pq1 : P.Q) (seen seen1 seen2 : List git_oid),
      (∀ p ∈ ps, p ∈ seen ↔ p ∈ seen2) →
      push_parents P repo ps pq seen = .ok (pq1, seen1) →
      ∃ seen3, push_parents P repo ps pq seen2 = .ok (pq1, seen3) := by
  induction ps with
  | nil =>
    intro pq pq1 seen seen1 seen2 _ h
    simp only [push_parents_nil, Except.ok.injEq, Prod.mk.injEq] at h
    exact ⟨seen2, by rw [push_parents_nil, h.1]⟩
  | cons p ps ih =>
    intro pq pq1 seen seen1 seen2 hagree h
    have hp := hagree p (List.mem_cons_self _ _)
    by_cases hps : p ∈ seen
    · rw [push_parents_cons_seen repo ps pq hps] at h
      rw [push_parents_cons_seen repo ps pq (hp.mp hps)]
      exact ih pq pq1 seen seen1 seen2
        (fun q hq => hagree q (List.mem_cons_of_mem _ hq)) h
    · have hps2 : p ∉ seen2 := fun h2 => hps (hp.mpr h2)
      rcases hl : git_commit_lookup repo p with _ | c
      · rw [push_parents_cons_missing ps pq hps hl] at h
        cases h
      · rw [push_parents_cons_found ps pq hps hl] at h
        rw [push_parents_cons_found ps pq hps2 hl]
        refine ih _ pq1 _ seen1 _ ?_ h
        intro q hq
        rw [List.mem_insert_iff, List.mem_insert_iff, hagree q (List.mem_cons_of_mem _ hq)]

/-- Appending one successful advance to a skip loop. -/
theorem skip_loop_snoc {P : priority_queue} (k : Nat) :
    ∀ (rw rw2 rw3 : revwalk P) (oid : git_oid),
      skip_loop k rw = .ok rw2 → rw2.has_next = true → rw2.next_oid = .ok (oid, rw3) →
      skip_loop (k + 1) rw = .ok rw3 := by
  induction k with
  | zero =>
    intro rw rw2 rw3 oid h hn ho
    simp only [skip_loop, Except.ok.injEq] at h
    subst h
    rw [skip_loop_step hn ho]
    rfl
  | succ k ih =>
    intro rw rw2 rw3 oid h hn ho
    cases hn0 : rw.has_next with
    | false =>
      rw [skip_loop_done hn0] at h
      simp only [Except.ok.injEq] at h
      subst h
      rw [hn0] at hn
      cases hn
    | true =>
      rcases ho0 : rw.next_oid with e | ⟨oid0, rw1⟩
      · rw [skip_loop_fail hn0 ho0] at h
        cases h
      · rw [skip_loop_step hn0 ho0] at h ⊢
        exact ih rw1 rw2 rw3 oid h hn ho

/-- Over strictly decreasing times, the commits queued after an advance were
queued before, apart from the popped one, or are stored parents of the popped
commit with an earlier committer time. -/
theorem entries_after_next_oid {P : priority_queue} {repo : git_repository}
    {rw rw1 : revwalk P} {oid : git_oid} (hstrict : time_strict repo)
    (hst : frontier_stored repo rw) (h : rw.next_oid = .ok (oid, rw1)) :
    ∃ c : git_commit, P.top rw.pq = some ⟨c⟩ ∧ c.id = oid ∧
      git_commit_lookup repo oid = some c ∧
      (∀ x, x ∈ rw1.seen ↔ x ∈ rw.seen ∨ x ∈ c.parents) ∧
      (∀ p ∈ c.parents, ∀ cp, git_commit_lookup repo p = some cp → cp.time < c.time) ∧
      (∀ e ∈ P.entries rw.pq, e.committed_at ≤ c.time) ∧
      (∀ p ∈ c.parents, p ∈ rw1.seen ∧ (p ∉ rw.seen →
        ∃ cp, git_commit_lookup repo p = some cp ∧
          (⟨cp⟩ : revwalk_queue_entry) ∈ P.entries rw1.pq)) ∧
      ∀ e ∈ P.entries rw1.pq,
        (e ∈ (P.entries rw.pq).erase ⟨c⟩) ∨ e.committed_at < c.time := by
  obtain ⟨c, recs, ht, hid, hlc, hperm, -, hmem, hlk, hseen⟩ := next_oid_stored hst h
  have hmax : ∀ e ∈ P.entries rw.pq, e.committed_at ≤ c.time := by
    intro e he
    have := P.top_max _ _ ht e he
    simpa [revwalk_queue_entry.lt, revwalk_queue_entry.committed_at] using this
  refine ⟨c, ht, hid, hlc, hseen, hstrict oid c hlc, hmax, ?_, ?_⟩
  · intro p hp
    refine ⟨(hseen p).mpr (Or.inr hp), ?_⟩
    intro hps
    obtain ⟨r, hr, hrid⟩ := List.mem_map.mp ((hmem p).mpr ⟨hp, hps⟩)
    refine ⟨r, hrid ▸ hlk r hr, ?_⟩
    exact hperm.mem_iff.mpr (List.mem_append_right _ (List.mem_map_of_mem _ hr))
  · intro e he
    rcases List.mem_append.mp (hperm.mem_iff.mp he) with h1 | h1
    · exact Or.inl h1
    · obtain ⟨r, hr, rfl⟩ := List.mem_map.mp h1
      have hp := ((hmem r.id).mp (List.mem_map_of_mem _ hr)).1
      exact Or.inr (hstrict oid c hlc r.id hp r (hlk r hr))

theorem seen_bound_next_oid {P : priority_queue} {repo : git_repository}
    {rw rw1 : revwalk P} {oid : git_oid} (hstrict : time_strict repo)
    (hst : frontier_stored repo rw) (hb : seen_bound repo rw)
    (h : rw.next_oid = .ok (oid, rw1)) : seen_bound repo rw1 := by
  obtain ⟨c, ht, -, -, hseen, -, hmax, hnew, hent⟩ := entries_after_next_oid hstrict hst h
  have hbelow : ∀ cd : git_commit, c.time ≤ cd.time →
      ∀ e ∈ P.entries rw1.pq, e.committed_at ≤ cd.time := by
    intro cd hcd e he
    rcases hent e he with h1 | h1
    · exact le_trans (hmax e (List.mem_of_mem_erase h1)) hcd
    · exact le_trans (le_of_lt h1) hcd
  intro d hd
  by_cases hds : d ∈ rw.seen
  · obtain ⟨cd, hcd, hq⟩ := hb d hds
    refine ⟨cd, hcd, ?_⟩
    rcases hq with hq | hq
    · by_cases hcc : (⟨cd⟩ : revwalk_queue_entry) = ⟨c⟩
      · have : cd = c := by cases hcc; rfl
        exact Or.inr (hbelow cd (by rw [this]))
      · obtain ⟨c2, recs, ht2, -, -, hperm, -⟩ := next_oid_effect h
        rw [ht] at ht2
        cases ht2
        exact Or.inl (hperm.mem_iff.mpr
          (List.mem_append_left _ ((List.mem_erase_of_ne hcc).mpr hq)))
    · exact Or.inr (hbelow cd (hq ⟨c⟩ (P.top_mem _ _ ht)))
  · have hp : d ∈ c.parents := by
      rcases (hseen d).mp hd with h1 | h1
      · exact absurd h1 hds
      · exact h1
    obtain ⟨cp, hcp, hq⟩ := (hnew d hp).2 hds
    exact ⟨cp, hcp, Or.inl hq⟩
/-- Over strictly decreasing times the resumed walk follows the original one: an
advance of the original state is matched by an advance of the simulating state
that returns the same id, and the simulation is kept. -/
theorem resume_sim_next_oid {P : priority_queue} {repo : git_repository}
    {rw rw1 rw2 : revwalk P} {oid : git_oid} (hstrict : time_strict repo)
    (hst : frontier_stored repo rw) (hsim : resume_sim repo rw rw2)
    (h : rw.next_oid = .ok (oid, rw1)) :
    ∃ rw3, rw2.next_oid = .ok (oid, rw3) ∧ resume_sim repo rw1 rw3 := by
  obtain ⟨c, ht, hid, hlc, hseen1, hlt, hmax, -, hent⟩ := entries_after_next_oid hstrict hst h
  obtain ⟨r2, q2, s2, cr2, co2⟩ := rw2
  obtain ⟨e1, e2, e3, e4, hsub, hold⟩ := hsim
  simp only at e1 e2 e3 e4 hsub hold
  subst e1 e2 e3 e4
  have hagree : ∀ p ∈ c.parents, p ∈ rw.seen ↔ p ∈ s2 := by
    intro p hp
    constructor
    · intro hps
      by_contra hn
      obtain ⟨cd, hcd, hb⟩ := hold p hps hn
      have h1 := hb ⟨c⟩ (P.top_mem _ _ ht)
      have h2 := hlt p hp cd hcd
      simp only [revwalk_queue_entry.committed_at] at h1
      omega
    · exact hsub p
  have hh := h
  rw [next_oid_of_top ht] at hh
  rcases hp : push_parents P rw.repo c.parents (P.pop rw.pq) rw.seen with e | ⟨pq2, seen2⟩
  · rw [hp] at hh; cases hh
  · rw [hp] at hh
    simp only [Except.ok.injEq, Prod.mk.injEq] at hh
    obtain ⟨-, hrw1⟩ := hh
    obtain ⟨seen3, hp3⟩ := push_parents_seen_congr rw.repo c.parents _ _ _ _ s2 hagree hp
    have hs3 := (push_parents_ok rw.repo c.parents _ _ _ _ hp3).1
    have ht2 : P.top (revwalk.pq (P := P) ⟨rw.repo, rw.pq, s2, rw.cursor_root,
        rw.cursor_offset⟩) = some ⟨c⟩ := ht
    refine ⟨⟨rw.repo, pq2, seen3, rw1.cursor_root, rw1.cursor_offset⟩, ?_, ?_⟩
    · rw [next_oid_of_top ht2]
      simp only
      rw [hp3, ← hid, ← hrw1]
    · subst hrw1
      refine ⟨rfl, rfl, rfl, rfl, ?_, ?_⟩
      · intro x hx
        simp only at hx ⊢
        rcases (hs3 x).mp hx with h1 | h1
        · exact (hseen1 x).mpr (Or.inl (hsub x h1))
        · exact (hseen1 x).mpr (Or.inr h1)
      · intro d hd hd3
        simp only at hd hd3
        have hd3' : ¬ (d ∈ s2 ∨ d ∈ c.parents) := fun hx => hd3 ((hs3 d).mpr hx)
        have hds : d ∈ rw.seen := by
          rcases (hseen1 d).mp hd with h1 | h1
          · exact h1
          · exact absurd (Or.inr h1) hd3'
        obtain ⟨cd, hcd, hb⟩ := hold d hds (fun hx => hd3' (Or.inl hx))
        refine ⟨cd, hcd, ?_⟩
        intro e he
        have hc := hb ⟨c⟩ (P.top_mem _ _ ht)
        simp only [revwalk_queue_entry.committed_at] at hc
        rcases hent e he with h1 | h1
        · exact hb e (List.mem_of_mem_erase h1)
        · exact le_trans (le_of_lt h1) hc
theorem has_next_of_next_oid {P : priority_queue} {rw rw1 : revwalk P} {oid : git_oid}
    (h : rw.next_oid = .ok (oid, rw1)) : rw.has_next = true := by
  obtain ⟨ent, -, -, ht, -⟩ := next_oid_ok h
  rw [has_next_iff]
  intro hnil
  have := (P.top_eq_none rw.pq).mpr hnil
  rw [ht] at this
  cases this

theorem entries_singleton_of_pop_nil {P : priority_queue} {q : P.Q} {e : revwalk_queue_entry}
    (ht : P.top q = some e) (hnil : P.entries (P.pop q) = []) : P.entries q = [e] := by
  have h1 := P.entries_pop q e ht
  rw [hnil] at h1
  have h2 : (P.entries q).erase e = [] := List.perm_nil.mp h1.symm
  have h3 := List.perm_cons_erase (P.top_mem q e ht)
  rw [h2] at h3
  exact List.perm_singleton.mp h3

theorem resume_inv_init (P : priority_queue) {repo : git_repository}
    {start_commit : git_commit}
    (hs : git_commit_lookup repo start_commit.id = some start_commit) :
    resume_inv repo (revwalk.init P repo start_commit) := by
  refine ⟨frontier_stored_init P hs, ?_, ?_⟩
  · intro d hd
    simp [revwalk.init] at hd
  · intro hn
    refine ⟨start_commit, revwalk.init P repo start_commit, hs, rfl, hn, ?_⟩
    exact ⟨rfl, rfl, rfl, rfl, fun x hx => hx, fun d hd1 hd2 => absurd hd1 hd2⟩

/-- Over strictly decreasing times every advance keeps the cursor resumable. -/
theorem resume_inv_next_oid {P : priority_queue} {repo : git_repository}
    {rw rw1 : revwalk P} {oid : git_oid} (hstrict : time_strict repo)
    (hinv : resume_inv repo rw) (h : rw.next_oid = .ok (oid, rw1)) :
    resume_inv repo rw1 := by
  refine ⟨frontier_stored_next_oid hinv.stored h,
    seen_bound_next_oid hstrict hinv.stored hinv.bound h, ?_⟩
  intro hn1
  have hn := has_next_of_next_oid h
  obtain ⟨c, ht, hid, hlc, hseen1, hlt, hmax, hnew, -⟩ :=
    entries_after_next_oid hstrict hinv.stored h
  obtain ⟨c2, ht2, -, hrule⟩ := next_oid_cursor_rule h
  rw [ht] at ht2
  cases ht2
  by_cases hreset : c.parents.length = 1 ∧ P.entries (P.pop rw.pq) = []
  · -- the cursor is reset to the single parent
    obtain ⟨hlen, hnil⟩ := hreset
    obtain ⟨p, hp⟩ := List.length_eq_one.mp hlen
    have hq := entries_singleton_of_pop_nil ht hnil
    by_cases hps : p ∈ rw.seen
    · have h2 := next_oid_linear_seen hq hp hps
      rw [h] at h2
      simp only [Except.ok.injEq, Prod.mk.injEq] at h2
      obtain ⟨-, rfl⟩ := h2
      rw [has_next_iff] at hn1
      exact absurd P.entries_empty_queue hn1
    · obtain ⟨cp, hcp, -⟩ := (hnew p (by rw [hp]; simp)).2 hps
      have hcp2 : git_commit_lookup rw.repo p = some cp := by
        rw [hinv.stored.1]; exact hcp
      have h2 := next_oid_linear hq hp hps hcp2
      rw [h] at h2
      simp only [Except.ok.injEq, Prod.mk.injEq] at h2
      obtain ⟨-, rfl⟩ := h2
      have hcpid : cp.id = p := git_commit_lookup_id hcp
      refine ⟨cp, revwalk.init P repo cp, hcp, rfl, ?_, ?_⟩
      · rw [has_next_iff]
        simp [revwalk.init, entries_push_empty]
      · refine ⟨rfl, hinv.stored.1.symm, hcpid, rfl, ?_, ?_⟩
        · intro x hx
          simp [revwalk.init] at hx
        · intro d hd _
          simp only at hd
          have hcpc : cp.time < c.time := hlt p (by rw [hp]; simp) cp hcp
          have hent : ∀ cd : git_commit, cp.time ≤ cd.time →
              ∀ e ∈ P.entries (P.push P.empty_queue ⟨cp⟩), e.committed_at ≤ cd.time := by
            intro cd hcd e he
            rw [entries_push_empty, List.mem_singleton] at he
            rw [he]
            exact hcd
          rcases List.mem_insert_iff.mp hd with h1 | h1
          · exact ⟨cp, h1 ▸ hcp, hent cp le_rfl⟩
          · obtain ⟨cd, hcd, hb⟩ := hinv.bound d h1
            refine ⟨cd, hcd, hent cd ?_⟩
            rcases hb with hb | hb
            · rw [hq, List.mem_singleton] at hb
              have : cd = c := by cases hb; rfl
              rw [this]
              exact le_of_lt hcpc
            · have := hb ⟨c⟩ (P.top_mem _ _ ht)
              simp only [revwalk_queue_entry.committed_at] at this
              omega
  · -- the root is kept and the offset grows by one
    obtain ⟨hroot, hoff⟩ := hrule.2 hreset
    obtain ⟨cr, rw2, hlk, hskip, hn2, hsim⟩ := hinv.resume hn
    obtain ⟨rw3, ho3, hsim3⟩ := resume_sim_next_oid hstrict hinv.stored hsim h
    refine ⟨cr, rw3, by rw [hroot]; exact hlk, ?_, ?_, hsim3⟩
    · rw [hoff]
      exact skip_loop_snoc _ _ rw2 rw3 oid hskip hn2 ho3
    · unfold revwalk.has_next at hn1 ⊢
      rw [hsim3.pq_eq]
      exact hn1

theorem resume_inv_skip_loop {P : priority_queue} {repo : git_repository}
    (hstrict : time_strict repo) (k : Nat) :
    ∀ rw rwk : revwalk P, resume_inv repo rw → skip_loop k rw = .ok rwk →
      resume_inv repo rwk := by
  induction k with
  | zero =>
    intro rw rwk hinv h
    simp only [skip_loop, Except.ok.injEq] at h
    exact h ▸ hinv
  | succ k ih =>
    intro rw rwk hinv h
    cases hn : rw.has_next with
    | false =>
      rw [skip_loop_done hn] at h
      simp only [Except.ok.injEq] at h
      exact h ▸ hinv
    | true =>
      rcases ho : rw.next_oid with e | ⟨oid, rw1⟩
      · rw [skip_loop_fail hn ho] at h
        cases h
      · rw [skip_loop_step hn ho] at h
        exact ih rw1 rwk (resume_inv_next_oid hstrict hinv ho) h

theorem walk_measure_skip_loop {P : priority_queue} (k : Nat) :
    ∀ rw rwk : revwalk P, skip_loop k rw = .ok rwk → walk_measure rwk ≤ walk_measure rw := by
  induction k with
  | zero =>
    intro rw rwk h
    simp only [skip_loop, Except.ok.injEq] at h
    rw [h]
  | succ k ih =>
    intro rw rwk h
    cases hn : rw.has_next with
    | false =>
      rw [skip_loop_done hn] at h
      simp only [Except.ok.injEq] at h
      rw [h]
    | true =>
      rcases ho : rw.next_oid with e | ⟨oid, rw1⟩
      · rw [skip_loop_fail hn ho] at h
        cases h
      · rw [skip_loop_step hn ho] at h
        have := walk_measure_next_oid ho
        have := ih rw1 rwk h
        omega

/-- Over strictly decreasing times, a walk resumed from the cursor of a printed
line prints that very line first. -/
theorem walk_resume_head (P : priority_queue) {repo : git_repository}
    {start_commit : git_commit}
    (hs : git_commit_lookup repo start_commit.id = some start_commit)
    (hstrict : time_strict repo) {fuel : Nat} {lines : List output_line} {status : Nat}
    (h : walk P repo fuel start_commit 0 = some (lines, status))
    {i : Nat} {l : output_line} (hl : lines[i]? = some l) :
    ∃ root_commit, git_commit_lookup repo l.cursor_root = some root_commit ∧
      ∀ fuel2, repo.length + 2 ≤ fuel2 →
        ∃ lines2 status2,
          walk P repo fuel2 root_commit l.cursor_offset = some (lines2, status2) ∧
          lines2.head? = some l := by
  have h0 : walk P repo fuel start_commit 0 =
      print_loop fuel (revwalk.init P repo start_commit) := rfl
  rw [h0] at h
  obtain ⟨rwi, rwj, hski, hni, hoi, hroot, hoff⟩ := (print_loop_spec fuel _ lines status h).1 i l hl
  have hinv := resume_inv_skip_loop hstrict i _ rwi (resume_inv_init P hs) hski
  obtain ⟨cr, rw2, hlk, hskip, hn2, hsim⟩ := hinv.resume hni
  obtain ⟨rw3, ho3, -⟩ := resume_sim_next_oid hstrict hinv.stored hsim hoi
  refine ⟨cr, by rw [hroot]; exact hlk, ?_⟩
  intro fuel2 hf
  rw [hoff, walk_of_skip_ok hskip]
  obtain ⟨g, rfl⟩ : ∃ g, fuel2 = g + 1 := ⟨fuel2 - 1, by omega⟩
  have hm2 := walk_measure_skip_loop _ _ rw2 hskip
  have hm0 := walk_measure_init P repo cr
  have hm3 := walk_measure_next_oid ho3
  obtain ⟨ls, st, hp, -⟩ := print_loop_terminates g rw3 (by omega)
  refine ⟨⟨rw2.cursor_root, rw2.cursor_offset, l.oid⟩ :: ls, st, ?_, ?_⟩
  · rw [print_loop_step hn2 ho3, hp]
    rfl
  · rw [List.head?_cons, hsim.root_eq, hsim.offset_eq, ← hroot, ← hoff]

theorem chain_time_strict : time_strict chain_repo :=
  time_strict_of_mem (by decide)

theorem diamond_time_strict : time_strict (diamond_repo 40 30 20 10) :=
  time_strict_of_mem (by decide)
/-! ## The host program -/

/-- A printing loop that finds the queue empty after `n` successful advances ends
with status 0. -/
theorem print_loop_of_done {P : priority_queue} (n : Nat) :
    ∀ (rw rwn : revwalk P) (fuel : Nat),
      skip_loop n rw = .ok rwn → rwn.has_next = false → n < fuel →
      ∃ lines, print_loop fuel rw = some (lines, 0) ∧ lines.length ≤ n := by
  induction n with
  | zero =>
    intro rw rwn fuel hs hn hf
    simp only [skip_loop, Except.ok.injEq] at hs
    subst hs
    obtain ⟨f, rfl⟩ : ∃ f, fuel = f + 1 := ⟨fuel - 1, by omega⟩
    exact ⟨[], print_loop_done hn, by simp⟩
  | succ k ih =>
    intro rw rwn fuel hs hn hf
    obtain ⟨f, rfl⟩ : ∃ f, fuel = f + 1 := ⟨fuel - 1, by omega⟩
    cases hn0 : rw.has_next with
    | false => exact ⟨[], print_loop_done hn0, by simp⟩
    | true =>
      rcases ho0 : rw.next_oid with e0 | ⟨oid, rw1⟩
      · rw [skip_loop_fail hn0 ho0] at hs
        cases hs
      · rw [skip_loop_step hn0 ho0] at hs
        obtain ⟨lines, hl, hlen⟩ := ih rw1 rwn f hs hn (by omega)
        refine ⟨⟨rw.cursor_root, rw.cursor_offset, oid⟩ :: lines, ?_, by simp [hlen]⟩
        rw [print_loop_step hn0 ho0, hl]
        rfl

theorem main_of_few_args (P : priority_queue) (E : environment) (fuel : Nat)
    {argv : List String} (h : argv.length < 2) :
    main P E fuel argv = some ⟨[], some diagnostic.usage, 1⟩ := by
  unfold main
  rw [if_pos h]

theorem main_of_no_GIT_DIR (P : priority_queue) (E : environment) (fuel : Nat)
    {argv : List String} (h : 2 ≤ argv.length) (hg : E.getenv_GIT_DIR = none) :
    main P E fuel argv = some ⟨[], some diagnostic.must_set_GIT_DIR, 1⟩ := by
  unfold main
  rw [if_neg (by omega)]
  simp only [hg]

theorem main_of_open_failed (P : priority_queue) (E : environment) (fuel : Nat)
    {argv : List String} {git_dir : String} (h : 2 ≤ argv.length)
    (hg : E.getenv_GIT_DIR = some git_dir) (ho : E.git_repository_open git_dir = none) :
    main P E fuel argv = some ⟨[], some (diagnostic.giterr "git_repository_open"), 1⟩ := by
  unfold main
  rw [if_neg (by omega)]
  simp only [hg, ho]

theorem main_of_revparse_failed (P : priority_queue) (E : environment) (fuel : Nat)
    {argv : List String} {git_dir : String} {repo : git_repository} {d : diagnostic}
    (h : 2 ≤ argv.length) (hg : E.getenv_GIT_DIR = some git_dir)
    (ho : E.git_repository_open git_dir = some repo)
    (hr : revparse_commit E repo (argv.getD 1 "") = .error d) :
    main P E fuel argv = some ⟨[], some d, 1⟩ := by
  unfold main
  rw [if_neg (by omega)]
  simp only [hg, ho, hr]

/-- Once the repository is open and the reference resolved, `main` is the walk. -/
theorem main_of_walk (P : priority_queue) (E : environment) (fuel : Nat)
    {argv : List String} {git_dir : String} {repo : git_repository}
    {start_commit : git_commit}
    (h : 2 ≤ argv.length) (hg : E.getenv_GIT_DIR = some git_dir)
    (ho : E.git_repository_open git_dir = some repo)
    (hr : revparse_commit E repo (argv.getD 1 "") = .ok start_commit) :
    main P E fuel argv =
      match walk P repo fuel start_commit
          (if 2 < argv.length then size_t_of_int (E.atoi (argv.getD 2 "")) else 0) with
      | none => none
      | some (lines, status) =>
        some ⟨lines,
          if status = 0 then none else some (diagnostic.giterr "git_commit_lookup"),
          status⟩ := by
  unfold main
  rw [if_neg (by omega)]
  simp only [hg, ho, hr]

theorem revparse_commit_error_iff (E : environment) (repo : git_repository) (ref : String) :
    (∃ d, revparse_commit E repo ref = .error d) ↔
      (E.git_revparse_single repo ref = none ∨
        ∃ o, E.git_revparse_single repo ref = some o ∧ git_commit_lookup repo o = none) := by
  unfold revparse_commit
  rcases E.git_revparse_single repo ref with _ | o
  · simp
  · rcases hl : git_commit_lookup repo o with _ | c
    · simp [hl]
    · simp [hl]

theorem revparse_commit_stored {E : environment} {repo : git_repository} {ref : String}
    {c : git_commit} (h : revparse_commit E repo ref = .ok c) :
    git_commit_lookup repo c.id = some c := by
  unfold revparse_commit at h
  rcases ho : E.git_revparse_single repo ref with _ | o
  · rw [ho] at h; cases h
  · rw [ho] at h
    simp only at h
    rcases hl : git_commit_lookup repo o with _ | c2
    · rw [hl] at h; cases h
    · rw [hl] at h
      simp only [Except.ok.injEq] at h
      subst h
      rw [git_commit_lookup_id hl]
      exact hl
/-- With the start commit and every parent stored, the walk with any skip count
finishes with status 0 once the fuel is `repo.length + 2` or more. -/
theorem walk_status_zero (P : priority_queue) {repo : git_repository}
    {start_commit : git_commit}
    (hs : git_commit_lookup repo start_commit.id = some start_commit)
    (hps : parents_stored repo) (fuel : Nat) (hf : repo.length + 2 ≤ fuel) (skip : Nat) :
    ∃ lines, walk P repo fuel start_commit skip = some (lines, 0) := by
  obtain ⟨lines, status, h, -⟩ := walk_terminates P repo start_commit fuel hf
  have h0 : walk P repo fuel start_commit 0 =
      print_loop fuel (revwalk.init P repo start_commit) := rfl
  rw [h0] at h
  have hst := print_loop_status hps fuel _ lines status (frontier_stored_init P hs) h
  subst hst
  exact ⟨lines.drop skip, print_loop_skip skip fuel _ lines 0 h⟩
/-! ## The tail of a resumed walk -/

theorem print_loop_fuel_unique {P : priority_queue} {fuel fuel2 : Nat} {rw : revwalk P}
    {r r2 : List output_line × Nat} (h : print_loop fuel rw = some r)
    (h2 : print_loop fuel2 rw = some r2) : r = r2 := by
  have a := print_loop_mono fuel rw r (max fuel fuel2) h (Nat.le_max_left _ _)
  have b := print_loop_mono fuel2 rw r2 (max fuel fuel2) h2 (Nat.le_max_right _ _)
  rw [a] at b
  exact Option.some.inj b

/-- A failing advance of the original state is matched by a failing advance of
the simulating state. -/
theorem resume_sim_next_oid_error {P : priority_queue} {repo : git_repository}
    {rw rw2 : revwalk P} {e : fault} (hsim : resume_sim repo rw rw2)
    (hn : rw.has_next = true) (h : rw.next_oid = .error e) : rw2.next_oid = .error e := by
  obtain ⟨ent, ht⟩ := top_isSome_of_has_next hn
  obtain ⟨he, p, hp, hps, hpl⟩ := (next_oid_error_iff ht e).mp h
  have ht2 : P.top rw2.pq = some ent := by rw [hsim.pq_eq]; exact ht
  refine (next_oid_error_iff ht2 e).mpr ⟨he, p, hp, fun hx => hps (hsim.seen_sub p hx), ?_⟩
  rw [hsim.repo_eq]
  exact hpl

/-- Over strictly decreasing times the printing loop prints the same from a state
and from a state that simulates it. -/
theorem print_loop_resume_sim {P : priority_queue} {repo : git_repository}
    (hstrict : time_strict repo) (fuel : Nat) :
    ∀ rw rw2 : revwalk P, frontier_stored repo rw → resume_sim repo rw rw2 →
      print_loop fuel rw2 = print_loop fuel rw := by
  induction fuel with
  | zero => intro rw rw2 _ _; rfl
  | succ f ih =>
    intro rw rw2 hst hsim
    have hnn : rw2.has_next = rw.has_next := by
      unfold revwalk.has_next
      rw [hsim.pq_eq]
    cases hn : rw.has_next with
    | false => rw [print_loop_done hn, print_loop_done (hnn.trans hn)]
    | true =>
      rcases ho : rw.next_oid with e | ⟨oid, rw1⟩
      · rw [print_loop_fail hn ho,
          print_loop_fail (hnn.trans hn) (resume_sim_next_oid_error hsim hn ho)]
      · obtain ⟨rw3, ho3, hsim3⟩ := resume_sim_next_oid hstrict hst hsim ho
        rw [print_loop_step hn ho, print_loop_step (hnn.trans hn) ho3,
          ih rw1 rw3 (frontier_stored_next_oid hst ho) hsim3, hsim.root_eq, hsim.offset_eq]

/-- Over strictly decreasing times, the walk resumed from the cursor of line `i`
prints exactly the lines of the original walk from line `i` on and ends with the
same status. -/
theorem walk_resume_tail (P : priority_queue) {repo : git_repository}
    {start_commit : git_commit}
    (hs : git_commit_lookup repo start_commit.id = some start_commit)
    (hstrict : time_strict repo) {fuel : Nat} {lines : List output_line} {status : Nat}
    (h : walk P repo fuel start_commit 0 = some (lines, status))
    {i : Nat} {l : output_line} (hl : lines[i]? = some l) :
    ∃ root_commit, git_commit_lookup repo l.cursor_root = some root_commit ∧
      ∀ fuel2, repo.length + 2 ≤ fuel2 →
        walk P repo fuel2 root_commit l.cursor_offset = some (lines.drop i, status) := by
  have h0 : walk P repo fuel start_commit 0 =
      print_loop fuel (revwalk.init P repo start_commit) := rfl
  rw [h0] at h
  obtain ⟨rwi, rwj, hski, hni, hoi, hroot, hoff⟩ := (print_loop_spec fuel _ lines status h).1 i l hl
  have hinv := resume_inv_skip_loop hstrict i _ rwi (resume_inv_init P hs) hski
  obtain ⟨cr, rw2, hlk, hskip, hn2, hsim⟩ := hinv.resume hni
  have htail := print_loop_skip i fuel _ lines status h
  rw [hski] at htail
  simp only at htail
  refine ⟨cr, by rw [hroot]; exact hlk, ?_⟩
  intro fuel2 hf
  rw [hoff, walk_of_skip_ok hskip, print_loop_resume_sim hstrict fuel2 rwi rw2 hinv.stored hsim]
  have hm := walk_measure_skip_loop _ _ rwi hski
  have hm0 := walk_measure_init P repo start_commit
  obtain ⟨ls, st, hp, -⟩ := print_loop_terminates fuel2 rwi (by omega)
  rw [hp, print_loop_fuel_unique hp htail]

/-- Strictly decreasing times along parent links exclude cycles. -/
theorem acyclic_of_time_strict {repo : git_repository} (hstrict : time_strict repo) :
    acyclic repo := by
  have hstep : ∀ o p, Relation.TransGen (is_parent repo) o p →
      ∀ co cp, git_commit_lookup repo o = some co → git_commit_lookup repo p = some cp →
        cp.time < co.time := by
    intro o p hop
    induction hop with
    | single h1 =>
      intro co cp hco hcp
      obtain ⟨c, hc, hp⟩ := h1
      rw [hco] at hc
      cases hc
      exact hstrict o co hco _ hp cp hcp
    | tail h1 h2 ih =>
      intro co cp hco hcp
      obtain ⟨c, hc, hp⟩ := h2
      exact lt_trans (hstrict _ c hc _ hp cp hcp) (ih co c hco hc)
  intro o ho
  have hfirst : ∃ co, git_commit_lookup repo o = some co := by
    obtain ⟨y, h3, -⟩ := Relation.TransGen.head'_iff.mp ho
    obtain ⟨c, hc, -⟩ := h3
    exact ⟨c, hc⟩
  obtain ⟨co, hco⟩ := hfirst
  exact lt_irrefl _ (hstep o o ho co co hco hco)
/-! ## The cursor root rolls forward -/

/-- After any successful advance that leaves the offset at 0, the queue is empty
or holds exactly the commit whose id is the cursor root. -/
theorem next_oid_offset_zero {P : priority_queue} {rw rw1 : revwalk P} {oid : git_oid}
    (h : rw.next_oid = .ok (oid, rw1)) (h0 : rw1.cursor_offset = 0) :
    P.entries rw1.pq = [] ∨ ∃ c, P.entries rw1.pq = [⟨c⟩] ∧ c.id = rw1.cursor_root := by
  obtain ⟨c, ht, -, hrule⟩ := next_oid_cursor_rule h
  by_cases hreset : c.parents.length = 1 ∧ P.entries (P.pop rw.pq) = []
  · obtain ⟨hlen, hnil⟩ := hreset
    obtain ⟨p, hp⟩ := List.length_eq_one.mp hlen
    have hq := entries_singleton_of_pop_nil ht hnil
    by_cases hps : p ∈ rw.seen
    · have h2 := next_oid_linear_seen hq hp hps
      rw [h] at h2
      simp only [Except.ok.injEq, Prod.mk.injEq] at h2
      obtain ⟨-, rfl⟩ := h2
      exact Or.inl P.entries_empty_queue
    · obtain ⟨c2, recs, ht2, -, -, -, -, hmem, hlk, -⟩ := next_oid_effect h
      rw [ht] at ht2
      cases ht2
      obtain ⟨cp, hcp, hcpid⟩ := List.mem_map.mp ((hmem p).mpr ⟨by rw [hp]; simp, hps⟩)
      have hl := hlk cp hcp
      rw [hcpid] at hl
      have h2 := next_oid_linear hq hp hps hl
      rw [h] at h2
      simp only [Except.ok.injEq, Prod.mk.injEq] at h2
      obtain ⟨-, rfl⟩ := h2
      exact Or.inr ⟨cp, entries_push_empty P _, hcpid⟩
  · have := (hrule.2 hreset).2
    omega

/-- In a reachable state with offset 0 and a non-empty queue, the queue holds
exactly the commit whose id is the cursor root. -/
theorem walk_state_offset_zero {P : priority_queue} {repo : git_repository}
    {start_commit : git_commit} {rw : revwalk P}
    (hw : walk_state P repo start_commit rw) (h0 : rw.cursor_offset = 0)
    (hn : rw.has_next = true) :
    ∃ c, P.entries rw.pq = [⟨c⟩] ∧ c.id = rw.cursor_root := by
  have hne := (has_next_iff rw).mp hn
  cases hw with
  | init => exact ⟨start_commit, entries_push_empty P _, rfl⟩
  | step _ ho =>
    rcases next_oid_offset_zero ho h0 with h1 | h1
    · exact absurd h1 hne
    · exact h1

theorem walk_state_skip_loop {P : priority_queue} {repo : git_repository}
    {start_commit : git_commit} (k : Nat) :
    ∀ rw rwk : revwalk P, walk_state P repo start_commit rw → skip_loop k rw = .ok rwk →
      walk_state P repo start_commit rwk := by
  induction k with
  | zero =>
    intro rw rwk hw h
    simp only [skip_loop, Except.ok.injEq] at h
    exact h ▸ hw
  | succ k ih =>
    intro rw rwk hw h
    cases hn : rw.has_next with
    | false =>
      rw [skip_loop_done hn] at h
      simp only [Except.ok.injEq] at h
      exact h ▸ hw
    | true =>
      rcases ho : rw.next_oid with e | ⟨oid, rw1⟩
      · rw [skip_loop_fail hn ho] at h
        cases h
      · rw [skip_loop_step hn ho] at h
        exact ih rw1 rwk (walk_state.step hw ho) h

/-- In a reachable state with offset 0, an advance returns the cursor root. -/
theorem walk_state_next_oid_root {P : priority_queue} {repo : git_repository}
    {start_commit : git_commit} {rw rw1 : revwalk P} {oid : git_oid}
    (hw : walk_state P repo start_commit rw) (h0 : rw.cursor_offset = 0)
    (ho : rw.next_oid = .ok (oid, rw1)) : oid = rw.cursor_root := by
  obtain ⟨c, hq, hid⟩ := walk_state_offset_zero hw h0 (has_next_of_next_oid ho)
  obtain ⟨ent, -, -, ht, -, hoid, -⟩ := next_oid_ok ho
  rw [top_of_entries_singleton hq] at ht
  cases ht
  rw [hoid, hid]

/-- Every line with offset 0 printed from a reachable state has its root equal to
its id. -/
theorem print_loop_offset_zero {P : priority_queue} {repo : git_repository}
    {start_commit : git_commit} (fuel : Nat) :
    ∀ (rw : revwalk P) (lines : List output_line) (status : Nat),
      walk_state P repo start_commit rw → print_loop fuel rw = some (lines, status) →
      ∀ l ∈ lines, l.cursor_offset = 0 → l.cursor_root = l.oid := by
  induction fuel with
  | zero => intro rw lines status _ h; simp [print_loop] at h
  | succ f ih =>
    intro rw lines status hw h l hl h0
    rcases lines with _ | ⟨a, ls⟩
    · simp at hl
    obtain ⟨f1, rw1, hf, hn, ho, hr, hoff, hrest⟩ := print_loop_cons h
    obtain rfl : f1 = f := by omega
    rcases List.mem_cons.mp hl with h1 | h1
    · subst h1
      rw [hr]
      exact (walk_state_next_oid_root hw (hoff ▸ h0) ho).symm
    · exact ih rw1 ls status (walk_state.step hw ho) hrest l h1 h0
/-! ## The seen set -/

theorem walk_state_of_trace {P : priority_queue} {repo : git_repository}
    {start_commit : git_commit} {emitted : List git_oid}
    {pushed : List revwalk_queue_entry} {rw : revwalk P}
    (h : walk_trace P repo start_commit emitted pushed rw) :
    walk_state P repo start_commit rw := by
  induction h with
  | init => exact walk_state.init
  | step _ ho _ _ ih => exact walk_state.step ih ho

/-- Every reachable state has a history. -/
theorem walk_trace_of_state {P : priority_queue} {repo : git_repository}
    {start_commit : git_commit} {rw : revwalk P}
    (h : walk_state P repo start_commit rw) :
    ∃ emitted pushed, walk_trace P repo start_commit emitted pushed rw := by
  induction h with
  | init => exact ⟨[], [], walk_trace.init⟩
  | step _ ho ih =>
    obtain ⟨emitted, pushed, ht⟩ := ih
    obtain ⟨c, recs, htop, -, -, hperm, -⟩ := next_oid_effect ho
    exact ⟨_, _, walk_trace.step ht ho htop hperm⟩

/-- The ids in `seen` are exactly the ids of the entries pushed by the advances. -/
theorem walk_trace_seen {P : priority_queue} {repo : git_repository}
    {start_commit : git_commit} {emitted : List git_oid}
    {pushed : List revwalk_queue_entry} {rw : revwalk P}
    (h : walk_trace P repo start_commit emitted pushed rw) :
    ∀ x, x ∈ rw.seen ↔ x ∈ pushed.map (fun e => e.commit.id) := by
  induction h with
  | init => intro x; simp [revwalk.init]
  | @step emitted pushed recs rw rw1 oid ent _ ho htop hperm ih =>
    intro x
    obtain ⟨c, recs0, htop0, -, -, hperm0, -, hmem, -, hseen⟩ := next_oid_effect ho
    rw [htop] at htop0
    cases htop0
    have hrecs : recs.Perm (recs0.map revwalk_queue_entry.mk) :=
      (List.perm_append_left_iff _).mp (hperm.symm.trans hperm0)
    have hx : x ∈ recs.map (fun e => e.commit.id) ↔ x ∈ recs0.map git_commit.id := by
      rw [(hrecs.map (fun e : revwalk_queue_entry => e.commit.id)).mem_iff, List.map_map]
      rfl
    rw [hseen x, List.map_append, List.mem_append, hx, hmem x, ih x]
    tauto

/-- The walk invariant holds along every history over an acyclic repository. -/
theorem walk_trace_inv {P : priority_queue} {repo : git_repository}
    {start_commit : git_commit}
    (hs : git_commit_lookup repo start_commit.id = some start_commit) (hac : acyclic repo)
    {emitted : List git_oid} {pushed : List revwalk_queue_entry} {rw : revwalk P}
    (h : walk_trace P repo start_commit emitted pushed rw) :
    walk_inv repo start_commit.id emitted rw := by
  induction h with
  | init => exact walk_inv_init P hs
  | step _ ho _ _ ih => exact walk_inv_next_oid hac ih ho
/-! ## Children before parents -/

theorem time_monotone_of_strict {repo : git_repository} (h : time_strict repo) :
    time_monotone repo :=
  fun o c hc p hp cp hcp => le_of_lt (h o c hc p hp cp hcp)

/-- In a list sorted in non-increasing order, an element at an earlier or equal
index is greater than or equal to one at a later index. -/
theorem sorted_ge_getElem? {l : List Int} (hs : l.Sorted (· ≥ ·)) {i j : Nat} {a b : Int}
    (hj : l[j]? = some a) (hi : l[i]? = some b) (hji : j ≤ i) : b ≤ a := by
  rcases Nat.eq_or_lt_of_le hji with h | h
  · subst h
    rw [hj] at hi
    cases hi
    exact le_rfl
  · obtain ⟨hjl, rfl⟩ := List.getElem?_eq_some.mp hj
    obtain ⟨hil, rfl⟩ := List.getElem?_eq_some.mp hi
    exact List.pairwise_iff_getElem.mp hs j i hjl hil h

/-- Over strictly decreasing times, a commit printed by a finished walk is printed
before any of its parents that is printed. -/
theorem walk_child_first (P : priority_queue) {repo : git_repository}
    {start_commit : git_commit}
    (hs : git_commit_lookup repo start_commit.id = some start_commit)
    (hstrict : time_strict repo) {fuel : Nat} {lines : List output_line} {status : Nat}
    (h : walk P repo fuel start_commit 0 = some (lines, status))
    {i j : Nat} {li lj : output_line} {ci : git_commit}
    (hli : lines[i]? = some li) (hlj : lines[j]? = some lj)
    (hci : git_commit_lookup repo li.oid = some ci) (hp : lj.oid ∈ ci.parents) : i < j := by
  have h0 : walk P repo fuel start_commit 0 =
      print_loop fuel (revwalk.init P repo start_commit) := rfl
  rw [h0] at h
  obtain ⟨recs, hids, hlk, hsorted, -⟩ :=
    print_loop_sorted (time_monotone_of_strict hstrict) fuel _ lines status
      (frontier_stored_init P hs) h
  have hrec : ∀ (k : Nat) (lk : output_line), lines[k]? = some lk →
      ∃ rk, recs[k]? = some rk ∧ git_commit_lookup repo lk.oid = some rk := by
    intro k lk hk
    have h1 : (recs.map git_commit.id)[k]? = some lk.oid := by
      rw [hids, List.getElem?_map, hk]
      rfl
    rw [List.getElem?_map] at h1
    rcases hr : recs[k]? with _ | rk
    · rw [hr] at h1; cases h1
    · rw [hr] at h1
      simp only [Option.map_some', Option.some.injEq] at h1
      refine ⟨rk, rfl, ?_⟩
      rw [← h1]
      exact hlk rk (List.mem_iff_getElem?.mpr ⟨k, hr⟩)
  obtain ⟨ri, hri, hri2⟩ := hrec i li hli
  obtain ⟨rj, hrj, hrj2⟩ := hrec j lj hlj
  rw [hci] at hri2
  cases hri2
  have hlt : rj.time < ci.time := hstrict li.oid ci hci lj.oid hp rj hrj2
  by_contra hij
  have hti : (recs.map git_commit.time)[i]? = some ci.time := by
    rw [List.getElem?_map, hri]; rfl
  have htj : (recs.map git_commit.time)[j]? = some rj.time := by
    rw [List.getElem?_map, hrj]; rfl
  have := sorted_ge_getElem? hsorted htj hti (by omega)
  omega
/-! ## Termination in the number of reachable ids -/

theorem push_parents_seen_nodup {P : priority_queue} (repo : git_repository)
    (ps : List git_oid) :
    ∀ (pq pq2 : P.Q) (seen seen2 : List git_oid),
      push_parents P repo ps pq seen = .ok (pq2, seen2) → seen.Nodup → seen2.Nodup := by
  induction ps with
  | nil =>
    intro pq pq2 seen seen2 h hnd
    simp only [push_parents_nil, Except.ok.injEq, Prod.mk.injEq] at h
    exact h.2 ▸ hnd
  | cons p ps ih =>
    intro pq pq2 seen seen2 h hnd
    by_cases hp : p ∈ seen
    · rw [push_parents_cons_seen repo ps pq hp] at h
      exact ih pq pq2 seen seen2 h hnd
    · rcases hl : git_commit_lookup repo p with _ | c
      · rw [push_parents_cons_missing ps pq hp hl] at h
        cases h
      · rw [push_parents_cons_found ps pq hp hl] at h
        exact ih _ pq2 _ seen2 h hnd.insert

/-- A successful advance keeps `seen` free of duplicates and adds to it, with
multiplicity, exactly the ids of the commits it pushes. -/
theorem next_oid_seen_perm {P : priority_queue} {repo : git_repository}
    {rw rw1 : revwalk P} {oid : git_oid} (hst : frontier_stored repo rw)
    (hnd : rw.seen.Nodup) (h : rw.next_oid = .ok (oid, rw1)) :
    rw1.seen.Nodup ∧
    ∃ c : git_commit, P.top rw.pq = some ⟨c⟩ ∧ c.id = oid ∧
      git_commit_lookup repo oid = some c ∧
      (∀ x, x ∈ rw1.seen ↔ x ∈ rw.seen ∨ x ∈ c.parents) ∧
      (oid :: frontier_ids rw1).Perm (frontier_ids rw ++ (rw1.seen.filter (· ∉ rw.seen))) := by
  obtain ⟨ent, pq2, seen2, ht0, hp, -, -, -, hseen2, -⟩ := next_oid_ok h
  have hnd1 : rw1.seen.Nodup := by
    rw [hseen2]
    exact push_parents_seen_nodup rw.repo _ _ _ _ _ hp hnd
  obtain ⟨c, recs, ht, hid, hlc, hperm, hrnd, hmem, -, hseen⟩ := next_oid_stored hst h
  refine ⟨hnd1, c, ht, hid, hlc, hseen, ?_⟩
  have hfp := frontier_ids_perm (P.top_mem _ _ ht) hperm
  rw [hid] at hfp
  refine hfp.trans (List.Perm.append_left _ ?_)
  rw [List.perm_ext_iff_of_nodup hrnd (hnd1.filter _)]
  intro x
  rw [hmem x, List.mem_filter, hseen x]
  simp only [decide_eq_true_eq]
  tauto

theorem count_inv_init (P : priority_queue) {repo : git_repository}
    {start_commit : git_commit}
    (hs : git_commit_lookup repo start_commit.id = some start_commit) :
    count_inv repo start_commit.id [] (revwalk.init P repo start_commit) := by
  have hf : frontier_ids (revwalk.init P repo start_commit) = [start_commit.id] := by
    unfold frontier_ids revwalk.init
    simp only [entries_push_empty, List.map_cons, List.map_nil]
  refine ⟨frontier_stored_init P hs, List.nodup_nil, ?_, ?_⟩
  · rw [hf]
    exact List.Perm.refl _
  · intro x hx
    simp [revwalk.init] at hx

theorem count_inv_next_oid {P : priority_queue} {repo : git_repository} {s : git_oid}
    {emitted : List git_oid} {rw rw1 : revwalk P} {oid : git_oid}
    (hinv : count_inv repo s emitted rw) (h : rw.next_oid = .ok (oid, rw1)) :
    count_inv repo s (emitted ++ [oid]) rw1 := by
  obtain ⟨hnd1, c, ht, hid, hlc, hseen, hfp⟩ :=
    next_oid_seen_perm hinv.stored hinv.seen_nodup h
  have hoid : reachable repo s oid := by
    have h1 : oid ∈ frontier_ids rw := by
      rw [← hid]
      exact List.mem_map_of_mem (fun e : revwalk_queue_entry => e.commit.id)
        (P.top_mem _ _ ht)
    have h2 : oid ∈ s :: rw.seen := hinv.perm.mem_iff.mp (List.mem_append_right _ h1)
    rcases List.mem_cons.mp h2 with h3 | h3
    · rw [h3]; exact Relation.ReflTransGen.refl
    · exact hinv.seen_reach oid h3
  refine ⟨frontier_stored_next_oid hinv.stored h, hnd1, ?_, ?_⟩
  · have h1 : ((emitted ++ [oid]) ++ frontier_ids rw1).Perm
        ((emitted ++ frontier_ids rw) ++ rw1.seen.filter (· ∉ rw.seen)) := by
      rw [List.append_assoc, List.append_assoc]
      exact List.Perm.append_left _ hfp
    refine h1.trans ((hinv.perm.append_right _).trans ?_)
    rw [List.cons_append]
    refine List.Perm.cons _ ?_
    rw [List.perm_ext_iff_of_nodup ?_ hnd1]
    · intro x
      rw [List.mem_append, List.mem_filter, hseen x]
      simp only [decide_eq_true_eq]
      tauto
    · refine List.Nodup.append hinv.seen_nodup (hnd1.filter _) ?_
      intro x hx1 hx2
      rw [List.mem_filter] at hx2
      simp only [decide_eq_true_eq] at hx2
      exact hx2.2 hx1
  · intro x hx
    rcases (hseen x).mp hx with h1 | h1
    · exact hinv.seen_reach x h1
    · exact Relation.ReflTransGen.tail hoid ⟨c, hlc, h1⟩

theorem print_loop_count_inv {P : priority_queue} {repo : git_repository} {s : git_oid}
    (fuel : Nat) :
    ∀ (rw : revwalk P) (emitted : List git_oid) (lines : List output_line) (status : Nat),
      count_inv repo s emitted rw → print_loop fuel rw = some (lines, status) →
      ∃ rwn : revwalk P, count_inv repo s (emitted ++ lines.map output_line.oid) rwn := by
  induction fuel with
  | zero => intro rw emitted lines status _ h; simp [print_loop] at h
  | succ f ih =>
    intro rw emitted lines status hinv h
    cases hn : rw.has_next with
    | false =>
      rw [print_loop_done hn] at h
      simp only [Option.some.injEq, Prod.mk.injEq] at h
      obtain ⟨rfl, rfl⟩ := h
      exact ⟨rw, by simpa using hinv⟩
    | true =>
      rcases ho : rw.next_oid with e | ⟨oid, rw1⟩
      · rw [print_loop_fail hn ho] at h
        simp only [Option.some.injEq, Prod.mk.injEq] at h
        obtain ⟨rfl, rfl⟩ := h
        exact ⟨rw, by simpa using hinv⟩
      · rw [print_loop_step hn ho] at h
        rcases hr : print_loop f rw1 with _ | ⟨ls, st⟩
        · rw [hr] at h; cases h
        · rw [hr] at h
          simp only [Option.map_some', Option.some.injEq, Prod.mk.injEq] at h
          obtain ⟨rfl, rfl⟩ := h
          obtain ⟨rwn, hn1⟩ := ih rw1 _ ls st (count_inv_next_oid hinv ho) hr
          exact ⟨rwn, by simpa using hn1⟩

/-- The ids reachable from `s` are `s` and parent ids of stored commits, hence
finitely many. -/
theorem reachable_finite (repo : git_repository) (s : git_oid) :
    {x | reachable repo s x}.Finite := by
  apply Set.Finite.subset
    (Finset.finite_toSet (insert s (repo.flatMap git_commit.parents).toFinset))
  intro x hx
  simp only [Finset.coe_insert, List.coe_toFinset, Set.mem_insert_iff, Set.mem_setOf_eq]
  cases hx with
  | refl => exact Or.inl rfl
  | tail _ h2 =>
    obtain ⟨c, hc, hp⟩ := h2
    exact Or.inr (List.mem_flatMap.mpr ⟨c, git_commit_lookup_mem hc, hp⟩)

/-- A printing loop that finished needs no more fuel than its number of lines
plus one. -/
theorem print_loop_min_fuel {P : priority_queue} (fuel : Nat) :
    ∀ (rw : revwalk P) (lines : List output_line) (status : Nat),
      print_loop fuel rw = some (lines, status) →
      print_loop (lines.length + 1) rw = some (lines, status) := by
  induction fuel with
  | zero => intro rw lines status h; simp [print_loop] at h
  | succ f ih =>
    intro rw lines status h
    cases hn : rw.has_next with
    | false =>
      rw [print_loop_done hn] at h ⊢
      exact h
    | true =>
      rcases ho : rw.next_oid with e | ⟨oid, rw1⟩
      · rw [print_loop_fail hn ho] at h ⊢
        exact h
      · rw [print_loop_step hn ho] at h
        rcases hr : print_loop f rw1 with _ | ⟨ls, st⟩
        · rw [hr] at h; cases h
        · rw [hr] at h
          simp only [Option.map_some', Option.some.injEq, Prod.mk.injEq] at h
          obtain ⟨rfl, rfl⟩ := h
          rw [List.length_cons, print_loop_step hn ho, ih rw1 ls st hr]
          rfl
/-- With the start commit and every parent stored, every reachable id is stored,
so there are at most `repo.length` reachable ids. -/
theorem reachable_ncard_le {repo : git_repository} {start_commit : git_commit}
    (hs : git_commit_lookup repo start_commit.id = some start_commit)
    (hps : parents_stored repo) :
    Set.ncard {x | reachable repo start_commit.id x} ≤ repo.length := by
  have hsub : {x | reachable repo start_commit.id x} ⊆
      ((repo.map git_commit.id).toFinset : Set git_oid) := by
    intro x hx
    have hne : git_commit_lookup repo x ≠ none := by
      cases hx with
      | refl => rw [hs]; simp
      | tail _ h2 =>
        obtain ⟨c, hc, hp⟩ := h2
        exact hps _ c hc x hp
    rcases hl : git_commit_lookup repo x with _ | cx
    · exact absurd hl hne
    · simp only [List.coe_toFinset, Set.mem_setOf_eq, List.mem_map]
      exact ⟨cx, git_commit_lookup_mem hl, git_commit_lookup_id hl⟩
  refine (Set.ncard_le_ncard hsub (Finset.finite_toSet _)).trans ?_
  rw [Set.ncard_coe_Finset]
  exact (List.toFinset_card_le _).trans (by simp)

/-- The number of lines of a finished walk is at most the number of reachable ids
plus one, and no id other than the start's is printed twice. -/
theorem walk_length_le (P : priority_queue) {repo : git_repository}
    {start_commit : git_commit}
    (hs : git_commit_lookup repo start_commit.id = some start_commit)
    {fuel : Nat} {lines : List output_line} {status : Nat}
    (h : walk P repo fuel start_commit 0 = some (lines, status)) :
    lines.length ≤ Set.ncard {x | reachable repo start_commit.id x} + 1 ∧
    (∀ x, x ≠ start_commit.id → (lines.map output_line.oid).count x ≤ 1) ∧
    (lines.map output_line.oid).count start_commit.id ≤ 2 := by
  have h0 : walk P repo fuel start_commit 0 =
      print_loop fuel (revwalk.init P repo start_commit) := rfl
  rw [h0] at h
  obtain ⟨rwn, hinv⟩ := print_loop_count_inv fuel _ [] lines status (count_inv_init P hs) h
  rw [List.nil_append] at hinv
  have hcount : ∀ x, (lines.map output_line.oid).count x ≤
      (start_commit.id :: rwn.seen).count x := by
    intro x
    rw [← hinv.perm.count_eq x, List.count_append]
    omega
  have hseen : ∀ x, rwn.seen.count x ≤ 1 := fun x =>
    List.nodup_iff_count_le_one.mp hinv.seen_nodup x
  refine ⟨?_, ?_, ?_⟩
  · have hlen : lines.length ≤ rwn.seen.length + 1 := by
      have := hinv.perm.length_eq
      simp only [List.length_append, List.length_map, List.length_cons] at this
      omega
    have hsub : (rwn.seen.toFinset : Set git_oid) ⊆ {x | reachable repo start_commit.id x} := by
      intro x hx
      simp only [List.coe_toFinset, Set.mem_setOf_eq] at hx
      exact hinv.seen_reach x hx
    have hcard := Set.ncard_le_ncard hsub (reachable_finite repo start_commit.id)
    rw [Set.ncard_coe_Finset, List.toFinset_card_of_nodup hinv.seen_nodup] at hcard
    omega
  · intro x hx
    have := hcount x
    rw [List.count_cons_of_ne hx] at this
    exact this.trans (hseen x)
  · have := hcount start_commit.id
    rw [List.count_cons_self] at this
    have := hseen start_commit.id
    omega
/-! ## Dependence on the reachable history only -/

/-- An advance over another repository that agrees on the unseen parents of the
top commit has the same outcome. -/
theorem next_oid_repo_congr {P : priority_queue} (rw : revwalk P) (repo2 : git_repository)
    (hagree : ∀ ent, P.top rw.pq = some ent → ∀ p ∈ ent.commit.parents, p ∉ rw.seen →
      git_commit_lookup repo2 p = git_commit_lookup rw.repo p) :
    revwalk.next_oid { rw with repo := repo2 } =
      match rw.next_oid with
      | .error e => .error e
      | .ok (oid, rw1) => .ok (oid, { rw1 with repo := repo2 }) := by
  rcases ht : P.top rw.pq with _ | ent
  · unfold revwalk.next_oid
    simp only [ht]
  · have ht2 : P.top (revwalk.pq { rw with repo := repo2 }) = some ent := ht
    rw [next_oid_of_top ht, next_oid_of_top ht2]
    simp only
    rw [push_parents_congr rw.repo repo2 ent.commit.parents (P.pop rw.pq) rw.seen
      (hagree ent ht)]
    rcases push_parents P rw.repo ent.commit.parents (P.pop rw.pq) rw.seen
      with e | ⟨pq2, seen2⟩
    · rfl
    · rfl

/-- Every queued commit is stored in `repo` under an id reachable from `s`. -/
theorem frontier_reachable_next_oid {P : priority_queue} {repo : git_repository}
    {s : git_oid} {rw rw1 : revwalk P} {oid : git_oid} (hst : frontier_stored repo rw)
    (hr : ∀ e ∈ P.entries rw.pq, reachable repo s e.commit.id)
    (h : rw.next_oid = .ok (oid, rw1)) :
    ∀ e ∈ P.entries rw1.pq, reachable repo s e.commit.id := by
  obtain ⟨c, recs, ht, hid, hlc, hperm, -, hmem, -, -⟩ := next_oid_stored hst h
  intro e he
  rcases List.mem_append.mp (hperm.mem_iff.mp he) with h1 | h1
  · exact hr e (List.mem_of_mem_erase h1)
  · obtain ⟨r, hr1, rfl⟩ := List.mem_map.mp h1
    have hp := ((hmem r.id).mp (List.mem_map_of_mem _ hr1)).1
    have hc := hr ⟨c⟩ (P.top_mem _ _ ht)
    simp only [hid] at hc
    exact Relation.ReflTransGen.tail hc ⟨c, hlc, hp⟩

/-- The agreement needed by `next_oid_repo_congr`, from agreement on the reachable
ids. -/
theorem agree_on_top {P : priority_queue} {repo repo2 : git_repository} {s : git_oid}
    {rw : revwalk P} (hst : frontier_stored repo rw)
    (hr : ∀ e ∈ P.entries rw.pq, reachable repo s e.commit.id)
    (hagree : ∀ x, reachable repo s x → git_commit_lookup repo2 x = git_commit_lookup repo x) :
    ∀ ent, P.top rw.pq = some ent → ∀ p ∈ ent.commit.parents, p ∉ rw.seen →
      git_commit_lookup repo2 p = git_commit_lookup rw.repo p := by
  intro ent ht p hp _
  have hmem := P.top_mem _ _ ht
  rw [hst.1]
  exact hagree p (Relation.ReflTransGen.tail (hr ent hmem) ⟨ent.commit, hst.2 ent hmem, hp⟩)

theorem print_loop_repo_congr {P : priority_queue} {repo repo2 : git_repository}
    {s : git_oid}
    (hagree : ∀ x, reachable repo s x → git_commit_lookup repo2 x = git_commit_lookup repo x)
    (fuel : Nat) :
    ∀ rw : revwalk P, frontier_stored repo rw →
      (∀ e ∈ P.entries rw.pq, reachable repo s e.commit.id) →
      print_loop fuel { rw with repo := repo2 } = print_loop fuel rw := by
  induction fuel with
  | zero => intro rw _ _; rfl
  | succ f ih =>
    intro rw hst hr
    have hnn : revwalk.has_next { rw with repo := repo2 } = rw.has_next := rfl
    have hstep := next_oid_repo_congr rw repo2 (agree_on_top hst hr hagree)
    cases hn : rw.has_next with
    | false => rw [print_loop_done hn, print_loop_done (hnn.trans hn)]
    | true =>
      rcases ho : rw.next_oid with e | ⟨oid, rw1⟩
      · rw [ho] at hstep
        rw [print_loop_fail hn ho, print_loop_fail (hnn.trans hn) hstep]
      · rw [ho] at hstep
        rw [print_loop_step hn ho, print_loop_step (hnn.trans hn) hstep,
          ih rw1 (frontier_stored_next_oid hst ho) (frontier_reachable_next_oid hst hr ho)]

theorem skip_then_print_repo_congr {P : priority_queue} {repo repo2 : git_repository}
    {s : git_oid}
    (hagree : ∀ x, reachable repo s x → git_commit_lookup repo2 x = git_commit_lookup repo x)
    (fuel : Nat) (k : Nat) :
    ∀ rw : revwalk P, frontier_stored repo rw →
      (∀ e ∈ P.entries rw.pq, reachable repo s e.commit.id) →
      (match skip_loop k { rw with repo := repo2 } with
        | .error _ => some ([], 1)
        | .ok r => print_loop fuel r) =
      (match skip_loop k rw with
        | .error _ => some ([], 1)
        | .ok r => print_loop fuel r) := by
  induction k with
  | zero =>
    intro rw hst hr
    simp only [skip_loop]
    exact print_loop_repo_congr hagree fuel rw hst hr
  | succ k ih =>
    intro rw hst hr
    have hnn : revwalk.has_next { rw with repo := repo2 } = rw.has_next := rfl
    have hstep := next_oid_repo_congr rw repo2 (agree_on_top hst hr hagree)
    cases hn : rw.has_next with
    | false =>
      rw [skip_loop_done hn, skip_loop_done (hnn.trans hn)]
      exact print_loop_repo_congr hagree fuel rw hst hr
    | true =>
      rcases ho : rw.next_oid with e | ⟨oid, rw1⟩
      · rw [ho] at hstep
        rw [skip_loop_fail hn ho, skip_loop_fail (hnn.trans hn) hstep]
      · rw [ho] at hstep
        rw [skip_loop_step hn ho, skip_loop_step (hnn.trans hn) hstep]
        exact ih rw1 (frontier_stored_next_oid hst ho) (frontier_reachable_next_oid hst hr ho)

/-- Walks over two repositories that agree on the ids reachable from the start
have the same result. -/
theorem walk_repo_congr (P : priority_queue) {repo repo2 : git_repository}
    {start_commit : git_commit}
    (hs : git_commit_lookup repo start_commit.id = some start_commit)
    (hagree : ∀ x, reachable repo start_commit.id x →
      git_commit_lookup repo2 x = git_commit_lookup repo x)
    (fuel skip : Nat) :
    walk P repo2 fuel start_commit skip = walk P repo fuel start_commit skip := by
  have hst := frontier_stored_init P hs
  have hr : ∀ e ∈ P.entries (revwalk.init P repo start_commit).pq,
      reachable repo start_commit.id e.commit.id := by
    intro e he
    change e ∈ P.entries (P.push P.empty_queue ⟨start_commit⟩) at he
    rw [entries_push_empty, List.mem_singleton] at he
    rw [he]
    exact Relation.ReflTransGen.refl
  exact skip_then_print_repo_congr hagree fuel skip _ hst hr

/-- The walk with any skip count finishes with fuel `repo.length + 2`. -/
theorem walk_skip_terminates (P : priority_queue) (repo : git_repository)
    (start_commit : git_commit) (fuel : Nat) (hf : repo.length + 2 ≤ fuel) (skip : Nat) :
    ∃ lines status, walk P repo fuel start_commit skip = some (lines, status) := by
  obtain ⟨lines, status, h, -⟩ := walk_terminates P repo start_commit fuel hf
  have h0 : walk P repo fuel start_commit 0 =
      print_loop fuel (revwalk.init P repo start_commit) := rfl
  rw [h0] at h
  exact ⟨lines.drop skip, status, print_loop_skip skip fuel _ lines status h⟩
theorem diamond_reachable_mem {x : git_oid}
    (h : reachable (diamond_repo 40 30 20 10) 4 x) : x ∈ [4, 2, 3, 1] := by
  induction h with
  | refl => simp
  | tail _ h2 ih =>
    obtain ⟨c, hc, hp⟩ := h2
    simp only [List.mem_cons, List.mem_singleton, List.not_mem_nil, or_false] at ih
    rcases ih with rfl | rfl | rfl | rfl
    · have : c = ⟨4, 40, [2, 3]⟩ := (Option.some.inj hc).symm
      subst this
      simp at hp
      rcases hp with rfl | rfl <;> simp
    · have : c = ⟨2, 30, [1]⟩ := (Option.some.inj hc).symm
      subst this
      simp at hp
      subst hp
      simp
    · have : c = ⟨3, 20, [1]⟩ := (Option.some.inj hc).symm
      subst this
      simp at hp
      subst hp
      simp
    · have : c = ⟨1, 10, []⟩ := (Option.some.inj hc).symm
      subst this
      simp at hp

theorem diamond_extended_agree (x : git_oid)
    (h : reachable (diamond_repo 40 30 20 10) (diamond_tip 40).id x) :
    git_commit_lookup diamond_extended_repo x =
      git_commit_lookup (diamond_repo 40 30 20 10) x := by
  have := diamond_reachable_mem h
  simp only [List.mem_cons, List.mem_singleton, List.not_mem_nil, or_false] at this
  rcases this with rfl | rfl | rfl | rfl <;> rfl

/-! ## The claims -/

/-- C1: cursor update rule of `next_oid`.  Whenever `next_oid` returns, it returns
the id of the popped commit `c` (the top of the queue), and the cursor afterwards
follows `cursor_rule`: if `c` has exactly one parent and the queue is empty after
the pop, the cursor is (`c.parents[0]`, 0); in every other case the root is
unchanged and the offset is the old offset plus 1.  Hence any two consecutive
printed lines are related by this rule applied to the commit printed on the first
of them, in the walker state reached after as many advances as lines precede it. -/
theorem cursor_update_rule (P : priority_queue) :
    (∀ (rw rw1 : revwalk P) (oid : git_oid), rw.next_oid = .ok (oid, rw1) →
      ∃ c, P.top rw.pq = some ⟨c⟩ ∧ oid = c.id ∧
        cursor_rule c (P.entries (P.pop rw.pq)) rw.cursor_root rw.cursor_offset
          rw1.cursor_root rw1.cursor_offset) ∧
    (∀ (fuel : Nat) (rw : revwalk P) (lines : List output_line) (status : Nat),
      print_loop fuel rw = some (lines, status) →
      ∀ (i : Nat) (l1 l2 : output_line), lines[i]? = some l1 → lines[i + 1]? = some l2 →
      ∃ (rwi rwj : revwalk P) (c : git_commit),
        skip_loop i rw = .ok rwi ∧ P.top rwi.pq = some ⟨c⟩ ∧
        rwi.next_oid = .ok (c.id, rwj) ∧
        l1 = ⟨rwi.cursor_root, rwi.cursor_offset, c.id⟩ ∧
        l2.cursor_root = rwj.cursor_root ∧ l2.cursor_offset = rwj.cursor_offset ∧
        cursor_rule c (P.entries (P.pop rwi.pq)) l1.cursor_root l1.cursor_offset
          l2.cursor_root l2.cursor_offset) :=
  ⟨fun _ _ _ h => next_oid_cursor_rule h, fun fuel => print_loop_consecutive fuel⟩

/-- C1 at a concrete input: the first advance on `chain_repo` pops commit 4, whose
only parent is 3, and leaves the queue empty, so the cursor becomes (3, 0); and
the first two printed lines are related by the rule. -/
theorem cursor_update_rule_witness :
    (∃ c, list_queue.top chain_start.pq = some ⟨c⟩ ∧
      4 = c.id ∧
      cursor_rule c (list_queue.entries
        (list_queue.pop chain_start.pq)) 4 0 3 0) ∧
    (∃ (rwi rwj : revwalk list_queue) (c : git_commit),
        skip_loop 0 chain_start = .ok rwi ∧
        list_queue.top rwi.pq = some ⟨c⟩ ∧
        rwi.next_oid = .ok (c.id, rwj) ∧
        (⟨4, 0, 4⟩ : output_line) = ⟨rwi.cursor_root, rwi.cursor_offset, c.id⟩ ∧
        (3 : git_oid) = rwj.cursor_root ∧ (0 : Nat) = rwj.cursor_offset ∧
        cursor_rule c (list_queue.entries (list_queue.pop rwi.pq)) 4 0 3 0) :=
  ⟨(cursor_update_rule list_queue).1 chain_start
      ⟨chain_repo, [⟨⟨3, 30, [2]⟩⟩], [3], 3, 0⟩ 4 rfl,
   (cursor_update_rule list_queue).2 5 chain_start
      [⟨4, 0, 4⟩, ⟨3, 0, 3⟩, ⟨2, 0, 2⟩, ⟨1, 0, 1⟩] 0 rfl 0 ⟨4, 0, 4⟩ ⟨3, 0, 3⟩ rfl rfl⟩

/-- C2 as stated fails.  Over `chain_repo` the walk from commit 4 prints the line
(4, 0, 4) followed by the line of commit 3; the commit stored under the root 4 is
the start itself, and no finished walk from it with 0 emissions discarded emits
commit 3 first: it emits commit 4, the commit of the recorded line.  Over
`inverted_repo`, where a parent is later than its child, the walk prints
(2, 1, 1) last, and the walk from commit 2 with 1 emission discarded emits commit
4 first; the same happens over `flat_repo`, where all times are equal. -/
theorem resume_contract_counterexample :
    (walk list_queue chain_repo 6 chain_tip 0 =
        some ([⟨4, 0, 4⟩, ⟨3, 0, 3⟩, ⟨2, 0, 2⟩, ⟨1, 0, 1⟩], 0) ∧
      git_commit_lookup chain_repo 4 = some chain_tip ∧
      ¬ ∃ (fuel : Nat) (lines2 : List output_line) (status2 : Nat) (l2 : output_line),
        walk list_queue chain_repo fuel chain_tip 0 = some (lines2, status2) ∧
        lines2.head? = some l2 ∧ l2.oid = 3) ∧
    (walk list_queue inverted_repo 7 inverted_tip 0 =
        some ([⟨5, 0, 5⟩, ⟨5, 1, 4⟩, ⟨5, 2, 3⟩, ⟨2, 0, 2⟩, ⟨2, 1, 1⟩], 0) ∧
      git_commit_lookup inverted_repo 2 = some ⟨2, 7, [4, 1]⟩ ∧
      walk list_queue inverted_repo 7 ⟨2, 7, [4, 1]⟩ 1 = some ([⟨2, 1, 4⟩, ⟨2, 2, 1⟩], 0)) ∧
    (time_monotone flat_repo ∧
      walk list_queue flat_repo 7 flat_tip 0 =
        some ([⟨5, 0, 5⟩, ⟨5, 1, 4⟩, ⟨5, 2, 3⟩, ⟨2, 0, 2⟩, ⟨2, 1, 1⟩], 0) ∧
      git_commit_lookup flat_repo 2 = some ⟨2, 0, [4, 1]⟩ ∧
      walk list_queue flat_repo 7 ⟨2, 0, [4, 1]⟩ 1 = some ([⟨2, 1, 4⟩, ⟨2, 2, 1⟩], 0)) := by
  refine ⟨⟨rfl, rfl, ?_⟩, ⟨rfl, rfl, rfl⟩, time_monotone_of_mem (by decide), rfl, rfl, rfl⟩
  rintro ⟨fuel, lines2, status2, l2, h, hhead, hoid⟩
  have h6 : walk list_queue chain_repo 6 chain_tip 0 =
      some ([⟨4, 0, 4⟩, ⟨3, 0, 3⟩, ⟨2, 0, 2⟩, ⟨1, 0, 1⟩], 0) := rfl
  have := walk_fuel_unique h h6
  simp only [Prod.mk.injEq] at this
  rw [this.1] at hhead
  simp only [List.head?_cons, Option.some.injEq] at hhead
  rw [← hhead] at hoid
  revert hoid
  decide

/-- C2, amended: over a repository in which every stored parent has a committer
time strictly less than its child's, for every line (root, offset, X) printed by
a finished walk from a stored start commit, the repository stores a commit under
`root`, and the walk started at that commit that first discards `offset`
emissions finishes (with fuel `repo.length + 2` or more) and prints the very line
(root, offset, X) first: the first commit it emits is X itself. -/
theorem resume_contract (P : priority_queue) (repo : git_repository)
    (start_commit : git_commit)
    (hs : git_commit_lookup repo start_commit.id = some start_commit)
    (hstrict : time_strict repo) (fuel : Nat) (lines : List output_line) (status : Nat)
    (h : walk P repo fuel start_commit 0 = some (lines, status))
    (i : Nat) (l : output_line) (hl : lines[i]? = some l) :
    ∃ root_commit, git_commit_lookup repo l.cursor_root = some root_commit ∧
      ∀ fuel2, repo.length + 2 ≤ fuel2 →
        ∃ lines2 status2,
          walk P repo fuel2 root_commit l.cursor_offset = some (lines2, status2) ∧
          lines2.head? = some l :=
  walk_resume_head P hs hstrict h hl

/-- C2, amended, at a concrete input: the third line, (4, 2, 3), of the walk over
the diamond with times 40, 30, 20, 10. -/
theorem resume_contract_witness :
    git_commit_lookup (diamond_repo 40 30 20 10) (diamond_tip 40).id = some (diamond_tip 40) ∧
    time_strict (diamond_repo 40 30 20 10) ∧
    walk list_queue (diamond_repo 40 30 20 10) 6 (diamond_tip 40) 0 =
      some ([⟨4, 0, 4⟩, ⟨4, 1, 2⟩, ⟨4, 2, 3⟩, ⟨4, 3, 1⟩], 0) ∧
    ∃ root_commit,
      git_commit_lookup (diamond_repo 40 30 20 10) 4 = some root_commit ∧
      ∀ fuel2, (diamond_repo 40 30 20 10).length + 2 ≤ fuel2 →
        ∃ lines2 status2,
          walk list_queue (diamond_repo 40 30 20 10) fuel2 root_commit 2 =
            some (lines2, status2) ∧
          lines2.head? = some ⟨4, 2, 3⟩ :=
  ⟨rfl, diamond_time_strict, rfl,
   resume_contract list_queue (diamond_repo 40 30 20 10) (diamond_tip 40) rfl
     diamond_time_strict 6 [⟨4, 0, 4⟩, ⟨4, 1, 2⟩, ⟨4, 2, 3⟩, ⟨4, 3, 1⟩] 0 rfl 2 ⟨4, 2, 3⟩ rfl⟩

/-- C3: no duplicate emission.  Over an acyclic repository, from a start commit
the repository stores, the ids printed by any finished walk are pairwise
different; when moreover every parent is stored, the walk with fuel
`repo.length + 2` or more finishes with status 0 (the queue exhausted).  In
particular, over the diamond in which 4 has the parents 2 and 3 and both have the
single parent 1, the walk from 4 emits 1 exactly once, for every assignment of
committer times and every tie-break of the queue. -/
theorem no_duplicate_emission (P : priority_queue) :
    (∀ (repo : git_repository) (start_commit : git_commit),
      git_commit_lookup repo start_commit.id = some start_commit → acyclic repo →
      (∀ fuel lines status, walk P repo fuel start_commit 0 = some (lines, status) →
        (lines.map output_line.oid).Nodup) ∧
      (parents_stored repo → ∀ fuel, repo.length + 2 ≤ fuel →
        ∃ lines, walk P repo fuel start_commit 0 = some (lines, 0) ∧
          (lines.map output_line.oid).Nodup)) ∧
    (∀ (tD tB tC tA : Int) (fuel : Nat), 6 ≤ fuel →
      ∃ lines, walk P (diamond_repo tD tB tC tA) fuel (diamond_tip tD) 0 = some (lines, 0) ∧
        (lines.map output_line.oid).count 1 = 1) := by
  refine ⟨?_, ?_⟩
  · intro repo start_commit hs hac
    refine ⟨fun fuel lines status h => walk_nodup P hs hac h, ?_⟩
    intro hps fuel hf
    obtain ⟨lines, h, hnd, -⟩ := walk_complete P hs hac hps fuel hf
    exact ⟨lines, h, hnd⟩
  · intro tD tB tC tA fuel hf
    obtain ⟨lines, h, hnd, hmem⟩ :=
      walk_complete P (diamond_lookup_tip tD tB tC tA) (diamond_acyclic tD tB tC tA)
        (diamond_parents_stored tD tB tC tA) fuel (by simpa [diamond_repo] using hf)
    exact ⟨lines, h, List.count_eq_one_of_mem hnd ((hmem 1).mpr (diamond_reachable tD tB tC tA))⟩

/-- C3 at concrete inputs: the walk over `chain_repo`, and the walk over the
diamond with equal committer times on its two branches. -/
theorem no_duplicate_emission_witness :
    (∃ lines, walk list_queue chain_repo 6 chain_tip 0 = some (lines, 0) ∧
      (lines.map output_line.oid).Nodup) ∧
    (∃ lines, walk list_queue (diamond_repo 40 30 30 10) 6 (diamond_tip 40) 0 =
        some (lines, 0) ∧ (lines.map output_line.oid).count 1 = 1) :=
  ⟨((no_duplicate_emission list_queue).1 chain_repo chain_tip rfl chain_acyclic).2
      chain_parents_stored 6 (by decide),
   (no_duplicate_emission list_queue).2 40 30 30 10 6 (by decide)⟩

/-- C4: coverage.  Over an acyclic repository in which every parent is stored,
from a start commit the repository stores, the walk with fuel `repo.length + 2`
or more runs to exhaustion (status 0); the ids it emits are exactly the ids
reachable from the start through parent links, the start included; and the number
of emissions is the number of reachable ids. -/
theorem coverage (P : priority_queue) (repo : git_repository) (start_commit : git_commit)
    (hs : git_commit_lookup repo start_commit.id = some start_commit)
    (hac : acyclic repo) (hps : parents_stored repo) (fuel : Nat)
    (hf : repo.length + 2 ≤ fuel) :
    ∃ lines, walk P repo fuel start_commit 0 = some (lines, 0) ∧
      (∀ x, x ∈ lines.map output_line.oid ↔ reachable repo start_commit.id x) ∧
      lines.length = Set.ncard {x | reachable repo start_commit.id x} := by
  obtain ⟨lines, h, hnd, hmem⟩ := walk_complete P hs hac hps fuel hf
  refine ⟨lines, h, hmem, ?_⟩
  have hset : {x | reachable repo start_commit.id x} =
      ((lines.map output_line.oid).toFinset : Set git_oid) := by
    ext x
    simp only [Set.mem_setOf_eq, List.coe_toFinset]
    exact (hmem x).symm
  rw [hset, Set.ncard_coe_Finset, List.toFinset_card_of_nodup hnd, List.length_map]

/-- C4 at a concrete input: the diamond with times 40, 30, 20, 10. -/
theorem coverage_witness :
    ∃ lines, walk list_queue (diamond_repo 40 30 20 10) 6 (diamond_tip 40) 0 =
        some (lines, 0) ∧
      (∀ x, x ∈ lines.map output_line.oid ↔
        reachable (diamond_repo 40 30 20 10) (diamond_tip 40).id x) ∧
      lines.length = Set.ncard {x | reachable (diamond_repo 40 30 20 10) (diamond_tip 40).id x} :=
  coverage list_queue (diamond_repo 40 30 20 10) (diamond_tip 40) rfl
    (diamond_acyclic 40 30 20 10) (diamond_parents_stored 40 30 20 10) 6 (by decide)

/-- C5 as stated fails: `skewed_repo` is finite and acyclic; the walk from commit 2
emits commit 2, of time 10, and then its parent 1, of time 20, so the committer
times of the emitted commits are not non-increasing. -/
theorem emission_order_counterexample :
    acyclic skewed_repo ∧
    walk list_queue skewed_repo 4 skewed_tip 0 = some ([⟨2, 0, 2⟩, ⟨1, 0, 1⟩], 0) ∧
    ¬ ∃ recs : List git_commit,
      recs.map git_commit.id =
        ([⟨2, 0, 2⟩, ⟨1, 0, 1⟩] : List output_line).map output_line.oid ∧
      (∀ r ∈ recs, git_commit_lookup skewed_repo r.id = some r) ∧
      (recs.map git_commit.time).Sorted (· ≥ ·) := by
  refine ⟨acyclic_of_rank id (by decide), rfl, ?_⟩
  rintro ⟨recs, hids, hlk, hsorted⟩
  rcases recs with _ | ⟨r1, _ | ⟨r2, _ | ⟨r3, rest⟩⟩⟩
  · simp at hids
  · simp at hids
  · simp only [List.map_cons, List.map_nil, List.cons.injEq, and_true] at hids
    have h1 := hlk r1 (by simp)
    have h2 := hlk r2 (by simp)
    rw [hids.1] at h1
    rw [hids.2] at h2
    have e1 : r1 = ⟨2, 10, [1]⟩ := (Option.some.inj h1).symm
    have e2 : r2 = ⟨1, 20, []⟩ := (Option.some.inj h2).symm
    subst e1 e2
    revert hsorted
    decide
  · simp at hids

/-- C5, amended: over a repository in which every stored parent has a committer
time less than or equal to its child's, from a start commit the repository stores,
the walk with fuel `repo.length + 2` or more finishes, and the commits emitted by
any finished walk, which are the commits stored under the printed ids, have
committer times that are non-increasing in emission order. -/
theorem emission_order (P : priority_queue) (repo : git_repository)
    (start_commit : git_commit)
    (hs : git_commit_lookup repo start_commit.id = some start_commit)
    (hmono : time_monotone repo) :
    (∀ fuel, repo.length + 2 ≤ fuel →
      ∃ lines status, walk P repo fuel start_commit 0 = some (lines, status)) ∧
    (∀ fuel lines status, walk P repo fuel start_commit 0 = some (lines, status) →
      ∃ recs : List git_commit,
        recs.map git_commit.id = lines.map output_line.oid ∧
        (∀ r ∈ recs, git_commit_lookup repo r.id = some r) ∧
        (recs.map git_commit.time).Sorted (· ≥ ·)) := by
  refine ⟨?_, ?_⟩
  · intro fuel hf
    obtain ⟨lines, status, h, -⟩ := walk_terminates P repo start_commit fuel hf
    exact ⟨lines, status, h⟩
  · intro fuel lines status h
    have h0 : walk P repo fuel start_commit 0 =
        print_loop fuel (revwalk.init P repo start_commit) := rfl
    rw [h0] at h
    obtain ⟨recs, h1, h2, h3, -⟩ :=
      print_loop_sorted hmono fuel _ lines status (frontier_stored_init P hs) h
    exact ⟨recs, h1, h2, h3⟩

/-- C5, amended, at a concrete input: the diamond with times 40, 30, 20, 10. -/
theorem emission_order_witness :
    git_commit_lookup (diamond_repo 40 30 20 10) (diamond_tip 40).id = some (diamond_tip 40) ∧
    time_monotone (diamond_repo 40 30 20 10) ∧
    ∃ recs : List git_commit,
      recs.map git_commit.id =
        ([⟨4, 0, 4⟩, ⟨4, 1, 2⟩, ⟨4, 2, 3⟩, ⟨4, 3, 1⟩] : List output_line).map output_line.oid ∧
      (∀ r ∈ recs, git_commit_lookup (diamond_repo 40 30 20 10) r.id = some r) ∧
      (recs.map git_commit.time).Sorted (· ≥ ·) :=
  ⟨rfl, diamond_time_monotone,
   (emission_order list_queue (diamond_repo 40 30 20 10) (diamond_tip 40) rfl
      diamond_time_monotone).2 6 [⟨4, 0, 4⟩, ⟨4, 1, 2⟩, ⟨4, 2, 3⟩, ⟨4, 3, 1⟩] 0 rfl⟩

/-- C6: skip correctness.  For every repository, start commit and skip count `k`:
with fuel `repo.length + 2` or more the unskipped walk finishes, and whenever the
unskipped walk finishes with the lines `lines` and a status, the walk with skip
count `k` finishes with exactly `lines` without its first `k` lines (each with the
same cursor root, cursor offset and id) and the same status; in particular, when
`k` is at least the number of lines, it prints nothing, and it completes with
status 0 whenever the unskipped walk does, which is the case when the start commit
and every parent are stored. -/
theorem skip_correctness (P : priority_queue) (repo : git_repository)
    (start_commit : git_commit) (k : Nat) :
    (∀ fuel, repo.length + 2 ≤ fuel →
      ∃ lines status, walk P repo fuel start_commit 0 = some (lines, status) ∧
        walk P repo fuel start_commit k = some (lines.drop k, status)) ∧
    (∀ fuel lines status, walk P repo fuel start_commit 0 = some (lines, status) →
      walk P repo fuel start_commit k = some (lines.drop k, status) ∧
      (lines.length ≤ k → walk P repo fuel start_commit k = some ([], status))) ∧
    (git_commit_lookup repo start_commit.id = some start_commit → parents_stored repo →
      ∀ fuel, repo.length + 2 ≤ fuel →
      ∃ lines, walk P repo fuel start_commit 0 = some (lines, 0) ∧
        walk P repo fuel start_commit k = some (lines.drop k, 0) ∧
        (lines.length ≤ k → walk P repo fuel start_commit k = some ([], 0))) := by
  have h0 : ∀ fuel, walk P repo fuel start_commit 0 =
      print_loop fuel (revwalk.init P repo start_commit) := fun _ => rfl
  have key : ∀ fuel lines status, walk P repo fuel start_commit 0 = some (lines, status) →
      walk P repo fuel start_commit k = some (lines.drop k, status) := by
    intro fuel lines status h
    rw [h0] at h
    exact print_loop_skip k fuel _ lines status h
  refine ⟨?_, ?_, ?_⟩
  · intro fuel hf
    obtain ⟨lines, status, h, -⟩ := walk_terminates P repo start_commit fuel hf
    exact ⟨lines, status, h, key fuel lines status h⟩
  · intro fuel lines status h
    refine ⟨key fuel lines status h, ?_⟩
    intro hk
    rw [key fuel lines status h, List.drop_of_length_le hk]
  · intro hs hps fuel hf
    obtain ⟨lines, status, h, -⟩ := walk_terminates P repo start_commit fuel hf
    have hp := h
    rw [h0] at hp
    have hst := print_loop_status hps fuel _ lines status (frontier_stored_init P hs) hp
    subst hst
    refine ⟨lines, h, key fuel lines 0 h, ?_⟩
    intro hk
    rw [key fuel lines 0 h, List.drop_of_length_le hk]

/-- C6 at concrete inputs: the walk over `chain_repo` with skip counts 2 and 7. -/
theorem skip_correctness_witness :
    walk list_queue chain_repo 6 chain_tip 0 =
      some ([⟨4, 0, 4⟩, ⟨3, 0, 3⟩, ⟨2, 0, 2⟩, ⟨1, 0, 1⟩], 0) ∧
    walk list_queue chain_repo 6 chain_tip 2 = some ([⟨2, 0, 2⟩, ⟨1, 0, 1⟩], 0) ∧
    walk list_queue chain_repo 6 chain_tip 7 = some ([], 0) :=
  ⟨rfl,
   ((skip_correctness list_queue chain_repo chain_tip 2).2.1 6
      [⟨4, 0, 4⟩, ⟨3, 0, 3⟩, ⟨2, 0, 2⟩, ⟨1, 0, 1⟩] 0 rfl).1,
   ((skip_correctness list_queue chain_repo chain_tip 7).2.1 6
      [⟨4, 0, 4⟩, ⟨3, 0, 3⟩, ⟨2, 0, 2⟩, ⟨1, 0, 1⟩] 0 rfl).2 (by decide)⟩

/-- C7 as stated fails: over `chain_repo` (commit 4 the start, single parents
4 → 3 → 2 → 1, strictly decreasing times) no finished walk prints the commits
4, 3, 2, 1 with the offsets 0, 1, 2, 3 and the single cursor root 1. -/
theorem linear_chain_cursors_counterexample :
    ¬ ∃ (fuel : Nat) (lines : List output_line) (status : Nat),
      walk list_queue chain_repo fuel chain_tip 0 = some (lines, status) ∧
      lines.map output_line.oid = [4, 3, 2, 1] ∧
      lines.map output_line.cursor_offset = [0, 1, 2, 3] ∧
      ∀ l ∈ lines, l.cursor_root = 1 := by
  rintro ⟨fuel, lines, status, h, -, hoff, -⟩
  have h6 : walk list_queue chain_repo 6 chain_tip 0 =
      some ([⟨4, 0, 4⟩, ⟨3, 0, 3⟩, ⟨2, 0, 2⟩, ⟨1, 0, 1⟩], 0) := rfl
  have := walk_fuel_unique h h6
  simp only [Prod.mk.injEq] at this
  rw [this.1] at hoff
  revert hoff
  decide

/-- C7, amended: for a chain of four commits with pairwise different ids in which
`d` is the start, the only parent of `d` is `c`, of `c` is `b`, of `b` is `a`, `a`
has no parent, and the times strictly decrease from `d` to `a`, the walk from `d`
(with fuel 5 or more) prints four lines for `d`, `c`, `b`, `a` in that order; every
line has offset 0 and its cursor root is the id of the commit printed on it. -/
theorem linear_chain_cursors (P : priority_queue) (a b c d : git_oid) (tA tB tC tD : Int)
    (hids : [a, b, c, d].Nodup) (_htimes : tA < tB ∧ tB < tC ∧ tC < tD)
    (fuel : Nat) (hf : 5 ≤ fuel) :
    walk P (chain4_repo a b c d tA tB tC tD) fuel ⟨d, tD, [c]⟩ 0 =
      some ([⟨d, 0, d⟩, ⟨c, 0, c⟩, ⟨b, 0, b⟩, ⟨a, 0, a⟩], 0) := by
  obtain ⟨f, rfl⟩ : ∃ f, fuel = f + 5 := ⟨fuel - 5, by omega⟩
  simp only [List.nodup_cons, List.mem_cons, List.mem_singleton, List.not_mem_nil,
    not_or, List.nodup_nil, not_false_eq_true, and_true, or_false] at hids
  obtain ⟨⟨hab, hac, had⟩, ⟨hbc, hbd⟩, hcd⟩ := hids
  have hne : ∀ {x y : git_oid}, x ≠ y → y ≠ x := fun h => Ne.symm h
  have hlc : git_commit_lookup (chain4_repo a b c d tA tB tC tD) c = some ⟨c, tC, [b]⟩ := by
    simp [chain4_repo, git_commit_lookup, List.find?, hne hcd]
  have hlb : git_commit_lookup (chain4_repo a b c d tA tB tC tD) b = some ⟨b, tB, [a]⟩ := by
    simp [chain4_repo, git_commit_lookup, List.find?, hne hbd, hne hbc]
  have hla : git_commit_lookup (chain4_repo a b c d tA tB tC tD) a = some ⟨a, tA, []⟩ := by
    simp [chain4_repo, git_commit_lookup, List.find?, hne had, hne hac, hne hab]
  have hnext : ∀ (seen : List git_oid) (root : git_oid) (off : Nat) (x : git_commit),
      revwalk.has_next (P := P)
        ⟨chain4_repo a b c d tA tB tC tD, P.push P.empty_queue ⟨x⟩, seen, root, off⟩ = true := by
    intro seen root off x
    rw [has_next_iff]
    simp [entries_push_empty]
  have s0 : revwalk.next_oid (P := P)
      ⟨chain4_repo a b c d tA tB tC tD, P.push P.empty_queue ⟨⟨d, tD, [c]⟩⟩, [], d, 0⟩ =
      .ok (d, ⟨chain4_repo a b c d tA tB tC tD, P.push P.empty_queue ⟨⟨c, tC, [b]⟩⟩,
        List.insert c [], c, 0⟩) :=
    next_oid_linear (entries_push_empty P _) rfl (List.not_mem_nil c) hlc
  have s1 : revwalk.next_oid (P := P)
      ⟨chain4_repo a b c d tA tB tC tD, P.push P.empty_queue ⟨⟨c, tC, [b]⟩⟩,
        List.insert c [], c, 0⟩ =
      .ok (c, ⟨chain4_repo a b c d tA tB tC tD, P.push P.empty_queue ⟨⟨b, tB, [a]⟩⟩,
        List.insert b (List.insert c []), b, 0⟩) :=
    next_oid_linear (entries_push_empty P _) rfl (by simp [hbc]) hlb
  have s2 : revwalk.next_oid (P := P)
      ⟨chain4_repo a b c d tA tB tC tD, P.push P.empty_queue ⟨⟨b, tB, [a]⟩⟩,
        List.insert b (List.insert c []), b, 0⟩ =
      .ok (b, ⟨chain4_repo a b c d tA tB tC tD, P.push P.empty_queue ⟨⟨a, tA, []⟩⟩,
        List.insert a (List.insert b (List.insert c [])), a, 0⟩) :=
    next_oid_linear (entries_push_empty P _) rfl (by simp [hab, hac]) hla
  have s3 : revwalk.next_oid (P := P)
      ⟨chain4_repo a b c d tA tB tC tD, P.push P.empty_queue ⟨⟨a, tA, []⟩⟩,
        List.insert a (List.insert b (List.insert c [])), a, 0⟩ =
      .ok (a, ⟨chain4_repo a b c d tA tB tC tD, P.empty_queue,
        List.insert a (List.insert b (List.insert c [])), a, 1⟩) :=
    next_oid_root (entries_push_empty P _) rfl
  have hend : revwalk.has_next (P := P)
      ⟨chain4_repo a b c d tA tB tC tD, P.empty_queue,
        List.insert a (List.insert b (List.insert c [])), a, 1⟩ = false := by
    rw [has_next_false_iff]
    exact P.entries_empty_queue
  have e4 := @print_loop_done P f _ hend
  have e3 := @print_loop_step P (f + 1) _ _ _ (hnext _ _ _ _) s3
  rw [e4] at e3
  have e2 := @print_loop_step P (f + 2) _ _ _ (hnext _ _ _ _) s2
  rw [e3] at e2
  have e1 := @print_loop_step P (f + 3) _ _ _ (hnext _ _ _ _) s1
  rw [e2] at e1
  have e0 := @print_loop_step P (f + 4) _ _ _ (hnext _ _ _ _) s0
  rw [e1] at e0
  exact e0

/-- C7, amended, at a concrete input: the chain 4 → 3 → 2 → 1 with the list
queue. -/
theorem linear_chain_cursors_witness :
    [1, 2, 3, 4].Nodup ∧ ((10 : Int) < 20 ∧ (20 : Int) < 30 ∧ (30 : Int) < 40) ∧
    walk list_queue (chain4_repo 1 2 3 4 10 20 30 40) 5 ⟨4, 40, [3]⟩ 0 =
      some ([⟨4, 0, 4⟩, ⟨3, 0, 3⟩, ⟨2, 0, 2⟩, ⟨1, 0, 1⟩], 0) :=
  ⟨by decide, by decide,
   linear_chain_cursors list_queue 1 2 3 4 10 20 30 40 (by decide) (by decide) 5 (by decide)⟩

/-- C8: max-priority pop.  In every walker state with a non-empty queue, the
top entry `ent` is an entry of the queue whose commit has a committer time
greater than or equal to that of the commit of every entry of the queue, and
`pop` removes exactly that entry.  Whenever `next_oid` returns, it returns the id
of `ent`; and it does return when every parent of `ent` not yet seen is stored,
leaving the queue with the old entries without `ent` plus the parents it
pushed. -/
theorem max_priority_pop (P : priority_queue) (rw : revwalk P) (h : rw.has_next = true) :
    ∃ ent, P.top rw.pq = some ent ∧ ent ∈ P.entries rw.pq ∧
      (∀ x ∈ P.entries rw.pq, x.commit.time ≤ ent.commit.time) ∧
      (P.entries (P.pop rw.pq)).Perm ((P.entries rw.pq).erase ent) ∧
      (∀ oid rw1, rw.next_oid = .ok (oid, rw1) → oid = ent.commit.id) ∧
      ((∀ p ∈ ent.commit.parents, p ∉ rw.seen → git_commit_lookup rw.repo p ≠ none) →
       ∃ (rw1 : revwalk P) (recs : List git_commit),
         rw.next_oid = .ok (ent.commit.id, rw1) ∧
         (P.entries rw1.pq).Perm
           ((P.entries rw.pq).erase ent ++ recs.map revwalk_queue_entry.mk) ∧
         ∀ r ∈ recs, r.id ∈ ent.commit.parents) := by
  obtain ⟨ent, ht⟩ := top_isSome_of_has_next h
  refine ⟨ent, ht, P.top_mem _ _ ht, ?_, P.entries_pop _ _ ht, ?_, ?_⟩
  · intro x hx
    have := P.top_max _ _ ht x hx
    simpa [revwalk_queue_entry.lt, revwalk_queue_entry.committed_at] using this
  · intro oid rw1 ho
    obtain ⟨ent2, -, -, ht2, -, hid, -⟩ := next_oid_ok ho
    rw [ht] at ht2
    cases ht2
    exact hid
  · intro hl
    obtain ⟨rw1, ho⟩ := next_oid_succeeds ht hl
    obtain ⟨c, recs, ht2, -, -, hperm, -, hmem, -, -⟩ := next_oid_effect ho
    rw [ht] at ht2
    cases ht2
    refine ⟨rw1, recs, ho, hperm, ?_⟩
    intro r hr
    exact ((hmem r.id).mp (List.mem_map_of_mem _ hr)).1

/-- C8 at a concrete input: in `merge_state` the queue holds commit 3, of time 20,
and then commit 2, of time 30.  The top entry is commit 2, the later of the two
although pushed second; the advance returns its id 2 and leaves commit 3 queued
together with the newly pushed parent 1. -/
theorem max_priority_pop_witness :
    merge_state.has_next = true ∧
    list_queue.entries merge_state.pq = [⟨⟨3, 20, [1]⟩⟩, ⟨⟨2, 30, [1]⟩⟩] ∧
    list_queue.top merge_state.pq = some ⟨⟨2, 30, [1]⟩⟩ ∧
    list_queue.entries (list_queue.pop merge_state.pq) = [⟨⟨3, 20, [1]⟩⟩] ∧
    merge_state.next_oid =
      .ok (2, ⟨diamond_repo 40 30 20 10, [⟨⟨3, 20, [1]⟩⟩, ⟨⟨1, 10, []⟩⟩], [1, 3, 2], 4, 2⟩) ∧
    ∃ ent, list_queue.top merge_state.pq = some ent ∧
      ent ∈ list_queue.entries merge_state.pq ∧
      (∀ x ∈ list_queue.entries merge_state.pq, x.commit.time ≤ ent.commit.time) ∧
      (list_queue.entries (list_queue.pop merge_state.pq)).Perm
        ((list_queue.entries merge_state.pq).erase ent) ∧
      (∀ oid rw1, merge_state.next_oid = .ok (oid, rw1) → oid = ent.commit.id) ∧
      ((∀ p ∈ ent.commit.parents, p ∉ merge_state.seen →
          git_commit_lookup merge_state.repo p ≠ none) →
       ∃ (rw1 : revwalk list_queue) (recs : List git_commit),
         merge_state.next_oid = .ok (ent.commit.id, rw1) ∧
         (list_queue.entries rw1.pq).Perm
           ((list_queue.entries merge_state.pq).erase ent ++
             recs.map revwalk_queue_entry.mk) ∧
         ∀ r ∈ recs, r.id ∈ ent.commit.parents) :=
  ⟨rfl, rfl, rfl, rfl, rfl, max_priority_pop list_queue merge_state rfl⟩

/-- C9: parent expansion.  In a walker state whose top entry is the commit `c`
and in which every parent of `c` that is not in `seen` is found in the
repository, `next_oid` returns `c.id`; afterwards the queue holds the old entries
without `c` plus one commit, fetched from the repository, for each distinct
parent id of `c` that was not in `seen` (a parent id listed twice is pushed
once); `seen` holds exactly the old ids and all parent ids of `c`; and the parents
already in `seen` are not fetched: the result is the same over any repository that
agrees on the parents not in `seen`. -/
theorem parent_expansion (P : priority_queue) (rw : revwalk P) (c : git_commit)
    (ht : P.top rw.pq = some ⟨c⟩)
    (hl : ∀ p ∈ c.parents, p ∉ rw.seen → git_commit_lookup rw.repo p ≠ none) :
    ∃ (rw1 : revwalk P) (recs : List git_commit),
      rw.next_oid = .ok (c.id, rw1) ∧
      (P.entries rw1.pq).Perm
        ((P.entries rw.pq).erase ⟨c⟩ ++ recs.map revwalk_queue_entry.mk) ∧
      (recs.map git_commit.id).Perm
        ((c.parents.filter (fun p => decide (p ∉ rw.seen))).dedup) ∧
      (∀ r ∈ recs, git_commit_lookup rw.repo r.id = some r) ∧
      (∀ x, x ∈ rw1.seen ↔ x ∈ rw.seen ∨ x ∈ c.parents) ∧
      (∀ repo2 : git_repository,
        (∀ p ∈ c.parents, p ∉ rw.seen →
          git_commit_lookup repo2 p = git_commit_lookup rw.repo p) →
        revwalk.next_oid { rw with repo := repo2 } =
          .ok (c.id, { rw1 with repo := repo2 })) := by
  obtain ⟨rw1, ho⟩ := next_oid_succeeds ht hl
  obtain ⟨c2, recs, ht2, -, -, hperm, hnd, hmem, hlk, hseen⟩ := next_oid_effect ho
  rw [ht] at ht2
  cases ht2
  refine ⟨rw1, recs, ho, hperm, ?_, hlk, hseen, ?_⟩
  · rw [List.perm_ext_iff_of_nodup hnd (List.nodup_dedup _)]
    intro x
    rw [hmem x, List.mem_dedup, List.mem_filter]
    simp
  · intro repo2 hagree
    exact next_oid_congr ht repo2 hagree _ _ ho

/-- C9 at a concrete input: in `dup_state` commit 5 has the parents 2, 3, 2, 1 and
id 1, which the repository does not hold, is already seen. -/
theorem parent_expansion_witness :
    ∃ (rw1 : revwalk list_queue) (recs : List git_commit),
      dup_state.next_oid = .ok (5, rw1) ∧
      (list_queue.entries rw1.pq).Perm
        ((list_queue.entries dup_state.pq).erase ⟨⟨5, 50, [2, 3, 2, 1]⟩⟩ ++
          recs.map revwalk_queue_entry.mk) ∧
      (recs.map git_commit.id).Perm
        (([2, 3, 2, 1].filter (fun p => decide (p ∉ dup_state.seen))).dedup) ∧
      (∀ r ∈ recs, git_commit_lookup dup_state.repo r.id = some r) ∧
      (∀ x, x ∈ rw1.seen ↔ x ∈ dup_state.seen ∨ x ∈ [2, 3, 2, 1]) ∧
      (∀ repo2 : git_repository,
        (∀ p ∈ [2, 3, 2, 1], p ∉ dup_state.seen →
          git_commit_lookup repo2 p = git_commit_lookup dup_state.repo p) →
        revwalk.next_oid { dup_state with repo := repo2 } =
          .ok (5, { rw1 with repo := repo2 })) :=
  parent_expansion list_queue dup_state ⟨5, 50, [2, 3, 2, 1]⟩ rfl (by decide)

/-- C10: fatal lookup failure.  In a walker state whose top entry is the commit
`c`, `next_oid` fails if and only if the scan of the parents of `c`, in order,
reaches a parent that is not in `seen` at that moment and has no commit in the
repository; equivalently, if and only if some parent of `c` outside the `seen` of
before the call has no commit in the repository; a missing commit for a parent
already in `seen` causes no failure.  A finished printing loop printed exactly one
line for each advance completed, in order, and then either found the queue empty
(status 0) or met a failing advance (status 1), for which and after which nothing
is printed; a printing loop that meets a failing advance after `n` completed ones
prints `n` lines and ends with status 1; a failure while skipping prints nothing
and ends with status 1. -/
theorem fatal_lookup_failure (P : priority_queue) :
    (∀ (rw : revwalk P) (c : git_commit), P.top rw.pq = some ⟨c⟩ →
      ((∃ e, rw.next_oid = .error e) ↔
        ∃ (pre : List git_oid) (p : git_oid) (post : List git_oid) (pq1 : P.Q)
          (seen1 : List git_oid),
          c.parents = pre ++ p :: post ∧
          push_parents P rw.repo pre (P.pop rw.pq) rw.seen = .ok (pq1, seen1) ∧
          p ∉ seen1 ∧ git_commit_lookup rw.repo p = none) ∧
      ((∃ e, rw.next_oid = .error e) ↔
        ∃ p ∈ c.parents, p ∉ rw.seen ∧ git_commit_lookup rw.repo p = none) ∧
      (∀ e, rw.next_oid = .error e → e = fault.lookup_failed) ∧
      ((∀ p ∈ c.parents, git_commit_lookup rw.repo p = none → p ∈ rw.seen) →
        ∃ rw1, rw.next_oid = .ok (c.id, rw1))) ∧
    (∀ (fuel : Nat) (rw : revwalk P) (lines : List output_line) (status : Nat),
      print_loop fuel rw = some (lines, status) →
      (∀ (i : Nat) (l : output_line), lines[i]? = some l →
        ∃ rwi rwj : revwalk P, skip_loop i rw = .ok rwi ∧ rwi.has_next = true ∧
          rwi.next_oid = .ok (l.oid, rwj) ∧
          l.cursor_root = rwi.cursor_root ∧ l.cursor_offset = rwi.cursor_offset) ∧
      ∃ rwn : revwalk P, skip_loop lines.length rw = .ok rwn ∧
        ((status = 0 ∧ rwn.has_next = false) ∨
         (status = 1 ∧ rwn.has_next = true ∧
           rwn.next_oid = .error fault.lookup_failed))) ∧
    (∀ (n : Nat) (rw rwn : revwalk P) (e : fault) (fuel : Nat),
      skip_loop n rw = .ok rwn → rwn.has_next = true → rwn.next_oid = .error e → n < fuel →
      ∃ lines, print_loop fuel rw = some (lines, 1) ∧ lines.length = n) ∧
    (∀ (repo : git_repository) (fuel : Nat) (start_commit : git_commit) (skip : Nat)
      (e : fault), skip_loop skip (revwalk.init P repo start_commit) = .error e →
      walk P repo fuel start_commit skip = some ([], 1)) := by
  refine ⟨?_, fun fuel => print_loop_spec fuel, fun n => print_loop_of_fail n,
    fun _ _ _ _ _ h => walk_of_skip_error h⟩
  intro rw c ht
  refine ⟨?_, ?_, ?_, ?_⟩
  · rw [next_oid_error_iff_push ht]
    exact push_parents_error_scan rw.repo c.parents (P.pop rw.pq) rw.seen
  · constructor
    · rintro ⟨e, he⟩
      exact ((next_oid_error_iff ht e).mp he).2
    · intro h
      exact ⟨fault.lookup_failed, (next_oid_error_iff ht _).mpr ⟨rfl, h⟩⟩
  · intro e he
    exact ((next_oid_error_iff ht e).mp he).1
  · intro h
    apply next_oid_succeeds ht
    intro p hp hps hnone
    exact hps (h p hp hnone)

/-- C10 at concrete inputs: in `broken_repo` the advance that pops commit 2 fails
on its missing parent 1, so the walk prints the line of commit 3 only and ends
with status 1, and with one emission skipped it prints nothing; in `dup_state`
the missing parent 1 is already seen and the advance succeeds. -/
theorem fatal_lookup_failure_witness :
    ((∃ e, revwalk.next_oid (P := list_queue) ⟨broken_repo, [⟨⟨2, 20, [1]⟩⟩], [2], 2, 0⟩
        = .error e) ↔
      ∃ p ∈ [1], p ∉ [2] ∧ git_commit_lookup broken_repo p = none) ∧
    (∃ rw1, dup_state.next_oid = .ok (5, rw1)) ∧
    walk list_queue broken_repo 5 broken_tip 0 = some ([⟨3, 0, 3⟩], 1) ∧
    (∃ lines, print_loop 5 broken_start = some (lines, 1) ∧ lines.length = 1) ∧
    walk list_queue broken_repo 5 broken_tip 2 = some ([], 1) :=
  ⟨((fatal_lookup_failure list_queue).1 ⟨broken_repo, [⟨⟨2, 20, [1]⟩⟩], [2], 2, 0⟩
      ⟨2, 20, [1]⟩ rfl).2.1,
   ((fatal_lookup_failure list_queue).1 dup_state ⟨5, 50, [2, 3, 2, 1]⟩ rfl).2.2.2
      (by decide),
   rfl,
   (fatal_lookup_failure list_queue).2.2.1 1 broken_start
      ⟨broken_repo, [⟨⟨2, 20, [1]⟩⟩], [2], 2, 0⟩ fault.lookup_failed 5 rfl rfl rfl (by decide),
   (fatal_lookup_failure list_queue).2.2.2 broken_repo 5 broken_tip 2 fault.lookup_failed rfl⟩

/-- C11: construction.  For every start commit, the newly constructed walker has
a queue holding exactly the start commit, so `has_next` is true; its cursor root
is the id of the start commit, its cursor offset is 0 and its `seen` set is empty.
In every walker state `has_next` is true if and only if the queue is not empty. -/
theorem construction (P : priority_queue) (repo : git_repository)
    (start_commit : git_commit) :
    P.entries (revwalk.init P repo start_commit).pq = [⟨start_commit⟩] ∧
    (revwalk.init P repo start_commit).has_next = true ∧
    (revwalk.init P repo start_commit).cursor_root = start_commit.id ∧
    (revwalk.init P repo start_commit).cursor_offset = 0 ∧
    (revwalk.init P repo start_commit).seen = [] ∧
    (revwalk.init P repo start_commit).repo = repo ∧
    ∀ rw : revwalk P, rw.has_next = true ↔ P.entries rw.pq ≠ [] := by
  refine ⟨entries_push_empty P _, ?_, rfl, rfl, rfl, rfl, has_next_iff⟩
  rw [has_next_iff]
  show P.entries (P.push P.empty_queue ⟨start_commit⟩) ≠ []
  rw [entries_push_empty]
  simp

/-- C11 at a concrete input: the start state over `chain_repo` with the list
queue, and the state `dup_state`. -/
theorem construction_witness :
    list_queue.entries chain_start.pq = [⟨chain_tip⟩] ∧
    chain_start.has_next = true ∧
    chain_start.cursor_root = 4 ∧ chain_start.cursor_offset = 0 ∧ chain_start.seen = [] ∧
    (dup_state.has_next = true ↔ list_queue.entries dup_state.pq ≠ []) :=
  ⟨(construction list_queue chain_repo chain_tip).1,
   (construction list_queue chain_repo chain_tip).2.1,
   (construction list_queue chain_repo chain_tip).2.2.1,
   (construction list_queue chain_repo chain_tip).2.2.2.1,
   (construction list_queue chain_repo chain_tip).2.2.2.2.1,
   (construction list_queue chain_repo chain_tip).2.2.2.2.2.2 dup_state⟩

/-- C12: exit status of the host program.  With fewer than two arguments the run
prints no line, writes the usage text and ends with status 1, whatever `GIT_DIR`
is, so this check comes before the configuration check.  With the reference given
and `GIT_DIR` unset, with a repository that cannot be opened, or with a reference
that cannot be resolved to a stored commit, the run prints no line and ends with
status 1.  A run whose walk, after the skip loop, reaches an empty queue by
successful advances prints its lines and ends with status 0; this is the case,
with fuel `repo.length + 2` or more, whenever every parent is stored. -/
theorem exit_status (P : priority_queue) (E : environment) (fuel : Nat)
    (argv : List String) :
    (argv.length < 2 → main P E fuel argv = some ⟨[], some diagnostic.usage, 1⟩) ∧
    (2 ≤ argv.length → E.getenv_GIT_DIR = none →
      main P E fuel argv = some ⟨[], some diagnostic.must_set_GIT_DIR, 1⟩) ∧
    (∀ git_dir, 2 ≤ argv.length → E.getenv_GIT_DIR = some git_dir →
      E.git_repository_open git_dir = none →
      main P E fuel argv = some ⟨[], some (diagnostic.giterr "git_repository_open"), 1⟩) ∧
    (∀ git_dir repo, 2 ≤ argv.length → E.getenv_GIT_DIR = some git_dir →
      E.git_repository_open git_dir = some repo →
      (E.git_revparse_single repo (argv.getD 1 "") = none ∨
        ∃ o, E.git_revparse_single repo (argv.getD 1 "") = some o ∧
          git_commit_lookup repo o = none) →
      ∃ d, main P E fuel argv = some ⟨[], some d, 1⟩) ∧
    (∀ git_dir repo start_commit (rw rwn : revwalk P) (n : Nat),
      2 ≤ argv.length → E.getenv_GIT_DIR = some git_dir →
      E.git_repository_open git_dir = some repo →
      revparse_commit E repo (argv.getD 1 "") = .ok start_commit →
      skip_loop (if 2 < argv.length then size_t_of_int (E.atoi (argv.getD 2 "")) else 0)
        (revwalk.init P repo start_commit) = .ok rw →
      skip_loop n rw = .ok rwn → rwn.has_next = false → n < fuel →
      ∃ lines, main P E fuel argv = some ⟨lines, none, 0⟩) ∧
    (∀ git_dir repo start_commit,
      2 ≤ argv.length → E.getenv_GIT_DIR = some git_dir →
      E.git_repository_open git_dir = some repo →
      revparse_commit E repo (argv.getD 1 "") = .ok start_commit →
      parents_stored repo → repo.length + 2 ≤ fuel →
      ∃ lines, main P E fuel argv = some ⟨lines, none, 0⟩) := by
  refine ⟨main_of_few_args P E fuel, main_of_no_GIT_DIR P E fuel,
    fun git_dir h hg ho => main_of_open_failed P E fuel h hg ho, ?_, ?_, ?_⟩
  · intro git_dir repo h hg ho hr
    obtain ⟨d, hd⟩ := (revparse_commit_error_iff E repo _).mpr hr
    exact ⟨d, main_of_revparse_failed P E fuel h hg ho hd⟩
  · intro git_dir repo start_commit rw rwn n h hg ho hr hsk hn hdone hf
    obtain ⟨lines, hl, -⟩ := print_loop_of_done n rw rwn fuel hn hdone hf
    refine ⟨lines, ?_⟩
    rw [main_of_walk P E fuel h hg ho hr, walk_of_skip_ok hsk, hl]
    rfl
  · intro git_dir repo start_commit h hg ho hr hps hf
    obtain ⟨lines, hl⟩ :=
      walk_status_zero P (revparse_commit_stored hr) hps fuel hf
        (if 2 < argv.length then size_t_of_int (E.atoi (argv.getD 2 "")) else 0)
    refine ⟨lines, ?_⟩
    rw [main_of_walk P E fuel h hg ho hr, hl]
    rfl

/-- C12 at concrete inputs: runs in `chain_env` without a reference, with an
unset `GIT_DIR`, with a reference that does not resolve, and with the reference
`"tip"` and a skip count of 2. -/
theorem exit_status_witness :
    main list_queue chain_env 6 ["git-cursor-log"] = some ⟨[], some diagnostic.usage, 1⟩ ∧
    main list_queue { chain_env with getenv_GIT_DIR := none } 6 ["git-cursor-log"] =
      some ⟨[], some diagnostic.usage, 1⟩ ∧
    main list_queue { chain_env with getenv_GIT_DIR := none } 6 ["git-cursor-log", "tip"] =
      some ⟨[], some diagnostic.must_set_GIT_DIR, 1⟩ ∧
    (∃ d, main list_queue chain_env 6 ["git-cursor-log", "nowhere"] = some ⟨[], some d, 1⟩) ∧
    (∃ lines, main list_queue chain_env 6 ["git-cursor-log", "tip", "2"] =
      some ⟨lines, none, 0⟩) ∧
    main list_queue chain_env 6 ["git-cursor-log", "tip", "2"] =
      some ⟨[⟨2, 0, 2⟩, ⟨1, 0, 1⟩], none, 0⟩ :=
  ⟨(exit_status list_queue chain_env 6 ["git-cursor-log"]).1 (by decide),
   (exit_status list_queue { chain_env with getenv_GIT_DIR := none } 6
      ["git-cursor-log"]).1 (by decide),
   (exit_status list_queue { chain_env with getenv_GIT_DIR := none } 6
      ["git-cursor-log", "tip"]).2.1 (by decide) rfl,
   (exit_status list_queue chain_env 6 ["git-cursor-log", "nowhere"]).2.2.2.1
      "chain.git" chain_repo (by decide) rfl rfl (Or.inl (by decide)),
   (exit_status list_queue chain_env 6 ["git-cursor-log", "tip", "2"]).2.2.2.2.2
      "chain.git" chain_repo chain_tip (by decide) rfl rfl rfl
      chain_parents_stored (by decide),
   by decide⟩

/-- C13: resume reproduces the tail of the walk.  Over a repository in which
every stored parent has a committer time strictly less than its child's (which
excludes cycles), for every line (root, offset, X) printed, as line `i`, by a
finished walk from a stored start commit: the repository stores a commit under
`root`, and the walk from that commit with skip count `offset` and fuel
`repo.length + 2` or more prints exactly the original lines from line `i` on,
with the same cursors and ids, and ends with the same status; its first line is
(root, offset, X) itself.  Failed lookups, if any, are reproduced as well. -/
theorem resume_tail (P : priority_queue) (repo : git_repository)
    (start_commit : git_commit)
    (hs : git_commit_lookup repo start_commit.id = some start_commit)
    (hstrict : time_strict repo) (fuel : Nat) (lines : List output_line) (status : Nat)
    (h : walk P repo fuel start_commit 0 = some (lines, status))
    (i : Nat) (l : output_line) (hl : lines[i]? = some l) :
    acyclic repo ∧
    ∃ root_commit, git_commit_lookup repo l.cursor_root = some root_commit ∧
      ∀ fuel2, repo.length + 2 ≤ fuel2 →
        walk P repo fuel2 root_commit l.cursor_offset = some (lines.drop i, status) ∧
        (lines.drop i).head? = some l := by
  refine ⟨acyclic_of_time_strict hstrict, ?_⟩
  obtain ⟨cr, hcr, hw⟩ := walk_resume_tail P hs hstrict h hl
  refine ⟨cr, hcr, fun fuel2 hf => ⟨hw fuel2 hf, ?_⟩⟩
  rw [List.head?_drop]
  exact hl

/-- C13 at a concrete input: the third line, (4, 2, 3), of the walk over the
diamond with times 40, 30, 20, 10; the resumed walk prints the last two lines. -/
theorem resume_tail_witness :
    git_commit_lookup (diamond_repo 40 30 20 10) (diamond_tip 40).id = some (diamond_tip 40) ∧
    time_strict (diamond_repo 40 30 20 10) ∧
    walk list_queue (diamond_repo 40 30 20 10) 6 (diamond_tip 40) 0 =
      some ([⟨4, 0, 4⟩, ⟨4, 1, 2⟩, ⟨4, 2, 3⟩, ⟨4, 3, 1⟩], 0) ∧
    acyclic (diamond_repo 40 30 20 10) ∧
    ∃ root_commit,
      git_commit_lookup (diamond_repo 40 30 20 10) 4 = some root_commit ∧
      ∀ fuel2, (diamond_repo 40 30 20 10).length + 2 ≤ fuel2 →
        walk list_queue (diamond_repo 40 30 20 10) fuel2 root_commit 2 =
          some (([⟨4, 0, 4⟩, ⟨4, 1, 2⟩, ⟨4, 2, 3⟩, ⟨4, 3, 1⟩] : List output_line).drop 2, 0) ∧
        (([⟨4, 0, 4⟩, ⟨4, 1, 2⟩, ⟨4, 2, 3⟩, ⟨4, 3, 1⟩] : List output_line).drop 2).head? =
          some ⟨4, 2, 3⟩ :=
  ⟨rfl, diamond_time_strict, rfl,
   resume_tail list_queue (diamond_repo 40 30 20 10) (diamond_tip 40) rfl
     diamond_time_strict 6 [⟨4, 0, 4⟩, ⟨4, 1, 2⟩, ⟨4, 2, 3⟩, ⟨4, 3, 1⟩] 0 rfl 2 ⟨4, 2, 3⟩ rfl⟩

/-- C14: the root rolls forward to the next commit.  In every state reachable
from construction by advances, if the cursor offset is 0 and the queue is not
empty, then the queue holds exactly one commit and its id is the cursor root.
Hence every line with offset 0 printed by a finished walk, with any skip count,
has its root equal to its commit id; and after an advance that resets the root
(the popped commit has one parent and the queue is empty after the pop) the
cursor is (that parent, 0) and the next advance, if it returns, returns the new
root. -/
theorem root_rolls_forward (P : priority_queue) (repo : git_repository)
    (start_commit : git_commit) :
    (∀ rw : revwalk P, walk_state P repo start_commit rw → rw.cursor_offset = 0 →
      rw.has_next = true → ∃ c, P.entries rw.pq = [⟨c⟩] ∧ c.id = rw.cursor_root) ∧
    (∀ fuel skip lines status, walk P repo fuel start_commit skip = some (lines, status) →
      ∀ l ∈ lines, l.cursor_offset = 0 → l.cursor_root = l.oid) ∧
    (∀ (rw rw1 : revwalk P) (oid : git_oid) (c : git_commit),
      walk_state P repo start_commit rw → P.top rw.pq = some ⟨c⟩ →
      c.parents.length = 1 → P.entries (P.pop rw.pq) = [] → rw.next_oid = .ok (oid, rw1) →
      rw1.cursor_offset = 0 ∧ c.parents.head? = some rw1.cursor_root ∧
      ∀ oid2 rw2, rw1.next_oid = .ok (oid2, rw2) → oid2 = rw1.cursor_root) := by
  refine ⟨fun rw hw h0 hn => walk_state_offset_zero hw h0 hn, ?_, ?_⟩
  · intro fuel skip lines status h
    unfold walk at h
    rcases hs : skip_loop skip (revwalk.init P repo start_commit) with e | rw
    · rw [hs] at h
      simp only [Option.some.injEq, Prod.mk.injEq] at h
      intro l hl
      rw [← h.1] at hl
      simp at hl
    · rw [hs] at h
      exact print_loop_offset_zero fuel rw lines status
        (walk_state_skip_loop skip _ rw walk_state.init hs) h
  · intro rw rw1 oid c hw ht hlen hnil ho
    obtain ⟨c2, ht2, -, hrule⟩ := next_oid_cursor_rule ho
    rw [ht] at ht2
    cases ht2
    obtain ⟨hroot, hoff⟩ := hrule.1 ⟨hlen, hnil⟩
    refine ⟨hoff, hroot, ?_⟩
    intro oid2 rw2 ho2
    exact walk_state_next_oid_root (walk_state.step hw ho) hoff ho2

/-- C14 at concrete inputs: the start state over `chain_repo`, the lines of the
walk over the diamond with times 40, 30, 20, 10, and the first advance over
`chain_repo`, which resets the root to commit 3. -/
theorem root_rolls_forward_witness :
    (∃ c, list_queue.entries chain_start.pq = [⟨c⟩] ∧ c.id = chain_start.cursor_root) ∧
    (∀ l ∈ ([⟨4, 0, 4⟩, ⟨4, 1, 2⟩, ⟨4, 2, 3⟩, ⟨4, 3, 1⟩] : List output_line),
      l.cursor_offset = 0 → l.cursor_root = l.oid) ∧
    ((3 : Nat) = 3 ∧ [3].head? = some 3 ∧
      ∀ oid2 rw2,
        revwalk.next_oid (P := list_queue) ⟨chain_repo, [⟨⟨3, 30, [2]⟩⟩], [3], 3, 0⟩ =
          .ok (oid2, rw2) → oid2 = 3) :=
  ⟨(root_rolls_forward list_queue chain_repo chain_tip).1 chain_start walk_state.init rfl rfl,
   (root_rolls_forward list_queue (diamond_repo 40 30 20 10) (diamond_tip 40)).2.1 6 0
     [⟨4, 0, 4⟩, ⟨4, 1, 2⟩, ⟨4, 2, 3⟩, ⟨4, 3, 1⟩] 0 rfl,
   ⟨rfl, rfl,
    ((root_rolls_forward list_queue chain_repo chain_tip).2.2 chain_start
      ⟨chain_repo, [⟨⟨3, 30, [2]⟩⟩], [3], 3, 0⟩ 4 chain_tip walk_state.init rfl rfl rfl rfl).2.2⟩⟩

/-- C15: seen-set invariant.  Over an acyclic repository, from a stored start
commit, in every state reachable from construction by advances, with `pushed`
the entries the advances have pushed onto the queue: (i) an advance removes no
id from `seen`; (ii) the ids in `seen` are exactly the ids of the pushed entries,
and the id of every queued commit is the start id or in `seen`; (iii) the start id
is not in `seen`; (iv) the ids of the queued commits are pairwise different.
Every reachable state has such a history. -/
theorem seen_set_invariant (P : priority_queue) (repo : git_repository)
    (start_commit : git_commit)
    (hs : git_commit_lookup repo start_commit.id = some start_commit)
    (hac : acyclic repo) :
    (∀ rw : revwalk P, walk_state P repo start_commit rw →
      ∃ emitted pushed, walk_trace P repo start_commit emitted pushed rw) ∧
    (∀ (emitted : List git_oid) (pushed : List revwalk_queue_entry) (rw : revwalk P),
      walk_trace P repo start_commit emitted pushed rw →
      (∀ oid rw1, rw.next_oid = .ok (oid, rw1) → ∀ x ∈ rw.seen, x ∈ rw1.seen) ∧
      (∀ x, x ∈ rw.seen ↔ x ∈ pushed.map (fun e => e.commit.id)) ∧
      (∀ e ∈ P.entries rw.pq, e.commit.id = start_commit.id ∨ e.commit.id ∈ rw.seen) ∧
      start_commit.id ∉ rw.seen ∧
      (frontier_ids rw).Nodup) := by
  refine ⟨fun rw hw => walk_trace_of_state hw, ?_⟩
  intro emitted pushed rw ht
  have hinv := walk_trace_inv hs hac ht
  refine ⟨?_, walk_trace_seen ht, ?_, ?_, (List.nodup_append.mp hinv.nodup).2.1⟩
  · intro oid rw1 ho x hx
    obtain ⟨c, recs, -, -, -, -, -, -, -, hseen⟩ := next_oid_effect ho
    exact (hseen x).mpr (Or.inl hx)
  · intro e he
    exact (hinv.mem_iff e.commit.id).mp
      (Or.inr (List.mem_map_of_mem (fun e : revwalk_queue_entry => e.commit.id) he))
  · intro hx
    exact hac _ (hinv.seen_reach _ hx)

/-- C15 at a concrete input: the state of the walk over the diamond with times 40,
30, 20, 10 after its first advance, which popped commit 4 and pushed 2 and 3. -/
theorem seen_set_invariant_witness :
    git_commit_lookup (diamond_repo 40 30 20 10) (diamond_tip 40).id = some (diamond_tip 40) ∧
    acyclic (diamond_repo 40 30 20 10) ∧
    (∀ x, x ∈ [3, 2] ↔
      x ∈ ([⟨⟨2, 30, [1]⟩⟩, ⟨⟨3, 20, [1]⟩⟩] : List revwalk_queue_entry).map
        (fun e => e.commit.id)) ∧
    (4 : git_oid) ∉ [3, 2] ∧
    (frontier_ids (P := list_queue)
      ⟨diamond_repo 40 30 20 10, [⟨⟨2, 30, [1]⟩⟩, ⟨⟨3, 20, [1]⟩⟩], [3, 2], 4, 1⟩).Nodup :=
  ⟨rfl, diamond_acyclic 40 30 20 10,
   ((seen_set_invariant list_queue (diamond_repo 40 30 20 10) (diamond_tip 40) rfl
      (diamond_acyclic 40 30 20 10)).2 [4] [⟨⟨2, 30, [1]⟩⟩, ⟨⟨3, 20, [1]⟩⟩]
      ⟨diamond_repo 40 30 20 10, [⟨⟨2, 30, [1]⟩⟩, ⟨⟨3, 20, [1]⟩⟩], [3, 2], 4, 1⟩
      (walk_trace.step walk_trace.init rfl rfl (List.Perm.refl _))).2.1,
   ((seen_set_invariant list_queue (diamond_repo 40 30 20 10) (diamond_tip 40) rfl
      (diamond_acyclic 40 30 20 10)).2 [4] [⟨⟨2, 30, [1]⟩⟩, ⟨⟨3, 20, [1]⟩⟩]
      ⟨diamond_repo 40 30 20 10, [⟨⟨2, 30, [1]⟩⟩, ⟨⟨3, 20, [1]⟩⟩], [3, 2], 4, 1⟩
      (walk_trace.step walk_trace.init rfl rfl (List.Perm.refl _))).2.2.2.1,
   ((seen_set_invariant list_queue (diamond_repo 40 30 20 10) (diamond_tip 40) rfl
      (diamond_acyclic 40 30 20 10)).2 [4] [⟨⟨2, 30, [1]⟩⟩, ⟨⟨3, 20, [1]⟩⟩]
      ⟨diamond_repo 40 30 20 10, [⟨⟨2, 30, [1]⟩⟩, ⟨⟨3, 20, [1]⟩⟩], [3, 2], 4, 1⟩
      (walk_trace.step walk_trace.init rfl rfl (List.Perm.refl _))).2.2.2.2⟩

/-- C16: reverse-chronological order under consistent timestamps.  From a stored
start commit: when every stored parent has a committer time less than or equal to
its child's, the walk finishes (fuel `repo.length + 2` or more) and the commits
returned by the successive advances of a finished walk have non-increasing
committer times; when the inequality is strict, every commit printed comes
before each of its parents that is printed, and, with every parent stored, each
parent of a printed commit is printed on a later line. -/
theorem reverse_chronological (P : priority_queue) (repo : git_repository)
    (start_commit : git_commit)
    (hs : git_commit_lookup repo start_commit.id = some start_commit) :
    (time_monotone repo →
      (∀ fuel, repo.length + 2 ≤ fuel →
        ∃ lines status, walk P repo fuel start_commit 0 = some (lines, status)) ∧
      ∀ fuel lines status, walk P repo fuel start_commit 0 = some (lines, status) →
        ∃ recs : List git_commit,
          recs.map git_commit.id = lines.map output_line.oid ∧
          (∀ r ∈ recs, git_commit_lookup repo r.id = some r) ∧
          (recs.map git_commit.time).Sorted (· ≥ ·)) ∧
    (time_strict repo →
      ∀ fuel lines status, walk P repo fuel start_commit 0 = some (lines, status) →
        ∀ (i j : Nat) (li lj : output_line) (ci : git_commit),
          lines[i]? = some li → lines[j]? = some lj →
          git_commit_lookup repo li.oid = some ci → lj.oid ∈ ci.parents → i < j) ∧
    (time_strict repo → parents_stored repo →
      ∀ fuel, repo.length + 2 ≤ fuel →
        ∃ lines, walk P repo fuel start_commit 0 = some (lines, 0) ∧
          ∀ (i : Nat) (li : output_line) (ci : git_commit),
            lines[i]? = some li → git_commit_lookup repo li.oid = some ci →
            ∀ p ∈ ci.parents, ∃ (j : Nat) (lj : output_line),
              i < j ∧ lines[j]? = some lj ∧ lj.oid = p) := by
  have h0 : ∀ fuel, walk P repo fuel start_commit 0 =
      print_loop fuel (revwalk.init P repo start_commit) := fun _ => rfl
  refine ⟨?_, ?_, ?_⟩
  · intro hmono
    refine ⟨?_, ?_⟩
    · intro fuel hf
      obtain ⟨lines, status, h, -⟩ := walk_terminates P repo start_commit fuel hf
      exact ⟨lines, status, h⟩
    · intro fuel lines status h
      rw [h0] at h
      obtain ⟨recs, h1, h2, h3, -⟩ :=
        print_loop_sorted hmono fuel _ lines status (frontier_stored_init P hs) h
      exact ⟨recs, h1, h2, h3⟩
  · intro hstrict fuel lines status h i j li lj ci hli hlj hci hp
    exact walk_child_first P hs hstrict h hli hlj hci hp
  · intro hstrict hps fuel hf
    obtain ⟨lines, h, -, hmem⟩ :=
      walk_complete P hs (acyclic_of_time_strict hstrict) hps fuel hf
    refine ⟨lines, h, ?_⟩
    intro i li ci hli hci p hp
    have hreach_i : reachable repo start_commit.id li.oid :=
      (hmem li.oid).mp (List.mem_map_of_mem _ (List.mem_iff_getElem?.mpr ⟨i, hli⟩))
    have hreach_p : reachable repo start_commit.id p :=
      Relation.ReflTransGen.tail hreach_i ⟨ci, hci, hp⟩
    obtain ⟨lj, hlj, hoid⟩ := List.mem_map.mp ((hmem p).mpr hreach_p)
    obtain ⟨j, hj⟩ := List.mem_iff_getElem?.mp hlj
    refine ⟨j, lj, ?_, hj, hoid⟩
    exact walk_child_first P hs hstrict h hli hj hci (hoid ▸ hp)

/-- C16 at a concrete input: the diamond with times 40, 30, 20, 10, where commit
2 on line 1 comes before its parent 1 on line 3. -/
theorem reverse_chronological_witness :
    git_commit_lookup (diamond_repo 40 30 20 10) (diamond_tip 40).id = some (diamond_tip 40) ∧
    time_strict (diamond_repo 40 30 20 10) ∧
    (∃ recs : List git_commit,
      recs.map git_commit.id =
        ([⟨4, 0, 4⟩, ⟨4, 1, 2⟩, ⟨4, 2, 3⟩, ⟨4, 3, 1⟩] : List output_line).map output_line.oid ∧
      (∀ r ∈ recs, git_commit_lookup (diamond_repo 40 30 20 10) r.id = some r) ∧
      (recs.map git_commit.time).Sorted (· ≥ ·)) ∧
    1 < 3 :=
  ⟨rfl, diamond_time_strict,
   ((reverse_chronological list_queue (diamond_repo 40 30 20 10) (diamond_tip 40) rfl).1
      diamond_time_monotone).2 6 [⟨4, 0, 4⟩, ⟨4, 1, 2⟩, ⟨4, 2, 3⟩, ⟨4, 3, 1⟩] 0 rfl,
   (reverse_chronological list_queue (diamond_repo 40 30 20 10) (diamond_tip 40) rfl).2.1
      diamond_time_strict 6 [⟨4, 0, 4⟩, ⟨4, 1, 2⟩, ⟨4, 2, 3⟩, ⟨4, 3, 1⟩] 0 rfl
      1 3 ⟨4, 1, 2⟩ ⟨4, 3, 1⟩ ⟨2, 30, [1]⟩ rfl rfl rfl (by decide)⟩

/-- C17: termination.  Over a repository, acyclic or not, in which the start
commit and every parent are stored, let `N` be the number of ids reachable from
the start (at most `repo.length`).  With fuel `N + 2` or more the walk finishes
with status 0: after as many advances as it prints lines, at most `N + 1`, the
queue is empty; every id other than the start's is printed at most once, and the
start's at most twice. -/
theorem termination (P : priority_queue) (repo : git_repository)
    (start_commit : git_commit)
    (hs : git_commit_lookup repo start_commit.id = some start_commit)
    (hps : parents_stored repo) :
    Set.ncard {x | reachable repo start_commit.id x} ≤ repo.length ∧
    ∀ fuel, Set.ncard {x | reachable repo start_commit.id x} + 2 ≤ fuel →
      ∃ lines, walk P repo fuel start_commit 0 = some (lines, 0) ∧
        lines.length ≤ Set.ncard {x | reachable repo start_commit.id x} + 1 ∧
        (∃ rwn : revwalk P,
          skip_loop lines.length (revwalk.init P repo start_commit) = .ok rwn ∧
          rwn.has_next = false) ∧
        (∀ x, x ≠ start_commit.id → (lines.map output_line.oid).count x ≤ 1) ∧
        (lines.map output_line.oid).count start_commit.id ≤ 2 := by
  refine ⟨reachable_ncard_le hs hps, ?_⟩
  intro fuel hf
  obtain ⟨lines, hw⟩ := walk_status_zero P hs hps (repo.length + 2) le_rfl 0
  obtain ⟨hlen, hc1, hc2⟩ := walk_length_le P hs hw
  have h0 : ∀ f, walk P repo f start_commit 0 =
      print_loop f (revwalk.init P repo start_commit) := fun _ => rfl
  have hfuel : walk P repo fuel start_commit 0 = some (lines, 0) := by
    rw [h0] at hw ⊢
    exact print_loop_mono _ _ _ fuel (print_loop_min_fuel _ _ lines 0 hw) (by omega)
  refine ⟨lines, hfuel, hlen, ?_, hc1, hc2⟩
  rw [h0] at hfuel
  obtain ⟨-, rwn, hsk, hfin⟩ := print_loop_spec fuel _ lines 0 hfuel
  refine ⟨rwn, hsk, ?_⟩
  rcases hfin with ⟨-, h1⟩ | ⟨h1, -⟩
  · exact h1
  · cases h1

/-- C17 at a concrete input: over `cycle_repo`, whose two commits are each
other's parent, the walk from commit 1 prints 1, 2 and 1 again and stops. -/
theorem termination_witness :
    git_commit_lookup cycle_repo cycle_tip.id = some cycle_tip ∧
    parents_stored cycle_repo ∧
    walk list_queue cycle_repo 4 cycle_tip 0 =
      some ([⟨1, 0, 1⟩, ⟨2, 0, 2⟩, ⟨1, 0, 1⟩], 0) ∧
    Set.ncard {x | reachable cycle_repo cycle_tip.id x} ≤ cycle_repo.length ∧
    ∀ fuel, Set.ncard {x | reachable cycle_repo cycle_tip.id x} + 2 ≤ fuel →
      ∃ lines, walk list_queue cycle_repo fuel cycle_tip 0 = some (lines, 0) ∧
        lines.length ≤ Set.ncard {x | reachable cycle_repo cycle_tip.id x} + 1 ∧
        (∃ rwn : revwalk list_queue,
          skip_loop lines.length (revwalk.init list_queue cycle_repo cycle_tip) = .ok rwn ∧
          rwn.has_next = false) ∧
        (∀ x, x ≠ cycle_tip.id → (lines.map output_line.oid).count x ≤ 1) ∧
        (lines.map output_line.oid).count cycle_tip.id ≤ 2 :=
  ⟨rfl, parents_stored_of_mem (by decide), rfl,
   termination list_queue cycle_repo cycle_tip rfl (parents_stored_of_mem (by decide))⟩

/-- C18: the output depends only on the reachable history.  If a second
repository returns, for every id reachable from the start through parent links of
the first, the same result of the lookup (the same commit, or none), then from a
start commit the first stores, with the same skip count and fuel, the walks over
the two repositories have the same result: the same lines and the same exit
status, whatever else the repositories hold or lack; both finish with fuel
`repo.length + 2` or more.  Two runs over the same repository are the case
`repo2 = repo`. -/
theorem reachable_history_only (P : priority_queue) (repo repo2 : git_repository)
    (start_commit : git_commit)
    (hs : git_commit_lookup repo start_commit.id = some start_commit)
    (hagree : ∀ x, reachable repo start_commit.id x →
      git_commit_lookup repo2 x = git_commit_lookup repo x) :
    (∀ fuel skip, walk P repo2 fuel start_commit skip = walk P repo fuel start_commit skip) ∧
    (∀ fuel skip, repo.length + 2 ≤ fuel →
      ∃ lines status, walk P repo fuel start_commit skip = some (lines, status) ∧
        walk P repo2 fuel start_commit skip = some (lines, status)) := by
  refine ⟨fun fuel skip => walk_repo_congr P hs hagree fuel skip, ?_⟩
  intro fuel skip hf
  obtain ⟨lines, status, h⟩ := walk_skip_terminates P repo start_commit fuel hf skip
  exact ⟨lines, status, h, (walk_repo_congr P hs hagree fuel skip).trans h⟩

/-- C18 at a concrete input: the diamond with times 40, 30, 20, 10 and
`diamond_extended_repo`, which adds commits not reachable from commit 4. -/
theorem reachable_history_only_witness :
    git_commit_lookup (diamond_repo 40 30 20 10) (diamond_tip 40).id = some (diamond_tip 40) ∧
    (∀ x, reachable (diamond_repo 40 30 20 10) (diamond_tip 40).id x →
      git_commit_lookup diamond_extended_repo x =
        git_commit_lookup (diamond_repo 40 30 20 10) x) ∧
    walk list_queue diamond_extended_repo 6 (diamond_tip 40) 1 =
      walk list_queue (diamond_repo 40 30 20 10) 6 (diamond_tip 40) 1 ∧
    walk list_queue (diamond_repo 40 30 20 10) 6 (diamond_tip 40) 1 =
      some ([⟨4, 1, 2⟩, ⟨4, 2, 3⟩, ⟨4, 3, 1⟩], 0) :=
  ⟨rfl, diamond_extended_agree,
   (reachable_history_only list_queue (diamond_repo 40 30 20 10) diamond_extended_repo
      (diamond_tip 40) rfl diamond_extended_agree).1 6 1,
   rfl⟩

end GitCursorLog
